import Mathlib

/-!
# SQL fingerprinting (`src/lib/fingerprint.go`)

A shallow embedding of `GetFingerprint` and `collapseUnion`.

* Query texts are sequences of Unicode code points (`Str`).
* The regular expressions of the source are written as terms of `Re` and run by a
  backtracking matcher with the leftmost-first priorities of Go's `regexp` package:
  alternatives are tried left to right, greedy repetitions prefer one more iteration,
  lazy repetitions prefer to stop.
* Every pattern of `fingerprint.go` consumes at least one character, so the special
  rules of `regexp` for empty matches are not needed: the scan skips an empty match.
* `strings.ToLower` lower-cases ASCII letters itself; for the other code points it
  uses the Unicode tables of Go's library, which are a parameter (`unicodeLower`).
* A run-time panic (slice index out of range) and an error return are both values of
  `Failure`.
-/

namespace Yearning

/-- Text: a sequence of Unicode code points. -/
abbrev Str := List Char

/-! ## Character classes -/

/-- The class `\s` of Go's regexp: `[\t\n\f\r ]`. -/
def isSpaceRe (c : Char) : Bool :=
  c == '\t' || c == '\n' || c == '\x0c' || c == '\r' || c == ' '

/-- The class `\S`. -/
def isNonSpaceRe (c : Char) : Bool := !isSpaceRe c

/-- The class `[0-9]`. -/
def isDigit (c : Char) : Bool := decide (48 ≤ c.toNat) && decide (c.toNat ≤ 57)

/-- The class `[A-Z]`. -/
def isUpperAscii (c : Char) : Bool := decide (65 ≤ c.toNat) && decide (c.toNat ≤ 90)

/-- The class `[a-z]`. -/
def isLowerAscii (c : Char) : Bool := decide (97 ≤ c.toNat) && decide (c.toNat ≤ 122)

/-- The class `\w` of Go's regexp: `[0-9A-Za-z_]`. -/
def isWord (c : Char) : Bool := isDigit c || isUpperAscii c || isLowerAscii c || c == '_'

/-- The pattern `.` without the `s` flag: any character but line feed. -/
def isDot (c : Char) : Bool := c != '\n'

/-- The pattern `.` under the `s` flag: any character. -/
def isAny (_ : Char) : Bool := true

/-- The class `[^\\]`. -/
def isNotBackslash (c : Char) : Bool := c != '\\'

/-- The class `[a-f0-9]`. -/
def isHexLower (c : Char) : Bool := (decide (97 ≤ c.toNat) && decide (c.toNat ≤ 102)) || isDigit c

/-- The class `[._-]`. -/
def isMd5Lead (c : Char) : Bool := c == '.' || c == '_' || c == '-'

/-- The class `[0-9+-]`. -/
def isNumStart (c : Char) : Bool := isDigit c || c == '+' || c == '-'

/-- The class `[0-9a-f.xb+-]`. -/
def isNumBody (c : Char) : Bool :=
  isDigit c || (decide (97 ≤ c.toNat) && decide (c.toNat ≤ 102)) || c == '.' || c == 'x' ||
    c == 'b' || c == '+' || c == '-'

/-- The class `[xb+-]`. -/
def isGlue (c : Char) : Bool := c == 'x' || c == 'b' || c == '+' || c == '-'

/-- The class `[xb.+-]`. -/
def isGlueDot (c : Char) : Bool := c == 'x' || c == 'b' || c == '.' || c == '+' || c == '-'

/-- The class `[\s,]`. -/
def isSpaceComma (c : Char) : Bool := isSpaceRe c || c == ','

/-- The class `[\s?,]`. -/
def isSpaceMarkComma (c : Char) : Bool := isSpaceRe c || c == '?' || c == ','

/-- ASCII lower-casing of one character. -/
def lowerAscii (c : Char) : Char := if isUpperAscii c then Char.ofNat (c.toNat + 32) else c

/-- A literal character under the flag `i`: Go folds case with the simple folding of
Unicode, whose orbits of ASCII letters are the two letter cases, with U+017F added
for `s` and U+212A added for `k`. -/
def foldEq (a c : Char) : Bool :=
  lowerAscii c == lowerAscii a ||
    (lowerAscii a == 's' && c.toNat == 0x17F) || (lowerAscii a == 'k' && c.toNat == 0x212A)

/-- The white space of `unicode.IsSpace`, which `strings.TrimSpace` trims. -/
def isSpaceUnicode (c : Char) : Bool :=
  let n := c.toNat
  (decide (9 ≤ n) && decide (n ≤ 13)) || n == 0x20 || n == 0x85 || n == 0xA0 || n == 0x1680 ||
    (decide (0x2000 ≤ n) && decide (n ≤ 0x200A)) || n == 0x2028 || n == 0x2029 || n == 0x202F ||
    n == 0x205F || n == 0x3000

/-- The cut set `"\n\r\f "` of the call to `strings.TrimRight`. -/
def isTrimRightCut (c : Char) : Bool := c == '\n' || c == '\r' || c == '\x0c' || c == ' '

/-! ## Regular expressions -/

/-- A place in the text under search: the character before it, if any, and the text
from it on. -/
structure Pos where
  prev : Option Char
  rest : Str

/-- Capture groups: number and captured text, the latest binding first. -/
abbrev Caps := List (Nat × Str)

/-- The text of capture group `n`, empty when the group took no part in the match. -/
def groupText (cs : Caps) (n : Nat) : Str :=
  match cs.lookup n with
  | some s => s
  | none => []

/-- The regular expressions used by the program. -/
inductive Re where
  | eps
  | chr (p : Char → Bool)
  | seq (a b : Re)
  | alt (a b : Re)
  | star (greedy : Bool) (a : Re)
  | group (n : Nat) (a : Re)
  | bot
  | eot
  | eol
  | wordb

/-- Whether the character before a place is a word character. -/
def wordBefore : Option Char → Bool
  | some c => isWord c
  | none => false

/-- Whether the character at a place is a word character. -/
def wordAfter : Str → Bool
  | c :: _ => isWord c
  | [] => false

/-- Whether a word boundary `\b` lies between `prev` and the head of `rest`. -/
def atWordBoundary (st : Pos) : Bool := wordBefore st.prev != wordAfter st.rest

/-- Repetition of a matcher `m`: at most `fuel` iterations, each of which has to
consume text. A greedy repetition tries one more iteration first. -/
def starLoop {α : Type} (m : Pos → Caps → (Pos → Caps → Option α) → Option α) (greedy : Bool) :
    Nat → Pos → Caps → (Pos → Caps → Option α) → Option α
  | 0, st, cs, k => k st cs
  | n + 1, st, cs, k =>
    if greedy then
      match m st cs (fun st' cs' =>
          if st'.rest.length < st.rest.length then starLoop m greedy n st' cs' k else none) with
      | some r => some r
      | none => k st cs
    else
      match k st cs with
      | some r => some r
      | none => m st cs (fun st' cs' =>
          if st'.rest.length < st.rest.length then starLoop m greedy n st' cs' k else none)

/-- The backtracking matcher: `run re st cs k` matches `re` at `st` and hands the place
after the match to the continuation `k`; the first success in priority order wins. -/
def Re.run {α : Type} : Re → Pos → Caps → (Pos → Caps → Option α) → Option α
  | .eps, st, cs, k => k st cs
  | .chr p, st, cs, k =>
    match st.rest with
    | [] => none
    | c :: r => if p c then k ⟨some c, r⟩ cs else none
  | .seq a b, st, cs, k => a.run st cs (fun st' cs' => b.run st' cs' k)
  | .alt a b, st, cs, k =>
    match a.run st cs k with
    | some r => some r
    | none => b.run st cs k
  | .star g a, st, cs, k =>
    starLoop (fun st' cs' k' => a.run st' cs' k') g st.rest.length st cs k
  | .group n a, st, cs, k =>
    a.run st cs (fun st' cs' =>
      k st' ((n, st.rest.take (st.rest.length - st'.rest.length)) :: cs'))
  | .bot, st, cs, k => if st.prev.isNone then k st cs else none
  | .eot, st, cs, k => if st.rest.isEmpty then k st cs else none
  | .eol, st, cs, k =>
    match st.rest with
    | [] => k st cs
    | c :: _ => if c == '\n' then k st cs else none
  | .wordb, st, cs, k => if atWordBoundary st then k st cs else none

/-- A literal text. -/
def Re.lit : Str → Re
  | [] => .eps
  | [c] => .chr (fun x => x == c)
  | c :: s => .seq (.chr (fun x => x == c)) (Re.lit s)

/-- A literal text under the flag `i`. -/
def Re.liti : Str → Re
  | [] => .eps
  | [c] => .chr (foldEq c)
  | c :: s => .seq (.chr (foldEq c)) (Re.liti s)

/-- The pattern `a+`, or `a+?` when not greedy. -/
def Re.plus (greedy : Bool) (a : Re) : Re := .seq a (.star greedy a)

/-- The pattern `a?`. -/
def Re.opt (a : Re) : Re := .alt a .eps

/-- The pattern `a{n}`. -/
def Re.rep : Nat → Re → Re
  | 0, _ => .eps
  | 1, a => a
  | n + 1, a => .seq a (Re.rep n a)

/-- A sequence of patterns. -/
def Re.cat : List Re → Re
  | [] => .eps
  | [a] => a
  | a :: as => .seq a (Re.cat as)

/-- The match of `re` that starts at `st`, if any: the place after it and its groups. -/
def Re.matchAt (re : Re) (st : Pos) : Option (Pos × Caps) :=
  re.run st [] (fun st' cs => some (st', cs))

/-- One match found by a search: the unmatched text skipped before it, its own text,
and its groups. -/
structure Hit where
  gap : Str
  text : Str
  caps : Caps

/-- The match of `re` that starts at the place `(prev, s)`, when it is not empty. -/
def Re.tryAt (re : Re) (prev : Option Char) (s : Str) : Option (Hit × Pos) :=
  match re.matchAt ⟨prev, s⟩ with
  | some (st', cs) =>
    if st'.rest.length < s.length then
      some (⟨[], s.take (s.length - st'.rest.length), cs⟩, st')
    else none
  | none => none

/-- The leftmost match of `re` at or after the place `(prev, s)`, and the place after it. -/
def Re.find (re : Re) : Option Char → Str → Option (Hit × Pos)
  | _, [] => none
  | prev, c :: t =>
    match re.tryAt prev (c :: t) with
    | some r => some r
    | none =>
      match re.find (some c) t with
      | some (h, st') => some ({ h with gap := c :: h.gap }, st')
      | none => none

/-- The successive non-overlapping matches of `re` from the place `(prev, s)` on, each the
leftmost match at or after the end of the one before, and the unmatched text after the
last of them. -/
def Re.scan (re : Re) : Nat → Option Char → Str → List Hit × Str
  | 0, _, s => ([], s)
  | fuel + 1, prev, s =>
    match re.find prev s with
    | none => ([], s)
    | some (h, st') =>
      let r := re.scan fuel st'.prev st'.rest
      (h :: r.1, r.2)

/-- All matches of `re` in `s`. -/
def Re.allMatches (re : Re) (s : Str) : List Hit × Str := re.scan (s.length + 1) none s

/-- The call `regexp.MatchString(re, s)`. -/
def Re.MatchString (re : Re) (s : Str) : Bool := (re.find none s).isSome

/-- The call `re.FindStringSubmatch(s)`: the groups of the leftmost match. -/
def Re.FindStringSubmatch (re : Re) (s : Str) : Option Caps :=
  match re.find none s with
  | some (h, _) => some h.caps
  | none => none

/-- A piece of a replacement template: literal text or `$n`. -/
inductive Tpl where
  | text (s : Str)
  | grp (n : Nat)

/-- A template expanded with the groups of a match. -/
def expand (tpl : List Tpl) (cs : Caps) : Str :=
  match tpl with
  | [] => []
  | .text s :: t => s ++ expand t cs
  | .grp n :: t => groupText cs n ++ expand t cs

/-- The text in which every match is replaced by the expanded template. -/
def substitute (tpl : List Tpl) : List Hit → Str → Str
  | [], tl => tl
  | h :: hs, tl => h.gap ++ (expand tpl h.caps ++ substitute tpl hs tl)

/-- The call `re.ReplaceAllString(s, tpl)`. -/
def Re.ReplaceAllString (re : Re) (s : Str) (tpl : List Tpl) : Str :=
  substitute tpl (re.allMatches s).1 (re.allMatches s).2

/-- The call `re.FindAllString(s, -1)`. -/
def Re.FindAllString (re : Re) (s : Str) : List Str := (re.allMatches s).1.map (fun h => h.text)

/-- The loop of `re.Split(s, -1)` over the matches, with the variables `strings`, `beg` and
`end` of the library: a match starts at `beg + |gap|`, and the text before it is appended
unless the match ends at offset 0. -/
def splitLoop : List Hit → List Str → Nat → Nat → List Str × Nat
  | [], strs, _, end_ => (strs, end_)
  | h :: hs, strs, beg, _ =>
    let b := beg + h.gap.length
    let e := b + h.text.length
    splitLoop hs (if e != 0 then strs ++ [h.gap] else strs) e b

/-- The call `re.Split(s, -1)`: an empty text gives one empty piece; otherwise the pieces
of the loop, and the text after the last match unless that match starts at the end of
the text. -/
def Re.Split (re : Re) (s : Str) : List Str :=
  if s.isEmpty then [[]]
  else
    let l := splitLoop (re.allMatches s).1 [] 0 0
    if l.2 != s.length then l.1 ++ [(re.allMatches s).2] else l.1

/-! ## The patterns of `fingerprint.go` -/

def mysqldumpRe : Re := .seq .bot (Re.lit "SELECT /*!40001 SQL_NO_CACHE */ * FROM ".toList)

def perconaRe : Re :=
  Re.cat [Re.lit "/*".toList, Re.plus true (.chr isWord), Re.lit ".".toList,
    Re.plus true (.chr isWord), Re.lit ":".toList, .chr isDigit, Re.lit "/".toList,
    .chr isDigit, Re.lit "*/".toList]

def adminRe : Re := .seq .bot (Re.lit "administrator command: ".toList)

def callRe : Re :=
  Re.cat [.bot, .star true (.chr isSpaceRe),
    .group 1 (Re.cat [Re.lit "call".toList, Re.plus true (.chr isSpaceRe),
      Re.plus true (.chr isNonSpaceRe)]),
    Re.lit "(".toList]

/-- The pattern `(?i)(?:INSERT|REPLACE)(?: IGNORE)?\s+INTO`. -/
def insertHeadRe : Re :=
  Re.cat [.alt (Re.liti "INSERT".toList) (Re.liti "REPLACE".toList),
    Re.opt (Re.liti " IGNORE".toList), Re.plus true (.chr isSpaceRe), Re.liti "INTO".toList]

/-- The pattern `\s*,\s*\(`, the start of a second row. -/
def nextRowRe : Re :=
  Re.cat [.star true (.chr isSpaceRe), Re.lit ",".toList, .star true (.chr isSpaceRe),
    Re.lit "(".toList]

def insertRe : Re :=
  .seq (.group 1 (Re.cat [insertHeadRe, Re.plus false (.chr isDot), Re.liti "VALUES".toList,
      .star true (.chr isSpaceRe), Re.lit "(".toList, .star false (.chr isDot),
      Re.lit ")".toList]))
    nextRowRe

def mlcRe : Re := Re.cat [Re.lit "/*".toList, .star false (.chr isAny), Re.lit "*/".toList]

def olcRe : Re := Re.cat [Re.lit "--".toList, .star true (.chr isDot), .eol]

def useRe : Re := Re.cat [.bot, Re.liti "use ".toList, Re.plus true (.chr isNonSpaceRe), .eot]

def escQuoteRe (q : Char) : Re :=
  .seq (.group 1 (.chr isNotBackslash)) (.group 2 (Re.lit ['\\', q]))

def backslashesRe : Re := Re.lit ['\\', '\\']

def bareEscQuoteRe (q : Char) : Re := Re.lit ['\\', q]

def quotedRe (q : Char) : Re :=
  .seq (.group 1 (.chr isNotBackslash))
    (.group 2 (Re.cat [Re.lit [q], .star false (.chr isDot), Re.opt (.chr isNotBackslash),
      Re.lit [q]]))

def boolRe : Re :=
  .alt (Re.cat [.wordb, Re.lit "false".toList, .wordb])
    (Re.cat [.wordb, Re.lit "true".toList, .wordb])

def md5Re : Re := .seq (.group 1 (.chr isMd5Lead)) (Re.rep 32 (.chr isHexLower))

def numberRe : Re := Re.cat [.wordb, .chr isNumStart, .star true (.chr isNumBody)]

def glueRe : Re := .seq (.chr isGlue) (Re.lit "?".toList)

def glueDotRe : Re := .seq (.chr isGlueDot) (Re.lit "?".toList)

def spacesRe : Re := Re.plus true (.chr isSpaceRe)

def nullRe : Re := Re.cat [.wordb, Re.lit "null".toList, .wordb]

/-- The pattern `[\s,]*\([\s?,]*\)`, one parenthesised list of placeholders. -/
def parenListRe : Re :=
  Re.cat [.star true (.chr isSpaceComma), Re.lit "(".toList,
    .star true (.chr isSpaceMarkComma), Re.lit ")".toList]

def inValuesRe : Re :=
  Re.cat [.wordb,
    .group 1 (.alt (Re.lit "in".toList) (.seq (Re.lit "value".toList) (Re.opt (Re.lit "s".toList)))),
    Re.plus true parenListRe]

def unionRegexp : Re :=
  Re.cat [.chr isSpaceRe, .group 1 (.alt (Re.lit "union all".toList) (Re.lit "union".toList)),
    .chr isSpaceRe]

def limitRe : Re :=
  Re.cat [.wordb, Re.lit "limit ?".toList,
    Re.opt (.alt (Re.cat [Re.lit ",".toList, Re.opt (Re.lit " ".toList), Re.lit "?".toList])
      (Re.lit " offset ?".toList))]

def orderByRe : Re := .seq .wordb (Re.lit "order by ".toList)

def ascRegexp : Re :=
  Re.cat [.group 1 (Re.plus false (.chr isDot)), Re.plus true (.chr isSpaceRe),
    Re.lit "asc".toList]

/-! ## Library calls on strings -/

/-- The call `strings.ToLower`: `unicodeLower` is the lower-case mapping of Go's Unicode
tables, used for the code points above ASCII. -/
def toLower (unicodeLower : Char → Char) (s : Str) : Str :=
  s.map (fun c => if c.toNat < 128 then lowerAscii c else unicodeLower c)

/-- Drops the characters that satisfy `p` from the end of `s`. -/
def trimRightBy (p : Char → Bool) (s : Str) : Str := (s.reverse.dropWhile p).reverse

/-- The call `strings.TrimSpace`. -/
def TrimSpace (s : Str) : Str := trimRightBy isSpaceUnicode (s.dropWhile isSpaceUnicode)

/-- The call `strings.TrimRight(s, "\n\r\f ")`. -/
def TrimRight (s : Str) : Str := trimRightBy isTrimRightCut s

/-! ## collapseUnion -/

/-- How a call can fail: the error value of `collapseUnion`, a run-time panic on a slice
index, or a loop that has not come to its end within the iterations allowed. -/
inductive Failure where
  | structural (parts seps : Nat)
  | indexOutOfRange (index len : Nat)
  | outOfFuel
  deriving DecidableEq, Repr

deriving instance DecidableEq for Except

/-- A slice access `xs[i]`, which panics when `i` is out of range. -/
def index (xs : List Str) (i : Nat) : Except Failure Str :=
  match xs[i]? with
  | some x => .ok x
  | none => .error (.indexOutOfRange i xs.length)

/-- The text of the sentinel node. -/
def sentinel : Str := "/*Sentinel Node*/".toList

/-- The body of `for i, part := range parts` in `collapseUnion`: `rest` holds the parts
from index `i` on, `start` and `buf` are the variables of the source. -/
def collapseLoop (parts separators : List Str) :
    List Str → Nat → Nat → Str → Except Failure Str
  | [], _, _, buf => .ok buf
  | part :: rest, i, start, buf =>
    if i == 0 then collapseLoop parts separators rest (i + 1) start buf
    else
      match index parts start with
      | .error e => .error e
      | .ok front =>
        if part == front then collapseLoop parts separators rest (i + 1) start buf
        else
          let written : Except Failure Str :=
            if i == start + 1 then
              match index separators (i - 1) with
              | .error e => .error e
              | .ok sep => .ok (buf ++ sep)
            else
              match index separators ((i - 1) - 1) with
              | .error e => .error e
              | .ok sep => .ok (buf ++ (" /*repeat".toList ++ (sep ++ "*/".toList)))
          match written with
          | .error e => .error e
          | .ok buf1 =>
            if i != parts.length - 1 then
              match index parts i with
              | .error e => .error e
              | .ok p => collapseLoop parts separators rest (i + 1) i (buf1 ++ p)
            else collapseLoop parts separators rest (i + 1) i buf1

/-- The function `collapseUnion`. -/
def collapseUnion (query : Str) : Except Failure Str :=
  let parts := unionRegexp.Split query
  if parts.length == 1 then .ok query
  else
    let parts := parts ++ [sentinel]
    let separators := unionRegexp.FindAllString query
    if parts.length != separators.length + 2 then
      .error (.structural (parts.length - 1) separators.length)
    else
      match index parts 0 with
      | .error e => .error e
      | .ok first => collapseLoop parts separators parts 0 0 first

/-! ## GetFingerprint -/

/-- The loop that strips `asc`: replace while the pattern matches. -/
def ascLoop : Nat → Str → Except Failure Str
  | 0, _ => .error .outOfFuel
  | fuel + 1, query =>
    if ascRegexp.MatchString query then
      ascLoop fuel (ascRegexp.ReplaceAllString query [.grp 1])
    else .ok query

/-- Shortening of a multi-row INSERT or REPLACE to its first row. -/
def shortenInsert (query : Str) : Str :=
  match insertRe.FindStringSubmatch query with
  | some cs => groupText cs 1
  | none => query

/-- Removal of the comments. -/
def stripComments (query : Str) : Str :=
  olcRe.ReplaceAllString (mlcRe.ReplaceAllString query []) []

/-- The database name of a USE statement. -/
def maskUse (query : Str) : Str := useRe.ReplaceAllString query [.text "use ?".toList]

/-- Escape sequences and quoted strings. -/
def maskStrings (query : Str) : Str :=
  let query := (escQuoteRe '\'').ReplaceAllString query [.grp 1]
  let query := (escQuoteRe '"').ReplaceAllString query [.grp 1]
  let query := backslashesRe.ReplaceAllString query []
  let query := (bareEscQuoteRe '\'').ReplaceAllString query []
  let query := (bareEscQuoteRe '"').ReplaceAllString query []
  let query := (quotedRe '"').ReplaceAllString query [.grp 1, .text "?".toList]
  (quotedRe '\'').ReplaceAllString query [.grp 1, .text "?".toList]

/-- Boolean values. -/
def maskBooleans (query : Str) : Str := boolRe.ReplaceAllString query [.text "?".toList]

/-- MD5 values. -/
def maskMD5 (query : Str) : Str :=
  if md5Re.MatchString query then md5Re.ReplaceAllString query [.grp 1, .text "?".toList]
  else query

/-- Numbers. -/
def maskNumbers (query : Str) : Str :=
  if numberRe.MatchString query then numberRe.ReplaceAllString query [.text "?".toList]
  else query

/-- A prefix character glued to a placeholder. -/
def cleanupGlue (query : Str) : Str :=
  if glueRe.MatchString query then glueRe.ReplaceAllString query [.text "?".toList]
  else glueDotRe.ReplaceAllString query [.text "?".toList]

/-- Spaces, line breaks and letter case. -/
def normalizeSpace (unicodeLower : Char → Char) (query : Str) : Str :=
  toLower unicodeLower (spacesRe.ReplaceAllString (TrimRight (TrimSpace query)) [.text " ".toList])

/-- NULL values. -/
def maskNull (query : Str) : Str := nullRe.ReplaceAllString query [.text "?".toList]

/-- IN and VALUES lists. -/
def collapseLists (query : Str) : Str :=
  inValuesRe.ReplaceAllString query [.grp 1, .text "(?+)".toList]

/-- The LIMIT clause. -/
def normalizeLimit (query : Str) : Str := limitRe.ReplaceAllString query [.text "limit ?".toList]

/-- ASC qualifiers, when the text has an ORDER BY. -/
def stripAsc (query : Str) : Except Failure Str :=
  if orderByRe.MatchString query then ascLoop (query.length + 1) query else .ok query

/-- The query without its later rows, comments, database name and string literals: the
stages from the INSERT shortening to the quoted strings. -/
def stripText (query : Str) : Str :=
  maskStrings (maskUse (stripComments (shortenInsert query)))

/-- The masks of booleans, MD5 values and numbers and the clean-up after them. -/
def maskValues (query : Str) : Str :=
  cleanupGlue (maskNumbers (maskMD5 (maskBooleans query)))

/-- The stages that mask literals, from the INSERT shortening to the glued placeholders:
all that comes before the white space and the letter case are normalised. -/
def maskLiterals (query : Str) : Str := maskValues (stripText query)

/-- The text handed to `collapseUnion`: every stage from the INSERT shortening to the
IN and VALUES lists. -/
def beforeUnion (unicodeLower : Char → Char) (query : Str) : Str :=
  collapseLists (maskNull (normalizeSpace unicodeLower (maskLiterals query)))

/-- The end of `GetFingerprint`: `collapseUnion`, whose error is returned, then the LIMIT
clause and the ASC qualifiers. -/
def finishFingerprint (query : Str) : Except Failure Str :=
  match collapseUnion query with
  | .error e => .error e
  | .ok query => stripAsc (normalizeLimit query)

/-- The function `GetFingerprint`. -/
def GetFingerprint (unicodeLower : Char → Char) (query : Str) : Except Failure Str :=
  if mysqldumpRe.MatchString query then .ok "mysqldump".toList
  else if perconaRe.MatchString query then .ok "percona-toolkit".toList
  else if adminRe.MatchString query then .ok query
  else
    match callRe.FindStringSubmatch query with
    | some cs => .ok (toLower unicodeLower (groupText cs 1))
    | none => finishFingerprint (beforeUnion unicodeLower query)

/-! ## Auxiliary definitions for the proofs -/

/-- The lower-case mapping used for ASCII queries, whose fingerprint does not depend on
the Unicode tables: every code point above ASCII is left as it is. -/
def asciiOnly : Char → Char := fun c => c

/-- A pattern needs a character with property `P` when every text it matches has one. -/
def Re.needs (P : Char → Prop) : Re → Prop
  | .chr p => ∀ c, p c = true → P c
  | .seq a b => a.needs P ∨ b.needs P
  | .alt a b => a.needs P ∧ b.needs P
  | .group _ a => a.needs P
  | _ => False

/-- The replacement of all matches from a place in the text on. -/
def Re.replaceFrom (re : Re) (tpl : List Tpl) (prev : Option Char) (s : Str) : Str :=
  substitute tpl (re.scan (s.length + 1) prev s).1 (re.scan (s.length + 1) prev s).2

/-- The character before the place reached after reading `w`. -/
def lastOr : Option Char → Str → Option Char
  | prev, [] => prev
  | _, c :: w => lastOr (some c) w

/-- The stages that follow the number mask. -/
def afterNumbers (unicodeLower : Char → Char) (masked : Str) : Except Failure Str :=
  finishFingerprint (collapseLists (maskNull (normalizeSpace unicodeLower (cleanupGlue masked))))

/-- The decimal digits. -/
def digits : Str := "0123456789".toList

/-- The text `SELECT * FROM t WHERE id=`. -/
def selectById : Str := "SELECT * FROM t WHERE id=".toList

/-- Every run of white space (`\s+`) replaced by one space; `inRun` tells that the
character before was white space. -/
def squeeze : Bool → Str → Str
  | _, [] => []
  | inRun, c :: t =>
    if isSpaceRe c then (if inRun then squeeze true t else ' ' :: squeeze true t)
    else c :: squeeze false t

/-- Unsigned decimal integer literals joined by commas. -/
def joinComma : List Str → Str
  | [] => []
  | [l] => l
  | l :: ls => l ++ ',' :: joinComma ls

/-- The placeholders of a list of `k + 1` literals: `?,?,...,?`. -/
def marks : Nat → Str
  | 0 => ['?']
  | k + 1 => '?' :: ',' :: marks k

/-- The text `SELECT * FROM t WHERE id IN (`. -/
def selectIn : Str := "SELECT * FROM t WHERE id IN (".toList

/-- The text `select * from t where id in (`. -/
def lowerIn : Str := "select * from t where id in (".toList

/-- The text made of the matches of a scan, the texts between them and the text after
the last. -/
def rebuild : List Hit → Str → Str
  | [], tl => tl
  | h :: hs, tl => h.gap ++ (h.text ++ rebuild hs tl)

/-- The length of text that the matches of a scan and the texts before them cover. -/
def spanOf : List Hit → Nat
  | [] => 0
  | h :: hs => h.gap.length + h.text.length + spanOf hs

/-- Whether one of the special cases at the head of `GetFingerprint` applies: the
mysqldump signature, the Percona Toolkit marker, an administrator command, or the call
pattern. -/
def isSpecial (query : Str) : Bool :=
  mysqldumpRe.MatchString query || perconaRe.MatchString query || adminRe.MatchString query
    || (callRe.FindStringSubmatch query).isSome

/-- Two characters are equal up to the case of ASCII letters. -/
def caseEq (c d : Char) : Prop := lowerAscii c = lowerAscii d

instance : DecidableRel caseEq := fun c d => inferInstanceAs (Decidable (lowerAscii c = lowerAscii d))

/-- Two texts are equal up to the case of ASCII letters. -/
def CaseEq (s t : Str) : Prop := List.Forall₂ caseEq s t

instance (s t : Str) : Decidable (CaseEq s t) := inferInstanceAs (Decidable (List.Forall₂ caseEq s t))

/-- The upper-case ASCII letters. -/
def upperLetters : Str := "ABCDEFGHIJKLMNOPQRSTUVWXYZ".toList

/-- A character class that does not tell the two cases of a letter apart. -/
def blindClass (p : Char → Bool) : Bool := upperLetters.all (fun x => p x == p (lowerAscii x))

/-- A pattern none of whose character classes tells the two cases of a letter apart. -/
def Re.blind : Re → Bool
  | .chr p => blindClass p
  | .seq a b => a.blind && b.blind
  | .alt a b => a.blind && b.blind
  | .star _ a => a.blind
  | .group _ a => a.blind
  | _ => true

/-- The characters before two places are equal up to case. -/
def prevRel : Option Char → Option Char → Prop
  | none, none => True
  | some c, some d => caseEq c d
  | _, _ => False

/-- Two places in two texts that are equal up to case. -/
def PosRel (st st' : Pos) : Prop := prevRel st.prev st'.prev ∧ CaseEq st.rest st'.rest

/-- The same groups, with texts equal up to case. -/
def CapsRel (cs cs' : Caps) : Prop :=
  List.Forall₂ (fun x y => x.1 = y.1 ∧ CaseEq x.2 y.2) cs cs'

/-- Two results that are both absent or both present and related. -/
def OptRel {α β : Type} (Q : α → β → Prop) : Option α → Option β → Prop
  | none, none => True
  | some a, some b => Q a b
  | _, _ => False

/-- Two matches with texts and groups equal up to case. -/
def HitRel (h h' : Hit) : Prop :=
  CaseEq h.gap h'.gap ∧ CaseEq h.text h'.text ∧ CapsRel h.caps h'.caps

/-- Whether none of the case-sensitive masks (booleans, MD5 values, numbers, glued
placeholders) finds a match in a text. -/
def caseMasksIdle (t : Str) : Bool :=
  !boolRe.MatchString t && !md5Re.MatchString t && !numberRe.MatchString t
    && !glueRe.MatchString t && !glueDotRe.MatchString t

/-- Whether a literal under the flag `i` is seen to fail on a text: a character differs,
or the text ends. -/
def litiFails : Str → Str → Bool
  | [], _ => false
  | _ :: _, [] => true
  | d :: l, c :: s => if foldEq d c then litiFails l s else true

/-- Whether `t` spells the literal `l` as the flag `i` compares: the same length, and
every character a case variant of its letter. -/
def spells : Str → Str → Bool
  | [], [] => true
  | d :: l, c :: t => foldEq d c && spells l t
  | _, _ => false

/-- Whether the literal `l`, read under the flag `i`, begins at a place inside `x` in the
text `x ++ kw`. -/
def beginsInside (l : Str) : Str → Str → Bool
  | [], _ => false
  | c :: x, kw => !litiFails l (c :: x ++ kw) || beginsInside l x kw

/-- A statement that inserts one row: the verb, an optional ` IGNORE`, white space, `INTO`,
the text `x` up to the keyword `VALUES`, the keyword `kw`, white space `s0` and the row
`(y)`. -/
def insertOneRow (verb ign ws into x kw s0 y : Str) : Str :=
  verb ++ (ign ++ (ws ++ (into ++ (x ++ (kw ++ (s0 ++ '(' :: (y ++ [')'])))))))

/-- The text `SELECT * FROM t LIMIT `. -/
def selectLimit : Str := "SELECT * FROM t LIMIT ".toList

/-- The texts between the two numbers of a LIMIT clause. -/
def limitSeps : List Str := [", ".toList, ",".toList, " OFFSET ".toList]

/-- The least number of characters that a match of the pattern takes. -/
def Re.minLen : Re → Nat
  | .chr _ => 1
  | .seq a b => a.minLen + b.minLen
  | .alt a b => min a.minLen b.minLen
  | .group _ a => a.minLen
  | _ => 0

/-- Whether the pattern has no capture group. -/
def Re.groupFree : Re → Bool
  | .seq a b => a.groupFree && b.groupFree
  | .alt a b => a.groupFree && b.groupFree
  | .star _ a => a.groupFree
  | .group _ _ => false
  | _ => true

/-- What the matcher hands to its continuation, started at `st` with the groups `cs`: a
place further on in the text, and groups that are the old ones when the pattern has no
group (`gf`), and that are old ones or pieces of the text in any case. -/
def Reach (gf : Bool) (st : Pos) (cs : Caps) (st' : Pos) (cs' : Caps) : Prop :=
  st'.rest <:+ st.rest ∧ (gf = true → cs' = cs)
    ∧ ∀ e ∈ cs', e ∈ cs ∨ ∀ c ∈ e.2, c ∈ st.rest

/-- The literal text of a replacement template. -/
def tplChars : List Tpl → Str
  | [] => []
  | .text s :: t => s ++ tplChars t
  | .grp _ :: t => tplChars t

/-! ## The matcher only moves forward -/

theorem starLoop_some {α : Type} (m : Pos → Caps → (Pos → Caps → Option α) → Option α)
    (g : Bool)
    (hm : ∀ st cs k r, m st cs k = some r → ∃ st' cs', st'.rest <:+ st.rest ∧ k st' cs' = some r) :
    ∀ n st cs k r, starLoop m g n st cs k = some r →
      ∃ st' cs', st'.rest <:+ st.rest ∧ k st' cs' = some r := by
  intro n
  induction n with
  | zero =>
    intro st cs k r h
    exact ⟨st, cs, List.suffix_refl _, by simpa [starLoop] using h⟩
  | succ n ih =>
    intro st cs k r h
    have step : ∀ r, m st cs (fun st' cs' =>
          if st'.rest.length < st.rest.length then starLoop m g n st' cs' k else none) = some r →
        ∃ st' cs', st'.rest <:+ st.rest ∧ k st' cs' = some r := by
      intro r hr
      obtain ⟨st1, cs1, hs1, hk1⟩ := hm _ _ _ _ hr
      by_cases hlt : st1.rest.length < st.rest.length
      · simp only [hlt, if_true] at hk1
        obtain ⟨st2, cs2, hs2, hk2⟩ := ih _ _ _ _ hk1
        exact ⟨st2, cs2, hs2.trans hs1, hk2⟩
      · simp [hlt] at hk1
    rw [starLoop] at h
    cases g with
    | true =>
      simp only [if_true] at h
      split at h
      · next r' hr' =>
        cases h
        exact step _ hr'
      · exact ⟨st, cs, List.suffix_refl _, h⟩
    | false =>
      simp only [Bool.false_eq_true, if_false] at h
      split at h
      · next r' hr' =>
        cases h
        exact ⟨st, cs, List.suffix_refl _, hr'⟩
      · exact step _ h

theorem Re.run_some {α : Type} (re : Re) :
    ∀ (st : Pos) (cs : Caps) (k : Pos → Caps → Option α) (r : α), re.run st cs k = some r →
      ∃ st' cs', st'.rest <:+ st.rest ∧ k st' cs' = some r := by
  induction re with
  | eps => intro st cs k r h; exact ⟨st, cs, List.suffix_refl _, by simpa [Re.run] using h⟩
  | chr p =>
    intro st cs k r h
    rw [Re.run] at h
    split at h
    · cases h
    · next c t hst =>
      split at h
      · exact ⟨⟨some c, t⟩, cs, by rw [hst]; exact List.suffix_cons c t, h⟩
      · cases h
  | seq a b iha ihb =>
    intro st cs k r h
    rw [Re.run] at h
    obtain ⟨st1, cs1, hs1, h1⟩ := iha _ _ _ _ h
    obtain ⟨st2, cs2, hs2, h2⟩ := ihb _ _ _ _ h1
    exact ⟨st2, cs2, hs2.trans hs1, h2⟩
  | alt a b iha ihb =>
    intro st cs k r h
    rw [Re.run] at h
    split at h
    · next r' hr' => cases h; exact iha _ _ _ _ hr'
    · exact ihb _ _ _ _ h
  | star g a iha =>
    intro st cs k r h
    rw [Re.run] at h
    exact starLoop_some _ g (fun st cs k r h => iha st cs k r h) _ _ _ _ _ h
  | group n a iha =>
    intro st cs k r h
    rw [Re.run] at h
    obtain ⟨st1, cs1, hs1, h1⟩ := iha _ _ _ _ h
    exact ⟨st1, _, hs1, h1⟩
  | bot =>
    intro st cs k r h
    rw [Re.run] at h
    split at h
    · exact ⟨st, cs, List.suffix_refl _, h⟩
    · cases h
  | eot =>
    intro st cs k r h
    rw [Re.run] at h
    split at h
    · exact ⟨st, cs, List.suffix_refl _, h⟩
    · cases h
  | eol =>
    intro st cs k r h
    rw [Re.run] at h
    split at h
    · exact ⟨st, cs, List.suffix_refl _, h⟩
    · split at h
      · exact ⟨st, cs, List.suffix_refl _, h⟩
      · cases h
  | wordb =>
    intro st cs k r h
    rw [Re.run] at h
    split at h
    · exact ⟨st, cs, List.suffix_refl _, h⟩
    · cases h

/-- If the continuation fails at every place the matcher can reach, so does the match. -/
theorem Re.run_none_of_cont {α : Type} (re : Re) (st : Pos) (cs : Caps)
    (k : Pos → Caps → Option α) (hk : ∀ st' cs', st'.rest <:+ st.rest → k st' cs' = none) :
    re.run st cs k = none := by
  cases h : re.run st cs k with
  | none => rfl
  | some r =>
    obtain ⟨st', cs', hs, hk'⟩ := re.run_some _ _ _ _ h
    rw [hk st' cs' hs] at hk'
    cases hk'

theorem Re.run_none_of_needs {α : Type} (P : Char → Prop) (re : Re) :
    re.needs P → ∀ (st : Pos) (cs : Caps) (k : Pos → Caps → Option α),
      (∀ c ∈ st.rest, ¬ P c) → re.run st cs k = none := by
  induction re with
  | chr p =>
    intro hn st cs k hst
    rw [Re.run]
    split
    · rfl
    · next c t hrest =>
      have : p c = false := by
        cases hp : p c with
        | false => rfl
        | true => exact absurd (hn c hp) (hst c (by rw [hrest]; exact List.mem_cons_self c t))
      simp [this]
  | seq a b iha ihb =>
    intro hn st cs k hst
    rw [Re.run]
    cases hn with
    | inl ha => exact iha ha _ _ _ hst
    | inr hb =>
      apply Re.run_none_of_cont
      intro st' cs' hs
      exact ihb hb _ _ _ (fun c hc => hst c (hs.subset hc))
  | alt a b iha ihb =>
    intro hn st cs k hst
    rw [Re.run, iha hn.1 _ _ _ hst]
    exact ihb hn.2 _ _ _ hst
  | group n a iha =>
    intro hn st cs k hst
    rw [Re.run]
    exact iha hn _ _ _ hst
  | eps => intro hn; cases hn
  | star g a _ => intro hn; cases hn
  | bot => intro hn; cases hn
  | eot => intro hn; cases hn
  | eol => intro hn; cases hn
  | wordb => intro hn; cases hn

theorem Re.tryAt_none_of_needs (P : Char → Prop) (re : Re) (hn : re.needs P)
    (prev : Option Char) (s : Str) (hs : ∀ c ∈ s, ¬ P c) : re.tryAt prev s = none := by
  simp [Re.tryAt, Re.matchAt, Re.run_none_of_needs P re hn ⟨prev, s⟩ [] _ hs]

theorem Re.find_none_of_needs (P : Char → Prop) (re : Re) (hn : re.needs P) :
    ∀ (s : Str) (prev : Option Char), (∀ c ∈ s, ¬ P c) → re.find prev s = none := by
  intro s
  induction s with
  | nil => intro prev _; rfl
  | cons c t ih =>
    intro prev hs
    rw [Re.find, Re.tryAt_none_of_needs P re hn prev _ hs,
      ih (some c) (fun x hx => hs x (List.mem_cons_of_mem c hx))]


/-! ## Searches that find nothing -/

theorem Re.scan_of_find_none (re : Re) (fuel : Nat) (prev : Option Char) (s : Str)
    (h : re.find prev s = none) : re.scan fuel prev s = ([], s) := by
  cases fuel with
  | zero => rfl
  | succ n => rw [Re.scan, h]

theorem Re.ReplaceAllString_of_find_none (re : Re) (s : Str) (tpl : List Tpl)
    (h : re.find none s = none) : re.ReplaceAllString s tpl = s := by
  simp [Re.ReplaceAllString, Re.allMatches, Re.scan_of_find_none re _ _ _ h, substitute]

theorem Re.MatchString_of_find_none (re : Re) (s : Str)
    (h : re.find none s = none) : re.MatchString s = false := by
  simp [Re.MatchString, h]

theorem Re.FindStringSubmatch_of_find_none (re : Re) (s : Str)
    (h : re.find none s = none) : re.FindStringSubmatch s = none := by
  simp [Re.FindStringSubmatch, h]

/-! ## Unfolding a scan -/

theorem Re.tryAt_lt (re : Re) (prev : Option Char) (s : Str) (h : Hit) (st : Pos)
    (hf : re.tryAt prev s = some (h, st)) : st.rest.length < s.length := by
  unfold Re.tryAt at hf
  split at hf
  · split at hf
    · next hlt => cases hf; exact hlt
    · cases hf
  · cases hf

theorem Re.find_lt (re : Re) : ∀ (s : Str) (prev : Option Char) (h : Hit) (st : Pos),
    re.find prev s = some (h, st) → st.rest.length < s.length := by
  intro s
  induction s with
  | nil => intro prev h st hf; simp [Re.find] at hf
  | cons c t ih =>
    intro prev h st hf
    rw [Re.find] at hf
    split at hf
    · next r hr =>
      cases hf
      exact Re.tryAt_lt re _ _ _ _ hr
    · split at hf
      · next h' st' hr =>
        cases hf
        have := ih _ _ _ hr
        simp only [List.length_cons]
        omega
      · cases hf

theorem Re.scan_fuel (re : Re) : ∀ (f1 f2 : Nat) (prev : Option Char) (s : Str),
    s.length < f1 → s.length < f2 → re.scan f1 prev s = re.scan f2 prev s := by
  intro f1
  induction f1 with
  | zero => intro f2 prev s h1; omega
  | succ n ih =>
    intro f2 prev s h1 h2
    cases f2 with
    | zero => omega
    | succ m =>
      rw [Re.scan, Re.scan]
      cases hf : re.find prev s with
      | none => rfl
      | some r =>
        obtain ⟨h, st⟩ := r
        have hlt := Re.find_lt re _ _ _ _ hf
        simp only
        rw [ih m st.prev st.rest (by omega) (by omega)]

theorem Re.ReplaceAllString_eq (re : Re) (s : Str) (tpl : List Tpl) :
    re.ReplaceAllString s tpl = re.replaceFrom tpl none s := rfl

theorem Re.replaceFrom_of_find_none (re : Re) (tpl : List Tpl) (prev : Option Char) (s : Str)
    (h : re.find prev s = none) : re.replaceFrom tpl prev s = s := by
  simp [Re.replaceFrom, Re.scan_of_find_none re _ _ _ h, substitute]

theorem Re.replaceFrom_of_find_some (re : Re) (tpl : List Tpl) (prev : Option Char) (s : Str)
    (h : Hit) (st : Pos) (hf : re.find prev s = some (h, st)) :
    re.replaceFrom tpl prev s
      = h.gap ++ (expand tpl h.caps ++ re.replaceFrom tpl st.prev st.rest) := by
  have hlt := Re.find_lt re _ _ _ _ hf
  unfold Re.replaceFrom
  rw [Re.scan, hf]
  simp only [substitute]
  rw [Re.scan_fuel re s.length (st.rest.length + 1) st.prev st.rest (by omega) (by omega)]

@[simp] theorem lastOr_nil (prev : Option Char) : lastOr prev [] = prev := rfl

@[simp] theorem lastOr_cons (prev : Option Char) (c : Char) (w : Str) :
    lastOr prev (c :: w) = lastOr (some c) w := rfl

/-- A search skips a stretch of text at none of whose characters a match can start. -/
theorem Re.find_skip (re : Re) : ∀ (pre : Str) (prev : Option Char) (s : Str),
    (∀ c ∈ pre, ∀ p t, re.tryAt p (c :: t) = none) →
    re.find prev (pre ++ s)
      = match re.find (lastOr prev pre) s with
        | some (h, st) => some ({ h with gap := pre ++ h.gap }, st)
        | none => none := by
  intro pre
  induction pre with
  | nil =>
    intro prev s _
    simp only [List.nil_append, lastOr_nil]
    cases re.find prev s with
    | none => rfl
    | some r => rfl
  | cons c pre ih =>
    intro prev s hpre
    rw [List.cons_append, Re.find, hpre c (List.mem_cons_self c pre),
      ih (some c) s (fun x hx => hpre x (List.mem_cons_of_mem c hx)), lastOr_cons]
    cases re.find (lastOr (some c) pre) s with
    | none => rfl
    | some r => rfl

/-! ## Literals and repetitions of a character class -/

theorem Re.run_chr {α : Type} (p : Char → Bool) (prev : Option Char) (c : Char) (t : Str)
    (cs : Caps) (k : Pos → Caps → Option α) :
    (Re.chr p).run ⟨prev, c :: t⟩ cs k = if p c then k ⟨some c, t⟩ cs else none := rfl

theorem Re.run_lit {α : Type} : ∀ (l : Str) (prev : Option Char) (t : Str) (cs : Caps)
    (k : Pos → Caps → Option α),
    (Re.lit l).run ⟨prev, l ++ t⟩ cs k = k ⟨lastOr prev l, t⟩ cs := by
  intro l
  induction l with
  | nil => intro prev t cs k; rfl
  | cons c l ih =>
    intro prev t cs k
    cases l with
    | nil => simp [Re.lit, Re.run]
    | cons d l =>
      rw [Re.lit, Re.run, List.cons_append, Re.run_chr]
      · simp only [beq_self_eq_true, if_true]
        rw [ih]
        simp
      · simp

/-- One more iteration of a greedy repetition of a character class. -/
theorem starLoop_chr_greedy_cons {α : Type} (p : Char → Bool) (n : Nat) (prev : Option Char)
    (c : Char) (t : Str) (cs : Caps) (k : Pos → Caps → Option α) (hc : p c = true) :
    starLoop (fun st' cs' k' => (Re.chr p).run st' cs' k') true (n + 1) ⟨prev, c :: t⟩ cs k
      = match starLoop (fun st' cs' k' => (Re.chr p).run st' cs' k') true n ⟨some c, t⟩ cs k with
        | some r => some r
        | none => k ⟨prev, c :: t⟩ cs := by
  rw [starLoop]
  simp [Re.run_chr, hc]

/-- A repetition of a character class stops at a character outside the class. -/
theorem starLoop_chr_stop {α : Type} (p : Char → Bool) (g : Bool) (n : Nat) (prev : Option Char)
    (s : Str) (cs : Caps) (k : Pos → Caps → Option α) (hs : ∀ c t, s = c :: t → p c = false) :
    starLoop (fun st' cs' k' => (Re.chr p).run st' cs' k') g n ⟨prev, s⟩ cs k
      = k ⟨prev, s⟩ cs := by
  cases n with
  | zero => rfl
  | succ n =>
    rw [starLoop]
    have hm : ∀ k' : Pos → Caps → Option α, (Re.chr p).run ⟨prev, s⟩ cs k' = none := by
      intro k'
      cases s with
      | nil => rfl
      | cons c t => simp [Re.run_chr, hs c t rfl]
    cases g <;> simp [hm]
    cases k ⟨prev, s⟩ cs <;> rfl

/-- A greedy repetition of a character class reads a whole run of the class when the
continuation succeeds behind it. -/
theorem starLoop_chr_greedy_run {α : Type} (p : Char → Bool) : ∀ (w : Str) (n : Nat)
    (prev : Option Char) (t : Str) (cs : Caps) (k : Pos → Caps → Option α) (r : α),
    (∀ c ∈ w, p c = true) → w.length ≤ n → k ⟨lastOr prev w, t⟩ cs = some r →
    (∀ c t', t = c :: t' → p c = false) →
    starLoop (fun st' cs' k' => (Re.chr p).run st' cs' k') true n ⟨prev, w ++ t⟩ cs k = some r := by
  intro w
  induction w with
  | nil =>
    intro n prev t cs k r _ _ hk ht
    rw [List.nil_append, starLoop_chr_stop p true n prev t cs k ht]
    exact hk
  | cons c w ih =>
    intro n prev t cs k r hw hn hk ht
    cases n with
    | zero => simp at hn
    | succ n =>
      rw [List.cons_append, starLoop_chr_greedy_cons p n prev c (w ++ t) cs k
        (hw c (List.mem_cons_self c w)),
        ih n (some c) t cs k r (fun x hx => hw x (List.mem_cons_of_mem c hx))
          (by simpa using hn) (by simpa using hk) ht]


/-! ## Patterns anchored at the start of the text -/

theorem Re.tryAt_bot_some (r : Re) (c : Char) (s : Str) :
    (Re.seq .bot r).tryAt (some c) s = none := by
  simp [Re.tryAt, Re.matchAt, Re.run]

theorem Re.find_bot_some (r : Re) : ∀ (s : Str) (c : Char),
    (Re.seq .bot r).find (some c) s = none := by
  intro s
  induction s with
  | nil => intro c; rfl
  | cons d t ih => intro c; rw [Re.find, Re.tryAt_bot_some, ih]

/-- An anchored pattern matches at the start of the text or nowhere. -/
theorem Re.find_bot (r : Re) (s : Str) :
    (Re.seq .bot r).find none s = (Re.seq .bot r).tryAt none s := by
  cases s with
  | nil =>
    unfold Re.tryAt
    cases (Re.seq .bot r).matchAt ⟨none, []⟩ with
    | none => rfl
    | some r => simp [Re.find]
  | cons c t =>
    rw [Re.find, Re.find_bot_some]
    cases (Re.seq .bot r).tryAt none (c :: t) <;> rfl

theorem Re.run_seq_bot {α : Type} (r : Re) (s : Str) (cs : Caps) (k : Pos → Caps → Option α) :
    (Re.seq .bot r).run ⟨none, s⟩ cs k = r.run ⟨none, s⟩ cs k := by
  simp [Re.run]

theorem mysqldumpRe_admin (x : Str) :
    mysqldumpRe.MatchString ("administrator command: ".toList ++ x) = false := by
  apply Re.MatchString_of_find_none
  unfold mysqldumpRe
  rw [Re.find_bot]
  simp [Re.tryAt, Re.matchAt, Re.run, Re.lit]

theorem adminRe_prefix (x : Str) :
    adminRe.MatchString ("administrator command: ".toList ++ x) = true := by
  unfold Re.MatchString adminRe
  rw [Re.find_bot, Re.tryAt, Re.matchAt, Re.run_seq_bot, Re.run_lit]
  have : x.length < ("administrator command: ".toList ++ x).length := by
    rw [List.length_append]
    exact Nat.lt_add_of_pos_left (by decide)
  simp only [this, if_true, Option.isSome_some]


/-! ## Characters that a pattern needs -/

theorem Re.needs_mono {P Q : Char → Prop} (hPQ : ∀ c, P c → Q c) :
    ∀ re : Re, re.needs P → re.needs Q := by
  intro re
  induction re with
  | chr p => intro h c hc; exact hPQ c (h c hc)
  | seq a b iha ihb =>
    intro h
    cases h with
    | inl h => exact Or.inl (iha h)
    | inr h => exact Or.inr (ihb h)
  | alt a b iha ihb => intro h; exact ⟨iha h.1, ihb h.2⟩
  | group n a iha => intro h; exact iha h
  | eps => intro h; cases h
  | star g a _ => intro h; cases h
  | bot => intro h; cases h
  | eot => intro h; cases h
  | eol => intro h; cases h
  | wordb => intro h; cases h

theorem Re.needs_lit : ∀ (l : Str) (c : Char), c ∈ l → (Re.lit l).needs (fun x => x = c) := by
  intro l
  induction l with
  | nil => intro c hc; cases hc
  | cons d l ih =>
    intro c hc
    cases l with
    | nil =>
      simp only [List.mem_singleton] at hc
      subst hc
      intro x hx
      simpa using hx
    | cons e l =>
      rw [Re.lit]
      · rcases List.mem_cons.mp hc with h | h
        · subst h
          exact Or.inl (fun x hx => by simpa using hx)
        · exact Or.inr (ih c h)
      · simp

theorem Re.needs_liti_head (d : Char) (l : Str) :
    (Re.liti (d :: l)).needs (fun x => foldEq d x = true) := by
  cases l with
  | nil => exact fun x hx => hx
  | cons e l => exact Or.inl (fun x hx => hx)

theorem Re.needs_cat_head (P : Char → Prop) (a : Re) (l : List Re) (h : a.needs P) :
    (Re.cat (a :: l)).needs P := by
  cases l with
  | nil => exact h
  | cons b l => exact Or.inl h

theorem Re.needs_cat_tail (P : Char → Prop) (a b : Re) (l : List Re)
    (h : (Re.cat (b :: l)).needs P) : (Re.cat (a :: b :: l)).needs P := Or.inr h

theorem mysqldumpRe_needs : mysqldumpRe.needs (fun x => x = '/') :=
  Or.inr (Re.needs_lit _ _ (by decide))

theorem perconaRe_needs : perconaRe.needs (fun x => x = '/') :=
  Re.needs_cat_head _ _ _ (Re.needs_lit _ _ (by decide))

theorem adminRe_needs : adminRe.needs (fun x => x = ':') :=
  Or.inr (Re.needs_lit _ _ (by decide))

theorem callRe_needs_paren : callRe.needs (fun x => x = '(') :=
  Re.needs_cat_tail _ _ _ _ (Re.needs_cat_tail _ _ _ _ (Re.needs_cat_tail _ _ _ _
    (Re.needs_lit _ _ (by decide))))

theorem callRe_needs_c : callRe.needs (fun x => x = 'c') :=
  Re.needs_cat_tail _ _ _ _ (Re.needs_cat_tail _ _ _ _ (Re.needs_cat_head _ _ _
    (Re.needs_cat_head _ _ _ (Re.needs_lit _ _ (by decide)))))

theorem nextRowRe_needs_paren : nextRowRe.needs (fun x => x = '(') :=
  Re.needs_cat_tail _ _ _ _ (Re.needs_cat_tail _ _ _ _ (Re.needs_cat_tail _ _ _ _
    (Re.needs_lit _ _ (by decide))))

theorem nextRowRe_needs_comma : nextRowRe.needs (fun x => x = ',') :=
  Re.needs_cat_tail _ _ _ _ (Re.needs_cat_head _ _ _ (Re.needs_lit _ _ (by decide)))

theorem insertRe_needs_paren : insertRe.needs (fun x => x = '(') :=
  Or.inr nextRowRe_needs_paren

theorem mlcRe_needs : mlcRe.needs (fun x => x = '/') :=
  Re.needs_cat_head _ _ _ (Re.needs_lit _ _ (by decide))

theorem olcRe_needs : olcRe.needs (fun x => x = '-') :=
  Re.needs_cat_head _ _ _ (Re.needs_lit _ _ (by decide))

theorem useRe_needs : useRe.needs (fun x => foldEq 'u' x = true) :=
  Re.needs_cat_tail _ _ _ _ (Re.needs_cat_head _ _ _ (Re.needs_liti_head _ _))

theorem escQuoteRe_needs (q : Char) : (escQuoteRe q).needs (fun x => x = '\\') :=
  Or.inr (Re.needs_lit _ _ (by simp))

theorem backslashesRe_needs : backslashesRe.needs (fun x => x = '\\') :=
  Re.needs_lit _ _ (by simp)

theorem bareEscQuoteRe_needs (q : Char) : (bareEscQuoteRe q).needs (fun x => x = '\\') :=
  Re.needs_lit _ _ (by simp)

theorem quotedRe_needs (q : Char) : (quotedRe q).needs (fun x => x = q) :=
  Or.inr (Re.needs_cat_head _ _ _ (Re.needs_lit _ _ (by simp)))

theorem boolRe_needs : boolRe.needs (fun x => x = 'a' ∨ x = 'r') :=
  ⟨Re.needs_cat_tail _ _ _ _ (Re.needs_cat_head _ _ _
      (Re.needs_mono (fun _ h => Or.inl h) _ (Re.needs_lit _ 'a' (by decide)))),
    Re.needs_cat_tail _ _ _ _ (Re.needs_cat_head _ _ _
      (Re.needs_mono (fun _ h => Or.inr h) _ (Re.needs_lit _ 'r' (by decide))))⟩

theorem md5Re_needs : md5Re.needs (fun x => isMd5Lead x = true) :=
  Or.inl (fun _ h => h)

theorem glueRe_needs : glueRe.needs (fun x => isGlue x = true) := Or.inl (fun _ h => h)

theorem glueDotRe_needs : glueDotRe.needs (fun x => isGlueDot x = true) := Or.inl (fun _ h => h)

theorem nullRe_needs : nullRe.needs (fun x => x = 'u') :=
  Re.needs_cat_tail _ _ _ _ (Re.needs_cat_head _ _ _ (Re.needs_lit _ _ (by decide)))

/-! ## The stages leave alone a text without the characters they need -/

theorem shortenInsert_of_no_paren (s : Str) (h : ∀ c ∈ s, ¬ c = '(') : shortenInsert s = s := by
  unfold shortenInsert
  rw [Re.FindStringSubmatch_of_find_none _ _ (Re.find_none_of_needs _ _ insertRe_needs_paren _ _ h)]

theorem stripComments_of_none (s : Str) (h1 : ∀ c ∈ s, ¬ c = '/') (h2 : ∀ c ∈ s, ¬ c = '-') :
    stripComments s = s := by
  unfold stripComments
  rw [Re.ReplaceAllString_of_find_none mlcRe _ _ (Re.find_none_of_needs _ _ mlcRe_needs _ _ h1),
    Re.ReplaceAllString_of_find_none olcRe _ _ (Re.find_none_of_needs _ _ olcRe_needs _ _ h2)]

theorem maskUse_of_no_u (s : Str) (h : ∀ c ∈ s, ¬ foldEq 'u' c = true) : maskUse s = s := by
  unfold maskUse
  rw [Re.ReplaceAllString_of_find_none _ _ _ (Re.find_none_of_needs _ _ useRe_needs _ _ h)]

theorem maskStrings_of_none (s : Str) (h1 : ∀ c ∈ s, ¬ c = '\\') (h2 : ∀ c ∈ s, ¬ c = '"')
    (h3 : ∀ c ∈ s, ¬ c = '\'') : maskStrings s = s := by
  unfold maskStrings
  simp only
  rw [Re.ReplaceAllString_of_find_none _ s _
      (Re.find_none_of_needs _ _ (escQuoteRe_needs _) _ _ h1),
    Re.ReplaceAllString_of_find_none _ s _
      (Re.find_none_of_needs _ _ (escQuoteRe_needs _) _ _ h1),
    Re.ReplaceAllString_of_find_none _ s _
      (Re.find_none_of_needs _ _ backslashesRe_needs _ _ h1),
    Re.ReplaceAllString_of_find_none _ s _
      (Re.find_none_of_needs _ _ (bareEscQuoteRe_needs _) _ _ h1),
    Re.ReplaceAllString_of_find_none _ s _
      (Re.find_none_of_needs _ _ (bareEscQuoteRe_needs _) _ _ h1),
    Re.ReplaceAllString_of_find_none _ s _
      (Re.find_none_of_needs _ _ (quotedRe_needs _) _ _ h2),
    Re.ReplaceAllString_of_find_none _ s _
      (Re.find_none_of_needs _ _ (quotedRe_needs _) _ _ h3)]

theorem maskBooleans_of_none (s : Str) (h : ∀ c ∈ s, ¬ (c = 'a' ∨ c = 'r')) :
    maskBooleans s = s := by
  unfold maskBooleans
  rw [Re.ReplaceAllString_of_find_none _ _ _ (Re.find_none_of_needs _ _ boolRe_needs _ _ h)]

theorem maskMD5_of_none (s : Str) (h : ∀ c ∈ s, ¬ isMd5Lead c = true) : maskMD5 s = s := by
  unfold maskMD5
  rw [Re.MatchString_of_find_none _ _ (Re.find_none_of_needs _ _ md5Re_needs _ _ h)]
  rfl

theorem cleanupGlue_of_none (s : Str) (h : ∀ c ∈ s, ¬ isGlueDot c = true) :
    cleanupGlue s = s := by
  unfold cleanupGlue
  have h' : ∀ c ∈ s, ¬ isGlue c = true := by
    intro c hc hg
    apply h c hc
    unfold isGlue at hg
    unfold isGlueDot
    simp only [Bool.or_eq_true] at hg ⊢
    tauto
  rw [Re.MatchString_of_find_none _ _ (Re.find_none_of_needs _ _ glueRe_needs _ _ h'),
    Re.ReplaceAllString_of_find_none _ _ _ (Re.find_none_of_needs _ _ glueDotRe_needs _ _ h)]
  rfl

theorem maskNull_of_no_u (s : Str) (h : ∀ c ∈ s, ¬ c = 'u') : maskNull s = s := by
  unfold maskNull
  rw [Re.ReplaceAllString_of_find_none _ _ _ (Re.find_none_of_needs _ _ nullRe_needs _ _ h)]

/-! ## Digits and ASCII texts -/

theorem isDigit_mem (c : Char) (h : isDigit c = true) : c ∈ digits := by
  unfold isDigit at h
  simp only [Bool.and_eq_true, decide_eq_true_eq] at h
  have hc : c = Char.ofNat c.toNat := (Char.ofNat_toNat c).symm
  obtain ⟨h1, h2⟩ := h
  generalize c.toNat = m at hc h1 h2
  subst hc
  interval_cases m <;> decide

/-- A property of the characters of an alphabet holds for a digit when the alphabet has
the digits. -/
theorem of_digit {Q : Char → Prop} (hQ : ∀ c ∈ digits, Q c) (c : Char) (h : isDigit c = true) :
    Q c := hQ c (isDigit_mem c h)

theorem toLower_congr (u v : Char → Char) (s : Str) (h : ∀ c ∈ s, c.toNat < 128) :
    toLower u s = toLower v s := by
  unfold toLower
  apply List.map_congr_left
  intro c hc
  simp [h c hc]

theorem GetFingerprint_eq_afterNumbers (u : Char → Char) (q : Str)
    (h1 : mysqldumpRe.MatchString q = false) (h2 : perconaRe.MatchString q = false)
    (h3 : adminRe.MatchString q = false) (h4 : callRe.FindStringSubmatch q = none) :
    GetFingerprint u q = afterNumbers u (maskNumbers (maskMD5 (maskBooleans (maskStrings
      (maskUse (stripComments (shortenInsert q))))))) := by
  unfold GetFingerprint afterNumbers beforeUnion maskLiterals maskValues stripText
  rw [h1, h2, h3, h4]
  rw [if_neg Bool.false_ne_true, if_neg Bool.false_ne_true, if_neg Bool.false_ne_true]

/-! ## The number mask -/

theorem numberRe_tryAt_none (prev : Option Char) (c : Char) (t : Str)
    (hc : isNumStart c = false) : numberRe.tryAt prev (c :: t) = none := by
  simp [Re.tryAt, Re.matchAt, numberRe, Re.cat, Re.run, hc]

theorem isDigit_isWord (c : Char) (h : isDigit c = true) : isWord c = true := by
  simp [isWord, h]

theorem isDigit_isNumStart (c : Char) (h : isDigit c = true) : isNumStart c = true := by
  simp [isNumStart, h]

theorem isDigit_isNumBody (c : Char) (h : isDigit c = true) : isNumBody c = true := by
  simp [isNumBody, h]

/-- A run of digits behind a character that is no word character is one match of the
number pattern when the text goes on with a character outside `[0-9a-f.xb+-]`. -/
theorem numberRe_tryAt_digits (prev : Option Char) (d : Char) (ds t : Str)
    (hprev : ∀ c, prev = some c → isWord c = false) (hd : isDigit d = true)
    (hds : ∀ c ∈ ds, isDigit c = true) (ht : ∀ c t', t = c :: t' → isNumBody c = false) :
    numberRe.tryAt prev (d :: (ds ++ t)) = some (⟨[], d :: ds, []⟩, ⟨lastOr (some d) ds, t⟩) := by
  have hb : atWordBoundary ⟨prev, d :: (ds ++ t)⟩ = true := by
    unfold atWordBoundary
    cases prev with
    | none => simp [wordBefore, wordAfter, isDigit_isWord d hd]
    | some c => simp [wordBefore, wordAfter, hprev c rfl, isDigit_isWord d hd]
  have hrun : numberRe.matchAt ⟨prev, d :: (ds ++ t)⟩ = some (⟨lastOr (some d) ds, t⟩, []) := by
    unfold Re.matchAt numberRe
    simp only [Re.cat, Re.run, hb, if_true, isDigit_isNumStart d hd]
    exact starLoop_chr_greedy_run isNumBody ds _ (some d) t [] _ _
      (fun c hc => isDigit_isNumBody c (hds c hc)) (by simp) rfl ht
  unfold Re.tryAt
  rw [hrun]
  have hlt : t.length < (d :: (ds ++ t)).length := by
    simp only [List.length_cons, List.length_append]
    omega
  simp only [hlt, if_true]
  have : (d :: (ds ++ t)).length - t.length = (d :: ds).length := by
    simp only [List.length_cons, List.length_append]
    omega
  rw [this, ← List.cons_append, List.take_left]

/-! ## Literal invariance -/

theorem afterNumbers_congr (u v : Char → Char) (x : Str)
    (h : ∀ c ∈ spacesRe.ReplaceAllString (TrimRight (TrimSpace (cleanupGlue x)))
      [.text " ".toList], c.toNat < 128) :
    afterNumbers u x = afterNumbers v x := by
  unfold afterNumbers normalizeSpace
  rw [toLower_congr u v _ h]

theorem Re.replaceFrom_nil (re : Re) (tpl : List Tpl) (prev : Option Char) :
    re.replaceFrom tpl prev [] = [] :=
  Re.replaceFrom_of_find_none re tpl prev [] rfl

theorem maskNumbers_selectById (n : Str) (hn : n ≠ []) (hd : ∀ c ∈ n, isDigit c = true) :
    maskNumbers (selectById ++ n) = selectById ++ ['?'] := by
  cases n with
  | nil => exact absurd rfl hn
  | cons d ds =>
    have hskip : ∀ c ∈ selectById, ∀ p t, numberRe.tryAt p (c :: t) = none :=
      fun c hc p t => numberRe_tryAt_none p c t
        ((by decide : ∀ c ∈ selectById, isNumStart c = false) c hc)
    have htry := numberRe_tryAt_digits (some '=') d ds []
      (fun c hc => by cases hc; decide) (hd d (List.mem_cons_self d ds))
      (fun c hc => hd c (List.mem_cons_of_mem d hc)) (fun c t' h => by cases h)
    rw [List.append_nil] at htry
    have hfind : numberRe.find none (selectById ++ d :: ds)
        = some (⟨selectById ++ [], d :: ds, []⟩, ⟨lastOr (some d) ds, []⟩) := by
      rw [Re.find_skip numberRe selectById none (d :: ds) hskip]
      have hl : lastOr none selectById = some '=' := by decide
      rw [hl, Re.find, htry]
    unfold maskNumbers
    rw [Re.MatchString, hfind, Re.ReplaceAllString_eq,
      Re.replaceFrom_of_find_some _ _ _ _ _ _ hfind, Re.replaceFrom_nil]
    simp [expand]

set_option maxRecDepth 100000 in
theorem afterNumbers_selectById (u : Char → Char) :
    afterNumbers u (selectById ++ ['?']) = .ok "select * from t where id=?".toList := by
  rw [afterNumbers_congr u asciiOnly _ (by decide!)]
  decide!

/-- The fingerprint of `SELECT * FROM t WHERE id=` followed by an unsigned decimal
integer literal. -/
theorem GetFingerprint_selectById (u : Char → Char) (n : Str) (hn : n ≠ [])
    (hd : ∀ c ∈ n, isDigit c = true) :
    GetFingerprint u (selectById ++ n) = .ok "select * from t where id=?".toList := by
  have hA : ∀ c ∈ selectById ++ n, c ∈ selectById ++ digits := by
    intro c hc
    rcases List.mem_append.mp hc with h | h
    · exact List.mem_append_left _ h
    · exact List.mem_append_right _ (isDigit_mem c (hd c h))
  have no : ∀ (Q : Char → Prop), (∀ c ∈ selectById ++ digits, ¬ Q c) →
      ∀ c ∈ selectById ++ n, ¬ Q c := fun Q hQ c hc => hQ c (hA c hc)
  rw [GetFingerprint_eq_afterNumbers u _
      (Re.MatchString_of_find_none _ _ (Re.find_none_of_needs _ _ mysqldumpRe_needs _ _
        (no _ (by decide))))
      (Re.MatchString_of_find_none _ _ (Re.find_none_of_needs _ _ perconaRe_needs _ _
        (no _ (by decide))))
      (Re.MatchString_of_find_none _ _ (Re.find_none_of_needs _ _ adminRe_needs _ _
        (no _ (by decide))))
      (Re.FindStringSubmatch_of_find_none _ _ (Re.find_none_of_needs _ _ callRe_needs_paren _ _
        (no _ (by decide)))),
    shortenInsert_of_no_paren _ (no _ (by decide)),
    stripComments_of_none _ (no _ (by decide)) (no _ (by decide)),
    maskUse_of_no_u _ (no _ (by decide)),
    maskStrings_of_none _ (no _ (by decide)) (no _ (by decide)) (no _ (by decide)),
    maskBooleans_of_none _ (no _ (by decide)),
    maskMD5_of_none _ (no _ (by decide)),
    maskNumbers_selectById n hn hd, afterNumbers_selectById]

/-! ## Walking through a text -/

theorem Re.find_of_tryAt (re : Re) (prev : Option Char) (c : Char) (t : Str) (r : Hit × Pos)
    (h : re.tryAt prev (c :: t) = some r) : re.find prev (c :: t) = some r := by
  rw [Re.find, h]

theorem Re.replaceFrom_of_tryAt (re : Re) (tpl : List Tpl) (prev : Option Char) (c : Char)
    (t : Str) (h : Hit) (st : Pos) (ht : re.tryAt prev (c :: t) = some (h, st)) :
    re.replaceFrom tpl prev (c :: t)
      = h.gap ++ (expand tpl h.caps ++ re.replaceFrom tpl st.prev st.rest) :=
  Re.replaceFrom_of_find_some re tpl prev _ h st (Re.find_of_tryAt re prev c t _ ht)

theorem Re.replaceFrom_skip (re : Re) (tpl : List Tpl) (pre : Str) (prev : Option Char)
    (s : Str) (hpre : ∀ c ∈ pre, ∀ p t, re.tryAt p (c :: t) = none) :
    re.replaceFrom tpl prev (pre ++ s) = pre ++ re.replaceFrom tpl (lastOr prev pre) s := by
  have hf := Re.find_skip re pre prev s hpre
  cases hs : re.find (lastOr prev pre) s with
  | none =>
    rw [hs] at hf
    rw [Re.replaceFrom_of_find_none re tpl _ _ hf, Re.replaceFrom_of_find_none re tpl _ _ hs]
  | some r =>
    obtain ⟨h, st⟩ := r
    rw [hs] at hf
    rw [Re.replaceFrom_of_find_some re tpl _ _ _ _ hf,
      Re.replaceFrom_of_find_some re tpl _ _ _ _ hs]
    simp

theorem Re.find_cons_none (re : Re) (prev : Option Char) (c : Char) (t : Str)
    (h : re.tryAt prev (c :: t) = none) :
    re.find prev (c :: t)
      = match re.find (some c) t with
        | some (h, st) => some ({ h with gap := c :: h.gap }, st)
        | none => none := by
  rw [Re.find, h]

theorem Re.replaceFrom_cons_none (re : Re) (tpl : List Tpl) (prev : Option Char) (c : Char)
    (t : Str) (h : re.tryAt prev (c :: t) = none) :
    re.replaceFrom tpl prev (c :: t) = c :: re.replaceFrom tpl (some c) t := by
  have hf := Re.find_cons_none re prev c t h
  cases hs : re.find (some c) t with
  | none =>
    rw [hs] at hf
    rw [Re.replaceFrom_of_find_none re tpl _ _ hf, Re.replaceFrom_of_find_none re tpl _ _ hs]
  | some r =>
    obtain ⟨h, st⟩ := r
    rw [hs] at hf
    rw [Re.replaceFrom_of_find_some re tpl _ _ _ _ hf,
      Re.replaceFrom_of_find_some re tpl _ _ _ _ hs]
    simp

theorem Re.matchString_of_tryAt_skip (re : Re) (pre : Str) (c : Char) (t : Str) (r : Hit × Pos)
    (hpre : ∀ c ∈ pre, ∀ p t, re.tryAt p (c :: t) = none)
    (h : re.tryAt (lastOr none pre) (c :: t) = some r) :
    re.MatchString (pre ++ c :: t) = true := by
  rw [Re.MatchString, Re.find_skip re pre none _ hpre, Re.find_of_tryAt re _ c t r h]
  rfl

/-! ## The replacement of white space -/

theorem spacesRe_tryAt_none (prev : Option Char) (c : Char) (t : Str)
    (hc : isSpaceRe c = false) : spacesRe.tryAt prev (c :: t) = none := by
  simp [Re.tryAt, Re.matchAt, spacesRe, Re.plus, Re.run, hc]

theorem spacesRe_tryAt_run (prev : Option Char) (c : Char) (w t : Str)
    (hc : isSpaceRe c = true) (hw : ∀ x ∈ w, isSpaceRe x = true)
    (ht : ∀ x t', t = x :: t' → isSpaceRe x = false) :
    spacesRe.tryAt prev (c :: (w ++ t)) = some (⟨[], c :: w, []⟩, ⟨lastOr (some c) w, t⟩) := by
  have hrun : spacesRe.matchAt ⟨prev, c :: (w ++ t)⟩ = some (⟨lastOr (some c) w, t⟩, []) := by
    unfold Re.matchAt spacesRe Re.plus
    simp only [Re.run, hc, if_true]
    exact starLoop_chr_greedy_run isSpaceRe w _ (some c) t [] _ _ hw (by simp) rfl ht
  unfold Re.tryAt
  rw [hrun]
  have hlt : t.length < (c :: (w ++ t)).length := by
    simp only [List.length_cons, List.length_append]
    omega
  simp only [hlt, if_true]
  have : (c :: (w ++ t)).length - t.length = (c :: w).length := by
    simp only [List.length_cons, List.length_append]
    omega
  rw [this, ← List.cons_append, List.take_left]

theorem squeeze_true_run : ∀ (w t : Str), (∀ x ∈ w, isSpaceRe x = true) →
    squeeze true (w ++ t) = squeeze true t := by
  intro w
  induction w with
  | nil => intro t _; rfl
  | cons c w ih =>
    intro t hw
    rw [List.cons_append, squeeze, if_pos (hw c (List.mem_cons_self c w))]
    simp only [if_true]
    exact ih t (fun x hx => hw x (List.mem_cons_of_mem c hx))

theorem squeeze_true_stop (t : Str) (ht : ∀ x t', t = x :: t' → isSpaceRe x = false) :
    squeeze true t = squeeze false t := by
  cases t with
  | nil => rfl
  | cons x t' => simp [squeeze, ht x t' rfl]

/-- The replacement of `\s+` by one space, as a function on texts. -/
theorem spacesRe_replaceFrom : ∀ (n : Nat) (s : Str) (prev : Option Char), s.length ≤ n →
    spacesRe.replaceFrom [.text " ".toList] prev s = squeeze false s := by
  intro n
  induction n with
  | zero =>
    intro s prev hs
    have : s = [] := List.length_eq_zero.mp (Nat.le_zero.mp hs)
    subst this
    exact Re.replaceFrom_nil _ _ _
  | succ n ih =>
    intro s prev hs
    cases s with
    | nil => exact Re.replaceFrom_nil _ _ _
    | cons c t =>
      cases hc : isSpaceRe c with
      | false =>
        rw [Re.replaceFrom_cons_none _ _ _ _ _ (spacesRe_tryAt_none prev c t hc),
          ih t (some c) (by simpa using hs), squeeze]
        simp [hc]
      | true =>
        have ht : t = t.takeWhile isSpaceRe ++ t.dropWhile isSpaceRe :=
          (List.takeWhile_append_dropWhile _ _).symm
        have hstop : ∀ x t', t.dropWhile isSpaceRe = x :: t' → isSpaceRe x = false := by
          intro x t' h
          have := List.head_dropWhile_not isSpaceRe t (by rw [h]; simp)
          simpa [h] using this
        have hw : ∀ x ∈ t.takeWhile isSpaceRe, isSpaceRe x = true :=
          fun x hx => List.mem_takeWhile_imp hx
        have hlen : (t.dropWhile isSpaceRe).length ≤ n := by
          have h1 : (t.dropWhile isSpaceRe).length ≤ t.length :=
            (List.dropWhile_sublist _).length_le
          simp only [List.length_cons] at hs
          omega
        have key := spacesRe_tryAt_run prev c _ _ hc hw hstop
        rw [← ht] at key
        rw [Re.replaceFrom_of_tryAt _ _ _ _ _ _ _ key]
        simp only [expand, List.nil_append, List.append_nil]
        rw [ih _ _ hlen, squeeze, if_pos hc]
        simp only [Bool.false_eq_true, if_false]
        conv_rhs => rw [ht, squeeze_true_run _ _ hw, squeeze_true_stop _ hstop]
        rfl

theorem spacesRe_ReplaceAllString (s : Str) :
    spacesRe.ReplaceAllString s [.text " ".toList] = squeeze false s :=
  spacesRe_replaceFrom s.length s none (Nat.le_refl _)

/-! ## Lists of literals -/

theorem joinComma_cons_cons (l l' : Str) (ls : List Str) :
    joinComma (l :: l' :: ls) = l ++ ',' :: joinComma (l' :: ls) := rfl

theorem intercalate_comma : ∀ (ls : List Str), List.intercalate [','] ls = joinComma ls := by
  intro ls
  induction ls with
  | nil => rfl
  | cons l ls ih =>
    cases ls with
    | nil => simp [List.intercalate, joinComma]
    | cons l' ls =>
      rw [joinComma_cons_cons, ← ih]
      simp [List.intercalate]

theorem numberRe_needs : numberRe.needs (fun x => isNumStart x = true) :=
  Or.inr (Or.inl (fun _ h => h))

theorem numberRe_replaceFrom_paren (prev : Option Char) :
    numberRe.replaceFrom [.text "?".toList] prev [')'] = [')'] :=
  Re.replaceFrom_of_find_none _ _ _ _
    (Re.find_none_of_needs _ _ numberRe_needs _ _ (by decide))

/-- The number mask on a list of literals that follows a character outside `\w`. -/
theorem numberRe_replaceFrom_list : ∀ (lits : List Str) (prev : Option Char),
    lits ≠ [] → (∀ l ∈ lits, l ≠ [] ∧ ∀ c ∈ l, isDigit c = true) →
    (∀ c, prev = some c → isWord c = false) →
    numberRe.replaceFrom [.text "?".toList] prev (joinComma lits ++ [')'])
      = marks (lits.length - 1) ++ [')'] := by
  intro lits
  induction lits with
  | nil => intro prev h; exact absurd rfl h
  | cons l ls ih =>
    intro prev _ hl hprev
    obtain ⟨hne, hd⟩ := hl l (List.mem_cons_self l ls)
    cases l with
    | nil => exact absurd rfl hne
    | cons d ds =>
      have hd0 := hd d (List.mem_cons_self d ds)
      have hds : ∀ c ∈ ds, isDigit c = true := fun c hc => hd c (List.mem_cons_of_mem d hc)
      cases ls with
      | nil =>
        have key := numberRe_tryAt_digits prev d ds [')'] hprev hd0 hds
          (fun c t' h => by cases h; decide)
        show numberRe.replaceFrom _ prev (d :: (ds ++ [')'])) = _
        rw [Re.replaceFrom_of_tryAt _ _ _ _ _ _ _ key]
        simp only [numberRe_replaceFrom_paren]
        rfl
      | cons l' ls' =>
        have key := numberRe_tryAt_digits prev d ds (',' :: (joinComma (l' :: ls') ++ [')'])) hprev
          hd0 hds (fun c t' h => by cases h; decide)
        have hcomma : ∀ p t, numberRe.tryAt p (',' :: t) = none :=
          fun p t => numberRe_tryAt_none p ',' t (by decide)
        have hrest := ih (some ',') (by simp)
          (fun x hx => hl x (List.mem_cons_of_mem _ hx)) (fun c hc => by cases hc; decide)
        rw [joinComma_cons_cons]
        simp only [List.append_assoc, List.cons_append]
        rw [Re.replaceFrom_of_tryAt _ _ _ _ _ _ _ key]
        simp only
        rw [Re.replaceFrom_cons_none _ _ _ _ _ (hcomma _ _), hrest]
        rfl

theorem joinComma_head (d : Char) (ds : Str) (ls : List Str) :
    ∃ t, joinComma ((d :: ds) :: ls) ++ [')'] = d :: (ds ++ t)
      ∧ ∀ c t', t = c :: t' → isNumBody c = false := by
  cases ls with
  | nil => exact ⟨[')'], rfl, fun c t' h => by cases h; decide⟩
  | cons l' ls' =>
    refine ⟨',' :: (joinComma (l' :: ls') ++ [')']), ?_, fun c t' h => by cases h; decide⟩
    rw [joinComma_cons_cons]
    simp

theorem maskNumbers_selectIn (lits : List Str) (hne : lits ≠ [])
    (hl : ∀ l ∈ lits, l ≠ [] ∧ ∀ c ∈ l, isDigit c = true) :
    maskNumbers (selectIn ++ (joinComma lits ++ [')']))
      = selectIn ++ (marks (lits.length - 1) ++ [')']) := by
  have hskip : ∀ c ∈ selectIn, ∀ p t, numberRe.tryAt p (c :: t) = none :=
    fun c hc p t => numberRe_tryAt_none p c t
      ((by decide : ∀ c ∈ selectIn, isNumStart c = false) c hc)
  have hl0 : lastOr none selectIn = some '(' := by decide
  have hmatch : numberRe.MatchString (selectIn ++ (joinComma lits ++ [')'])) = true := by
    cases lits with
    | nil => exact absurd rfl hne
    | cons l ls =>
      obtain ⟨hne', hd⟩ := hl l (List.mem_cons_self l ls)
      cases l with
      | nil => exact absurd rfl hne'
      | cons d ds =>
        obtain ⟨t, ht, hstop⟩ := joinComma_head d ds ls
        rw [ht]
        apply Re.matchString_of_tryAt_skip numberRe selectIn d (ds ++ t) _ hskip
        rw [hl0]
        exact numberRe_tryAt_digits (some '(') d ds t (fun c hc => by cases hc; decide)
          (hd d (List.mem_cons_self d ds)) (fun c hc => hd c (List.mem_cons_of_mem d hc)) hstop
  unfold maskNumbers
  rw [hmatch, if_pos rfl, Re.ReplaceAllString_eq, Re.replaceFrom_skip _ _ _ _ _ hskip, hl0,
    numberRe_replaceFrom_list lits (some '(') hne hl (fun c hc => by cases hc; decide)]

/-! ## One step of the matcher, by constructor -/

theorem Re.run_seq {α : Type} (a b : Re) (st : Pos) (cs : Caps) (k : Pos → Caps → Option α) :
    (Re.seq a b).run st cs k = a.run st cs (fun st' cs' => b.run st' cs' k) := rfl

theorem Re.run_alt {α : Type} (a b : Re) (st : Pos) (cs : Caps) (k : Pos → Caps → Option α) :
    (Re.alt a b).run st cs k
      = match a.run st cs k with
        | some r => some r
        | none => b.run st cs k := rfl

theorem Re.run_alt_some {α : Type} (a b : Re) (st : Pos) (cs : Caps)
    (k : Pos → Caps → Option α) (r : α) (h : a.run st cs k = some r) :
    (Re.alt a b).run st cs k = some r := by
  rw [Re.run_alt, h]

theorem Re.run_alt_none {α : Type} (a b : Re) (st : Pos) (cs : Caps)
    (k : Pos → Caps → Option α) (h : a.run st cs k = none) :
    (Re.alt a b).run st cs k = b.run st cs k := by
  rw [Re.run_alt, h]

theorem Re.run_star {α : Type} (g : Bool) (a : Re) (st : Pos) (cs : Caps)
    (k : Pos → Caps → Option α) :
    (Re.star g a).run st cs k
      = starLoop (fun st' cs' k' => a.run st' cs' k') g st.rest.length st cs k := rfl

theorem Re.run_group {α : Type} (n : Nat) (a : Re) (st : Pos) (cs : Caps)
    (k : Pos → Caps → Option α) :
    (Re.group n a).run st cs k
      = a.run st cs (fun st' cs' =>
          k st' ((n, st.rest.take (st.rest.length - st'.rest.length)) :: cs')) := rfl

theorem Re.run_wordb {α : Type} (st : Pos) (cs : Caps) (k : Pos → Caps → Option α) :
    Re.wordb.run st cs k = if atWordBoundary st then k st cs else none := rfl

theorem Re.run_eps {α : Type} (st : Pos) (cs : Caps) (k : Pos → Caps → Option α) :
    Re.eps.run st cs k = k st cs := rfl

/-- A literal fails at a text that starts with another character than its first. -/
theorem Re.run_lit_none {α : Type} (d : Char) (l : Str) (prev : Option Char) (c : Char)
    (t : Str) (cs : Caps) (k : Pos → Caps → Option α) (h : (c == d) = false) :
    (Re.lit (d :: l)).run ⟨prev, c :: t⟩ cs k = none := by
  cases l with
  | nil => simp [Re.lit, Re.run_chr, h]
  | cons e l =>
    rw [Re.lit, Re.run_seq, Re.run_chr]
    · simp [h]
    · simp

/-! ## Trimming and white space of a text without stray white space -/

theorem trimRightBy_append_last (p : Char → Bool) (s : Str) (e : Char) (he : p e = false) :
    trimRightBy p (s ++ [e]) = s ++ [e] := by
  simp [trimRightBy, List.dropWhile, he]

theorem TrimSpace_of_ends (c e : Char) (s : Str) (hc : isSpaceUnicode c = false)
    (he : isSpaceUnicode e = false) : TrimSpace (c :: (s ++ [e])) = c :: (s ++ [e]) := by
  unfold TrimSpace
  rw [List.dropWhile_cons_of_neg (by simp [hc]), ← List.cons_append,
    trimRightBy_append_last _ _ _ he]

theorem TrimRight_of_end (s : Str) (e : Char) (he : isTrimRightCut e = false) :
    TrimRight (s ++ [e]) = s ++ [e] :=
  trimRightBy_append_last _ _ _ he

theorem squeeze_of_no_space : ∀ (s : Str) (f : Bool), (∀ c ∈ s, isSpaceRe c = false) →
    squeeze f s = s := by
  intro s
  induction s with
  | nil => intro f _; cases f <;> rfl
  | cons c t ih =>
    intro f h
    rw [squeeze, if_neg (by simp [h c (List.mem_cons_self c t)]),
      ih false (fun x hx => h x (List.mem_cons_of_mem c hx))]

theorem squeeze_stop (f : Bool) (t : Str) (ht : ∀ x t', t = x :: t' → isSpaceRe x = false) :
    squeeze f t = squeeze false t := by
  cases f with
  | false => rfl
  | true => exact squeeze_true_stop t ht

theorem squeeze_append : ∀ (a : Str) (f : Bool) (b : Str),
    (∀ x t', b = x :: t' → isSpaceRe x = false) →
    squeeze f (a ++ b) = squeeze f a ++ squeeze false b := by
  intro a
  induction a with
  | nil =>
    intro f b hb
    rw [List.nil_append, squeeze_stop f b hb]
    cases f <;> rfl
  | cons c a ih =>
    intro f b hb
    rw [List.cons_append, squeeze, squeeze]
    by_cases hc : isSpaceRe c = true
    · rw [if_pos hc, if_pos hc]
      cases f with
      | true => simp only [if_true]; exact ih true b hb
      | false =>
        simp only [Bool.false_eq_true, if_false]
        rw [ih true b hb]
        rfl
    · rw [if_neg hc, if_neg hc, ih false b hb]
      rfl

theorem toLower_append (u : Char → Char) (a b : Str) :
    toLower u (a ++ b) = toLower u a ++ toLower u b := by
  simp [toLower]

theorem toLower_of_fixed (u : Char → Char) (s : Str)
    (h : ∀ c ∈ s, c.toNat < 128 ∧ lowerAscii c = c) : toLower u s = s := by
  unfold toLower
  conv_rhs => rw [← List.map_id s]
  apply List.map_congr_left
  intro c hc
  simp [(h c hc).1, (h c hc).2]

/-! ## The placeholders of a list -/

theorem marks_mem : ∀ (k : Nat) (c : Char), c ∈ marks k → c ∈ ['?', ','] := by
  intro k
  induction k with
  | zero =>
    intro c hc
    simp only [marks, List.mem_singleton] at hc
    simp [hc]
  | succ k ih =>
    intro c hc
    simp only [marks, List.mem_cons] at hc
    rcases hc with h | h | h
    · simp [h]
    · simp [h]
    · exact ih c h

theorem marks_paren_mem (k : Nat) (c : Char) (hc : c ∈ marks k ++ [')']) :
    c ∈ ['?', ',', ')'] := by
  rcases List.mem_append.mp hc with h | h
  · have := marks_mem k c h
    simp only [List.mem_cons, List.mem_singleton, List.not_mem_nil, or_false] at this ⊢
    tauto
  · simp only [List.mem_singleton] at h
    simp [h]

theorem marks_head (k : Nat) : ∃ t, marks k = '?' :: t := by
  cases k with
  | zero => exact ⟨[], rfl⟩
  | succ k => exact ⟨',' :: marks k, rfl⟩

theorem marks_paren_stop (k : Nat) :
    ∀ x t', marks k ++ [')'] = x :: t' → isSpaceRe x = false := by
  intro x t' h
  obtain ⟨t, ht⟩ := marks_head k
  rw [ht] at h
  cases h
  decide

/-! ## IN-list arity invariance -/

theorem normalizeSpace_selectIn (u : Char → Char) (k : Nat) :
    normalizeSpace u (selectIn ++ (marks k ++ [')'])) = lowerIn ++ (marks k ++ [')']) := by
  have hX : selectIn ++ (marks k ++ [')']) = 'S' :: ((selectIn.tail ++ marks k) ++ [')']) := by
    rw [← List.append_assoc]
    rfl
  have hT : TrimSpace (selectIn ++ (marks k ++ [')'])) = selectIn ++ (marks k ++ [')']) := by
    rw [hX]
    exact TrimSpace_of_ends _ _ _ (by decide) (by decide)
  have hR : TrimRight (selectIn ++ (marks k ++ [')'])) = selectIn ++ (marks k ++ [')']) := by
    rw [← List.append_assoc]
    exact TrimRight_of_end _ _ (by decide)
  have hno : ∀ c ∈ marks k ++ [')'], isSpaceRe c = false :=
    fun c hc => (by decide : ∀ c ∈ ['?', ',', ')'], isSpaceRe c = false) c (marks_paren_mem k c hc)
  have hfix : ∀ c ∈ marks k ++ [')'], c.toNat < 128 ∧ lowerAscii c = c :=
    fun c hc => (by decide : ∀ c ∈ ['?', ',', ')'], c.toNat < 128 ∧ lowerAscii c = c) c
      (marks_paren_mem k c hc)
  have hs : squeeze false selectIn = selectIn := by decide
  have hlow : toLower u selectIn = lowerIn := by
    rw [toLower_congr u asciiOnly _ (by decide)]
    decide
  unfold normalizeSpace
  rw [hT, hR, spacesRe_ReplaceAllString, squeeze_append _ _ _ (marks_paren_stop k), hs,
    squeeze_of_no_space _ _ hno, toLower_append, hlow, toLower_of_fixed u _ hfix]

theorem Re.tryAt_of_matchAt_none (re : Re) (prev : Option Char) (s : Str)
    (h : re.matchAt ⟨prev, s⟩ = none) : re.tryAt prev s = none := by
  unfold Re.tryAt
  rw [h]

theorem inValuesRe_tryAt_none (p : Option Char) (c : Char) (t : Str)
    (hi : (c == 'i') = false) (hv : (c == 'v') = false) :
    inValuesRe.tryAt p (c :: t) = none := by
  have h1 : ∀ (cs : Caps) (k : Pos → Caps → Option (Pos × Caps)),
      (Re.lit "in".toList).run ⟨p, c :: t⟩ cs k = none :=
    fun cs k => Re.run_lit_none 'i' ['n'] p c t cs k hi
  have h2 : ∀ (cs : Caps) (k : Pos → Caps → Option (Pos × Caps)),
      (Re.lit "value".toList).run ⟨p, c :: t⟩ cs k = none :=
    fun cs k => Re.run_lit_none 'v' "alue".toList p c t cs k hv
  apply Re.tryAt_of_matchAt_none
  unfold Re.matchAt inValuesRe
  simp only [Re.cat]
  rw [Re.run_seq, Re.run_wordb]
  split
  · rw [Re.run_seq, Re.run_group, Re.run_alt_none _ _ _ _ _ (h1 _ _), Re.run_seq, h2]
  · rfl

theorem inValuesRe_tryAt_id (t : Str) :
    inValuesRe.tryAt (some ' ') ('i' :: 'd' :: t) = none := by
  have h1 : ∀ (cs : Caps) (k : Pos → Caps → Option (Pos × Caps)),
      (Re.lit "in".toList).run ⟨some ' ', 'i' :: 'd' :: t⟩ cs k = none := by
    intro cs k
    show (Re.seq (.chr (fun x => x == 'i')) (.chr (fun x => x == 'n'))).run _ cs k = none
    rw [Re.run_seq, Re.run_chr, if_pos (by decide), Re.run_chr, if_neg (by decide)]
  have h2 : ∀ (cs : Caps) (k : Pos → Caps → Option (Pos × Caps)),
      (Re.lit "value".toList).run ⟨some ' ', 'i' :: 'd' :: t⟩ cs k = none :=
    fun cs k => Re.run_lit_none 'v' "alue".toList _ 'i' _ cs k (by decide)
  apply Re.tryAt_of_matchAt_none
  unfold Re.matchAt inValuesRe
  simp only [Re.cat]
  rw [Re.run_seq, Re.run_wordb]
  split
  · rw [Re.run_seq, Re.run_group, Re.run_alt_none _ _ _ _ _ (h1 _ _), Re.run_seq, h2]
  · rfl

/-- One parenthesised list of placeholders is read as a whole. -/
theorem parenListRe_run {α : Type} (prev : Option Char) (w m t : Str) (cs : Caps)
    (k : Pos → Caps → Option α) (r : α)
    (hw : ∀ c ∈ w, isSpaceComma c = true) (hm : ∀ c ∈ m, isSpaceMarkComma c = true)
    (hk : k ⟨some ')', t⟩ cs = some r) :
    parenListRe.run ⟨prev, w ++ '(' :: (m ++ ')' :: t)⟩ cs k = some r := by
  unfold parenListRe
  simp only [Re.cat]
  rw [Re.run_seq, Re.run_star]
  apply starLoop_chr_greedy_run isSpaceComma w _ prev _ cs _ r hw (by simp)
  · show (Re.seq (Re.lit ['(']) _).run ⟨lastOr prev w, ['('] ++ (m ++ ')' :: t)⟩ cs k = some r
    rw [Re.run_seq, Re.run_lit, Re.run_seq, Re.run_star]
    apply starLoop_chr_greedy_run isSpaceMarkComma m _ _ _ cs _ r hm (by simp)
    · show (Re.lit [')']).run ⟨_, [')'] ++ t⟩ cs k = some r
      rw [Re.run_lit]
      exact hk
    · intro c t' h
      cases h
      decide
  · intro c t' h
    cases h
    decide

/-- The IN keyword and its list of placeholders are one match of the list pattern. -/
theorem inValuesRe_tryAt_in (m : Str) (hm : ∀ c ∈ m, isSpaceMarkComma c = true) :
    inValuesRe.tryAt (some ' ') ('i' :: 'n' :: ' ' :: '(' :: (m ++ [')']))
      = some (⟨[], 'i' :: 'n' :: ' ' :: '(' :: (m ++ [')']), [(1, ['i', 'n'])]⟩,
          ⟨some ')', []⟩) := by
  have hrun : inValuesRe.matchAt ⟨some ' ', 'i' :: 'n' :: ' ' :: '(' :: (m ++ [')'])⟩
      = some (⟨some ')', []⟩, [(1, ['i', 'n'])]) := by
    have hb : atWordBoundary ⟨some ' ', 'i' :: 'n' :: ' ' :: '(' :: (m ++ [')'])⟩ = true := rfl
    unfold Re.matchAt inValuesRe
    simp only [Re.cat]
    rw [Re.run_seq, Re.run_wordb, if_pos hb, Re.run_seq, Re.run_group]
    apply Re.run_alt_some
    show (Re.lit ['i', 'n']).run ⟨some ' ', ['i', 'n'] ++ (' ' :: '(' :: (m ++ [')']))⟩ [] _ = _
    rw [Re.run_lit]
    unfold Re.plus
    rw [Re.run_seq]
    apply parenListRe_run _ [' '] m [] _ _ _ (by decide) hm
    rw [Re.run_star]
    simp [starLoop]
  unfold Re.tryAt
  rw [hrun]
  simp

theorem collapseLists_lowerIn (k : Nat) :
    collapseLists (lowerIn ++ (marks k ++ [')'])) = "select * from t where id in(?+)".toList := by
  have hY : lowerIn ++ (marks k ++ [')']) = "select * from t where ".toList
      ++ ('i' :: 'd' :: ' ' :: 'i' :: 'n' :: ' ' :: '(' :: (marks k ++ [')'])) := rfl
  have hskip : ∀ c ∈ "select * from t where ".toList, ∀ p t, inValuesRe.tryAt p (c :: t) = none :=
    fun c hc p t => inValuesRe_tryAt_none p c t
      ((by decide : ∀ c ∈ "select * from t where ".toList, (c == 'i') = false) c hc)
      ((by decide : ∀ c ∈ "select * from t where ".toList, (c == 'v') = false) c hc)
  have hl : lastOr none "select * from t where ".toList = some ' ' := by decide
  have hm : ∀ c ∈ marks k, isSpaceMarkComma c = true :=
    fun c hc => (by decide : ∀ c ∈ ['?', ','], isSpaceMarkComma c = true) c (marks_mem k c hc)
  unfold collapseLists
  rw [Re.ReplaceAllString_eq, hY, Re.replaceFrom_skip _ _ _ _ _ hskip, hl,
    Re.replaceFrom_cons_none _ _ _ _ _ (inValuesRe_tryAt_id _),
    Re.replaceFrom_cons_none _ _ _ _ _ (inValuesRe_tryAt_none _ 'd' _ (by decide) (by decide)),
    Re.replaceFrom_cons_none _ _ _ _ _ (inValuesRe_tryAt_none _ ' ' _ (by decide) (by decide)),
    Re.replaceFrom_of_tryAt _ _ _ _ _ _ _ (inValuesRe_tryAt_in _ hm), Re.replaceFrom_nil]
  rfl

set_option maxRecDepth 100000 in
theorem finishFingerprint_in :
    finishFingerprint "select * from t where id in(?+)".toList
      = .ok "select * from t where id in(?+)".toList := by
  decide!

theorem afterNumbers_selectIn (u : Char → Char) (k : Nat) :
    afterNumbers u (selectIn ++ (marks k ++ [')']))
      = .ok "select * from t where id in(?+)".toList := by
  have hA : ∀ c ∈ selectIn ++ (marks k ++ [')']), c ∈ selectIn ++ ['?', ',', ')'] := by
    intro c hc
    rcases List.mem_append.mp hc with h | h
    · exact List.mem_append_left _ h
    · exact List.mem_append_right _ (marks_paren_mem k c h)
  have hB : ∀ c ∈ lowerIn ++ (marks k ++ [')']), c ∈ lowerIn ++ ['?', ',', ')'] := by
    intro c hc
    rcases List.mem_append.mp hc with h | h
    · exact List.mem_append_left _ h
    · exact List.mem_append_right _ (marks_paren_mem k c h)
  unfold afterNumbers
  rw [cleanupGlue_of_none _ (fun c hc =>
      (by decide : ∀ c ∈ selectIn ++ ['?', ',', ')'], ¬ isGlueDot c = true) c (hA c hc)),
    normalizeSpace_selectIn,
    maskNull_of_no_u _ (fun c hc =>
      (by decide : ∀ c ∈ lowerIn ++ ['?', ',', ')'], ¬ c = 'u') c (hB c hc)),
    collapseLists_lowerIn, finishFingerprint_in]

theorem joinComma_mem : ∀ (lits : List Str) (c : Char), c ∈ joinComma lits →
    c = ',' ∨ ∃ l ∈ lits, c ∈ l := by
  intro lits
  induction lits with
  | nil => intro c hc; cases hc
  | cons l ls ih =>
    intro c hc
    cases ls with
    | nil => exact Or.inr ⟨l, List.mem_cons_self _ _, hc⟩
    | cons l' ls' =>
      rw [joinComma_cons_cons] at hc
      rcases List.mem_append.mp hc with h | h
      · exact Or.inr ⟨l, List.mem_cons_self _ _, h⟩
      · rcases List.mem_cons.mp h with h | h
        · exact Or.inl h
        · rcases ih c h with h | ⟨x, hx, hcx⟩
          · exact Or.inl h
          · exact Or.inr ⟨x, List.mem_cons_of_mem _ hx, hcx⟩

theorem insertRe_needs_v : insertRe.needs (fun x => foldEq 'V' x = true) :=
  Or.inl (Re.needs_cat_tail _ _ _ _ (Re.needs_cat_tail _ _ _ _
    (Re.needs_cat_head _ _ _ (Re.needs_liti_head _ _))))

theorem shortenInsert_of_no_v (s : Str) (h : ∀ c ∈ s, ¬ foldEq 'V' c = true) :
    shortenInsert s = s := by
  unfold shortenInsert
  rw [Re.FindStringSubmatch_of_find_none _ _ (Re.find_none_of_needs _ _ insertRe_needs_v _ _ h)]

/-- The fingerprint of `SELECT * FROM t WHERE id IN (...)` with a list of unsigned decimal
integer literals. -/
theorem GetFingerprint_selectIn (u : Char → Char) (lits : List Str) (hne : lits ≠ [])
    (hl : ∀ l ∈ lits, l ≠ [] ∧ ∀ c ∈ l, isDigit c = true) :
    GetFingerprint u (selectIn ++ (joinComma lits ++ [')']))
      = .ok "select * from t where id in(?+)".toList := by
  have hA : ∀ c ∈ selectIn ++ (joinComma lits ++ [')']),
      c ∈ selectIn ++ (digits ++ [',', ')']) := by
    intro c hc
    rcases List.mem_append.mp hc with h | h
    · exact List.mem_append_left _ h
    · apply List.mem_append_right
      rcases List.mem_append.mp h with h | h
      · rcases joinComma_mem lits c h with h | ⟨l, hl', hcl⟩
        · subst h
          decide
        · exact List.mem_append_left _ (isDigit_mem c ((hl l hl').2 c hcl))
      · simp only [List.mem_singleton] at h
        subst h
        decide
  have no : ∀ (Q : Char → Prop), (∀ c ∈ selectIn ++ (digits ++ [',', ')']), ¬ Q c) →
      ∀ c ∈ selectIn ++ (joinComma lits ++ [')']), ¬ Q c := fun Q hQ c hc => hQ c (hA c hc)
  rw [GetFingerprint_eq_afterNumbers u _
      (Re.MatchString_of_find_none _ _ (Re.find_none_of_needs _ _ mysqldumpRe_needs _ _
        (no _ (by decide))))
      (Re.MatchString_of_find_none _ _ (Re.find_none_of_needs _ _ perconaRe_needs _ _
        (no _ (by decide))))
      (Re.MatchString_of_find_none _ _ (Re.find_none_of_needs _ _ adminRe_needs _ _
        (no _ (by decide))))
      (Re.FindStringSubmatch_of_find_none _ _ (Re.find_none_of_needs _ _ callRe_needs_c _ _
        (no _ (by decide)))),
    shortenInsert_of_no_v _ (no _ (by decide)),
    stripComments_of_none _ (no _ (by decide)) (no _ (by decide)),
    maskUse_of_no_u _ (no _ (by decide)),
    maskStrings_of_none _ (no _ (by decide)) (no _ (by decide)) (no _ (by decide)),
    maskBooleans_of_none _ (no _ (by decide)),
    maskMD5_of_none _ (no _ (by decide)),
    maskNumbers_selectIn lits hne hl, afterNumbers_selectIn]

/-! ## The matches and the text between them make up the text -/

theorem Re.matchAt_suffix (re : Re) (st st' : Pos) (cs : Caps)
    (h : re.matchAt st = some (st', cs)) : st'.rest <:+ st.rest := by
  obtain ⟨st1, cs1, hs, hk⟩ := re.run_some st [] _ _ h
  cases hk
  exact hs

theorem Re.tryAt_split (re : Re) (prev : Option Char) (s : Str) (h : Hit) (st : Pos)
    (hf : re.tryAt prev s = some (h, st)) :
    h.gap = [] ∧ s = h.text ++ st.rest ∧ 1 ≤ h.text.length := by
  unfold Re.tryAt at hf
  split at hf
  · next st' cs hm =>
    split at hf
    · next hlt =>
      obtain ⟨pre, hpre⟩ := Re.matchAt_suffix re _ _ _ hm
      simp only at hpre
      have hlen : s.length - st'.rest.length = pre.length := by
        rw [← hpre]
        simp
      have htake : s.take pre.length = pre := by
        rw [← hpre]
        simp
      rw [hlen, htake] at hf
      simp only [Option.some.injEq, Prod.mk.injEq] at hf
      obtain ⟨hh, hst⟩ := hf
      subst hh
      subst hst
      refine ⟨rfl, hpre.symm, ?_⟩
      simp only
      omega
    · cases hf
  · cases hf

theorem Re.find_split (re : Re) : ∀ (s : Str) (prev : Option Char) (h : Hit) (st : Pos),
    re.find prev s = some (h, st) → s = h.gap ++ (h.text ++ st.rest) ∧ 1 ≤ h.text.length := by
  intro s
  induction s with
  | nil => intro prev h st hf; simp [Re.find] at hf
  | cons c t ih =>
    intro prev h st hf
    rw [Re.find] at hf
    split at hf
    · next r hr =>
      cases hf
      obtain ⟨h1, h2, h3⟩ := Re.tryAt_split re _ _ _ _ hr
      rw [h1]
      exact ⟨h2, h3⟩
    · split at hf
      · next h' st' hr =>
        cases hf
        obtain ⟨h2, h3⟩ := ih _ _ _ hr
        refine ⟨?_, h3⟩
        simp only [List.cons_append]
        rw [← h2]
      · cases hf

/-- The text rebuilt from what a scan returns. -/
theorem Re.scan_split (re : Re) : ∀ (fuel : Nat) (prev : Option Char) (s : Str),
    s = rebuild (re.scan fuel prev s).1 (re.scan fuel prev s).2
      ∧ ∀ h ∈ (re.scan fuel prev s).1, 1 ≤ h.text.length := by
  intro fuel
  induction fuel with
  | zero =>
    intro prev s
    simp [Re.scan, rebuild]
  | succ n ih =>
    intro prev s
    rw [Re.scan]
    cases hf : re.find prev s with
    | none => simp [rebuild]
    | some r =>
      obtain ⟨h, st⟩ := r
      obtain ⟨h1, h2⟩ := Re.find_split re _ _ _ _ hf
      obtain ⟨h3, h4⟩ := ih st.prev st.rest
      refine ⟨?_, ?_⟩
      · simp only [rebuild]
        rw [← h3]
        exact h1
      · intro x hx
        simp only [List.mem_cons] at hx
        rcases hx with hx | hx
        · subst hx
          exact h2
        · exact h4 x hx

theorem rebuild_length : ∀ (hs : List Hit) (tl : Str),
    (rebuild hs tl).length = spanOf hs + tl.length := by
  intro hs
  induction hs with
  | nil => intro tl; simp [rebuild, spanOf]
  | cons h hs ih =>
    intro tl
    simp only [rebuild, spanOf, List.length_append, ih]
    omega

/-- The loop of `Split` appends the text before every match when no match is empty, and
ends with the start of the last match. -/
theorem splitLoop_eq : ∀ (hs : List Hit) (strs : List Str) (beg end_ : Nat),
    (∀ h ∈ hs, 1 ≤ h.text.length) →
    (splitLoop hs strs beg end_).1 = strs ++ hs.map (fun h => h.gap)
      ∧ ((hs = [] ∧ (splitLoop hs strs beg end_).2 = end_)
        ∨ (hs ≠ [] ∧ (splitLoop hs strs beg end_).2 < beg + spanOf hs)) := by
  intro hs
  induction hs with
  | nil => intro strs beg end_ _; simp [splitLoop]
  | cons h hs ih =>
    intro strs beg end_ hh
    have h1 := hh h (List.mem_cons_self h hs)
    have hne : (beg + h.gap.length + h.text.length != 0) = true := by
      simp only [bne_iff_ne, ne_eq]
      omega
    rw [splitLoop]
    simp only [hne, if_true]
    obtain ⟨ih1, ih2⟩ := ih (strs ++ [h.gap]) (beg + h.gap.length + h.text.length)
      (beg + h.gap.length) (fun x hx => hh x (List.mem_cons_of_mem h hx))
    refine ⟨?_, Or.inr ⟨by simp, ?_⟩⟩
    · rw [ih1]
      simp
    · rcases ih2 with ⟨hnil, h2⟩ | ⟨_, h2⟩
      · rw [h2, hnil]
        simp only [spanOf]
        omega
      · simp only [spanOf]
        omega

/-- `Split` returns the text before each match and the text after the last. -/
theorem Re.Split_eq (re : Re) (s : Str) :
    re.Split s = (re.allMatches s).1.map (fun h => h.gap) ++ [(re.allMatches s).2] := by
  unfold Re.Split
  by_cases hs : s = []
  · subst hs
    rfl
  · have hemp : s.isEmpty = false := by
      cases s with
      | nil => exact absurd rfl hs
      | cons c t => rfl
    rw [hemp]
    simp only [Bool.false_eq_true, if_false]
    obtain ⟨hsplit, htext⟩ := Re.scan_split re (s.length + 1) none s
    obtain ⟨h1, h2⟩ := splitLoop_eq (re.allMatches s).1 [] 0 0 htext
    have hlen : s.length = spanOf (re.allMatches s).1 + (re.allMatches s).2.length := by
      conv_lhs => rw [hsplit]
      exact rebuild_length _ _
    have hend : ((splitLoop (re.allMatches s).1 [] 0 0).2 != s.length) = true := by
      simp only [bne_iff_ne, ne_eq]
      rcases h2 with ⟨_, h2⟩ | ⟨_, h2⟩
      · rw [h2]
        intro h0
        exact hs (List.length_eq_zero.mp h0.symm)
      · omega
    rw [hend, h1]
    simp

/-- There is one piece more than there are matches. -/
theorem Re.Split_length (re : Re) (s : Str) :
    (re.Split s).length = (re.FindAllString s).length + 1 := by
  rw [Re.Split_eq]
  simp [Re.FindAllString]

/-! ## collapseUnion on identical branches -/

theorem index_of_getElem (xs : List Str) (i : Nat) (x : Str) (h : xs[i]? = some x) :
    index xs i = .ok x := by
  unfold index
  rw [h]

/-- The loop passes over the branches that equal the first one. -/
theorem collapseLoop_same (parts seps : List Str) (a : Str) (h0 : index parts 0 = .ok a) :
    ∀ (m : Nat) (rest : List Str) (i : Nat) (buf : Str), 1 ≤ i →
    collapseLoop parts seps (List.replicate m a ++ rest) i 0 buf
      = collapseLoop parts seps rest (i + m) 0 buf := by
  intro m
  induction m with
  | zero => intro rest i buf _; rfl
  | succ m ih =>
    intro rest i buf hi
    have hi0 : ¬ (i == 0) = true := by
      simp only [beq_iff_eq]
      omega
    rw [List.replicate_succ, List.cons_append, collapseLoop, if_neg hi0, h0]
    simp only [beq_self_eq_true, if_true]
    rw [ih rest (i + 1) buf (by omega)]
    congr 1
    omega

/-- At the sentinel, a run of two or more equal branches is closed by the annotation. -/
theorem collapseLoop_flush (parts seps : List Str) (a sep : Str) (i : Nat) (buf : Str)
    (h0 : index parts 0 = .ok a) (hs : (sentinel == a) = false) (hi : 2 ≤ i)
    (hsep : seps[i - 1 - 1]? = some sep) (hlen : parts.length - 1 = i) :
    collapseLoop parts seps [sentinel] i 0 buf
      = .ok (buf ++ (" /*repeat".toList ++ (sep ++ "*/".toList))) := by
  have hi0 : ¬ (i == 0) = true := by
    simp only [beq_iff_eq]
    omega
  have hi1 : ¬ (i == 0 + 1) = true := by
    simp only [beq_iff_eq]
    omega
  have hlast : ¬ (i != parts.length - 1) = true := by
    simp [hlen]
  rw [collapseLoop, if_neg hi0, h0]
  simp only [hs, Bool.false_eq_true, if_false]
  rw [if_neg hi1, index_of_getElem _ _ _ hsep]
  simp only
  rw [if_neg hlast]
  rfl

theorem collapseUnion_identical (query a : Str)
    (hlen : 2 ≤ (unionRegexp.Split query).length)
    (hall : ∀ b ∈ unionRegexp.Split query, b = a)
    (ha : a ≠ sentinel) :
    ∃ sep, (unionRegexp.FindAllString query).getLast? = some sep
      ∧ collapseUnion query = .ok (a ++ (" /*repeat".toList ++ (sep ++ "*/".toList))) := by
  have hrep : unionRegexp.Split query = List.replicate (unionRegexp.Split query).length a :=
    List.eq_replicate_iff.mpr ⟨rfl, hall⟩
  have hcount := Re.Split_length unionRegexp query
  obtain ⟨n, hn⟩ : ∃ n, (unionRegexp.Split query).length = n + 2 := ⟨_, (Nat.sub_add_cancel hlen).symm⟩
  rw [hn] at hrep hcount
  have hseps : (unionRegexp.FindAllString query).length = n + 1 := by omega
  have hlast : ∃ sep, (unionRegexp.FindAllString query)[n]? = some sep := by
    have : n < (unionRegexp.FindAllString query).length := by omega
    exact ⟨_, List.getElem?_eq_getElem this⟩
  obtain ⟨sep, hsep⟩ := hlast
  refine ⟨sep, ?_, ?_⟩
  · rw [List.getLast?_eq_getElem?, hseps]
    exact hsep
  · have hs : (sentinel == a) = false := by
      simp only [beq_eq_false_iff_ne, ne_eq]
      exact fun h => ha h.symm
    have h0 : index (List.replicate (n + 2) a ++ [sentinel]) 0 = .ok a := rfl
    unfold collapseUnion
    simp only [hrep, List.length_replicate, List.length_append, List.length_singleton, hseps]
    rw [if_neg (by simp), if_neg (by simp), h0]
    simp only
    rw [List.replicate_succ, List.cons_append, collapseLoop,
      if_pos (show ((0 : Nat) == 0) = true from rfl),
      collapseLoop_same (a :: (List.replicate (n + 1) a ++ [sentinel])) _ a rfl (n + 1)
        [sentinel] (0 + 1) a (by omega)]
    have h0' : index (a :: (List.replicate (n + 1) a ++ [sentinel])) 0 = .ok a := rfl
    apply collapseLoop_flush _ _ a sep _ _ h0' hs (by omega)
    · have : 0 + 1 + (n + 1) - 1 - 1 = n := by omega
      rw [this]
      exact hsep
    · simp only [List.length_cons, List.length_append, List.length_replicate,
        List.length_singleton, List.length_nil]
      omega

/-! ## Queries that are no special case -/

theorem GetFingerprint_of_not_special (u : Char → Char) (q : Str) (h : isSpecial q = false) :
    GetFingerprint u q
      = finishFingerprint (collapseLists (maskNull (normalizeSpace u (maskLiterals q)))) := by
  unfold isSpecial at h
  simp only [Bool.or_eq_false_iff] at h
  obtain ⟨⟨⟨h1, h2⟩, h3⟩, h4⟩ := h
  have h4' : callRe.FindStringSubmatch q = none := by
    cases hc : callRe.FindStringSubmatch q with
    | none => rfl
    | some cs => rw [hc] at h4; cases h4
  unfold GetFingerprint beforeUnion
  rw [h1, h2, h3, h4']
  rw [if_neg Bool.false_ne_true, if_neg Bool.false_ne_true, if_neg Bool.false_ne_true]

/-! ## White space before the normalisation -/

theorem trimRightBy_idem_of_imp (p q : Char → Bool) (hqp : ∀ c, q c = true → p c = true)
    (s : Str) : trimRightBy q (trimRightBy p s) = trimRightBy p s := by
  unfold trimRightBy
  rw [List.reverse_reverse]
  cases h : s.reverse.dropWhile p with
  | nil => rfl
  | cons c t =>
    have hc : p c = false := by
      have := List.head_dropWhile_not p s.reverse (by rw [h]; simp)
      simpa [h] using this
    have hq : q c = false := by
      cases hq : q c with
      | false => rfl
      | true => rw [hqp c hq] at hc; cases hc
    rw [List.dropWhile_cons_of_neg (by simp [hq])]

theorem TrimRight_TrimSpace (s : Str) : TrimRight (TrimSpace s) = TrimSpace s := by
  unfold TrimRight TrimSpace
  apply trimRightBy_idem_of_imp
  intro c hc
  revert hc
  unfold isTrimRightCut isSpaceUnicode
  simp only [Bool.or_eq_true, beq_iff_eq, Bool.and_eq_true, decide_eq_true_eq]
  rintro (((h | h) | h) | h) <;> subst h <;> decide

theorem normalizeSpace_eq (u : Char → Char) (s : Str) :
    normalizeSpace u s = toLower u (squeeze false (TrimSpace s)) := by
  unfold normalizeSpace
  rw [TrimRight_TrimSpace, spacesRe_ReplaceAllString]

theorem dropWhile_append_of_all (p : Char → Bool) : ∀ (x y : Str), (∀ c ∈ x, p c = true) →
    (x ++ y).dropWhile p = y.dropWhile p := by
  intro x
  induction x with
  | nil => intro y _; rfl
  | cons c x ih =>
    intro y h
    rw [List.cons_append, List.dropWhile_cons_of_pos (h c (List.mem_cons_self c x))]
    exact ih y (fun d hd => h d (List.mem_cons_of_mem c hd))

theorem dropWhile_append_of_not_all (p : Char → Bool) : ∀ (x y : Str),
    (∃ c ∈ x, p c = false) → (x ++ y).dropWhile p = x.dropWhile p ++ y := by
  intro x
  induction x with
  | nil => intro y h; obtain ⟨c, hc, _⟩ := h; cases hc
  | cons c x ih =>
    intro y h
    cases hc : p c with
    | false =>
      rw [List.cons_append, List.dropWhile_cons_of_neg (by simp [hc]),
        List.dropWhile_cons_of_neg (by simp [hc])]
      rfl
    | true =>
      rw [List.cons_append, List.dropWhile_cons_of_pos hc, List.dropWhile_cons_of_pos hc]
      apply ih
      obtain ⟨d, hd, hpd⟩ := h
      rcases List.mem_cons.mp hd with h' | h'
      · subst h'
        rw [hc] at hpd
        cases hpd
      · exact ⟨d, h', hpd⟩

theorem dropWhile_of_all (p : Char → Bool) (x : Str) (h : ∀ c ∈ x, p c = true) :
    x.dropWhile p = [] := by
  have := dropWhile_append_of_all p x [] h
  simpa using this

theorem trimRightBy_append_of_all (p : Char → Bool) (x y : Str) (h : ∀ c ∈ y, p c = true) :
    trimRightBy p (x ++ y) = trimRightBy p x := by
  unfold trimRightBy
  rw [List.reverse_append, dropWhile_append_of_all p _ _ (fun c hc => h c (List.mem_reverse.mp hc))]

theorem trimRightBy_append_of_not_all (p : Char → Bool) (x y : Str)
    (h : ∃ c ∈ y, p c = false) : trimRightBy p (x ++ y) = x ++ trimRightBy p y := by
  unfold trimRightBy
  obtain ⟨c, hc, hpc⟩ := h
  rw [List.reverse_append,
    dropWhile_append_of_not_all p _ _ ⟨c, List.mem_reverse.mpr hc, hpc⟩, List.reverse_append,
    List.reverse_reverse]

theorem trimRightBy_of_all (p : Char → Bool) (x : Str) (h : ∀ c ∈ x, p c = true) :
    trimRightBy p x = [] := by
  have := trimRightBy_append_of_all p [] x h
  simpa [trimRightBy] using this

theorem TrimSpace_append_left (x y : Str) (h : ∀ c ∈ x, isSpaceUnicode c = true) :
    TrimSpace (x ++ y) = TrimSpace y := by
  unfold TrimSpace
  rw [dropWhile_append_of_all _ _ _ h]

theorem TrimSpace_append_right (x y : Str) (h : ∀ c ∈ y, isSpaceUnicode c = true) :
    TrimSpace (x ++ y) = TrimSpace x := by
  unfold TrimSpace
  by_cases hx : ∀ c ∈ x, isSpaceUnicode c = true
  · rw [dropWhile_append_of_all _ _ _ hx, dropWhile_of_all _ _ h, dropWhile_of_all _ _ hx]
  · have hx' : ∃ c ∈ x, isSpaceUnicode c = false := by
      by_contra hcon
      apply hx
      intro c hc
      cases hp : isSpaceUnicode c with
      | true => rfl
      | false => exact absurd ⟨c, hc, hp⟩ hcon
    rw [dropWhile_append_of_not_all _ _ _ hx', trimRightBy_append_of_all _ _ _ h]

theorem TrimSpace_append_mid (x m y : Str) (hx : ∃ c ∈ x, isSpaceUnicode c = false)
    (hy : ∃ c ∈ y, isSpaceUnicode c = false) :
    TrimSpace (x ++ (m ++ y))
      = x.dropWhile isSpaceUnicode ++ (m ++ trimRightBy isSpaceUnicode y) := by
  unfold TrimSpace
  rw [dropWhile_append_of_not_all _ _ _ hx, ← List.append_assoc,
    trimRightBy_append_of_not_all _ _ _ hy, List.append_assoc]

theorem isSpaceRe_isSpaceUnicode (c : Char) (h : isSpaceRe c = true) :
    isSpaceUnicode c = true := by
  revert h
  unfold isSpaceRe
  simp only [Bool.or_eq_true, beq_iff_eq]
  rintro ((((h | h) | h) | h) | h) <;> subst h <;> decide

/-- A run of white space between two texts is squeezed like one space. -/
theorem squeeze_swap (w y : Str) (hw : w ≠ []) (hws : ∀ c ∈ w, isSpaceRe c = true) :
    ∀ (x : Str) (f : Bool), squeeze f (x ++ (w ++ y)) = squeeze f (x ++ ' ' :: y) := by
  intro x
  induction x with
  | nil =>
    intro f
    cases w with
    | nil => exact absurd rfl hw
    | cons c w' =>
      simp only [List.nil_append, List.cons_append]
      rw [squeeze, squeeze, if_pos (hws c (List.mem_cons_self c w')),
        if_pos (by decide : isSpaceRe ' ' = true),
        squeeze_true_run w' y (fun d hd => hws d (List.mem_cons_of_mem c hd))]
  | cons c x ih =>
    intro f
    simp only [List.cons_append]
    rw [squeeze, squeeze, ih true, ih false]

/-- The text that reaches the lower-casing does not depend on how much white space stands
at a place, nor on white space around the query. -/
theorem squeeze_TrimSpace_swap (a b w l r : Str) (hw : w ≠ [])
    (hws : ∀ c ∈ w, isSpaceRe c = true) (hl : ∀ c ∈ l, isSpaceRe c = true)
    (hr : ∀ c ∈ r, isSpaceRe c = true) :
    squeeze false (TrimSpace (l ++ (a ++ (w ++ (b ++ r)))))
      = squeeze false (TrimSpace (a ++ ' ' :: b)) := by
  have hwu : ∀ c ∈ w, isSpaceUnicode c = true := fun c hc => isSpaceRe_isSpaceUnicode c (hws c hc)
  have h1 : TrimSpace (l ++ (a ++ (w ++ (b ++ r)))) = TrimSpace (a ++ (w ++ b)) := by
    rw [TrimSpace_append_left _ _ (fun c hc => isSpaceRe_isSpaceUnicode c (hl c hc))]
    have : a ++ (w ++ (b ++ r)) = (a ++ (w ++ b)) ++ r := by simp
    rw [this, TrimSpace_append_right _ _ (fun c hc => isSpaceRe_isSpaceUnicode c (hr c hc))]
  rw [h1]
  have hsp : ∀ c ∈ [' '], isSpaceUnicode c = true := by decide
  by_cases ha : ∀ c ∈ a, isSpaceUnicode c = true
  · have e1 : a ++ (w ++ b) = (a ++ w) ++ b := by simp
    have e2 : a ++ ' ' :: b = (a ++ [' ']) ++ b := by simp
    rw [e1, e2, TrimSpace_append_left (a ++ w) b (by
        intro c hc
        rcases List.mem_append.mp hc with h | h
        · exact ha c h
        · exact hwu c h),
      TrimSpace_append_left (a ++ [' ']) b (by
        intro c hc
        rcases List.mem_append.mp hc with h | h
        · exact ha c h
        · exact hsp c h)]
  · have ha' : ∃ c ∈ a, isSpaceUnicode c = false := by
      by_contra hcon
      apply ha
      intro c hc
      cases hp : isSpaceUnicode c with
      | true => rfl
      | false => exact absurd ⟨c, hc, hp⟩ hcon
    by_cases hb : ∀ c ∈ b, isSpaceUnicode c = true
    · have e2 : a ++ ' ' :: b = a ++ ([' '] ++ b) := by simp
      rw [TrimSpace_append_right a (w ++ b) (by
          intro c hc
          rcases List.mem_append.mp hc with h | h
          · exact hwu c h
          · exact hb c h),
        e2, TrimSpace_append_right a ([' '] ++ b) (by
          intro c hc
          rcases List.mem_append.mp hc with h | h
          · exact hsp c h
          · exact hb c h)]
    · have hb' : ∃ c ∈ b, isSpaceUnicode c = false := by
        by_contra hcon
        apply hb
        intro c hc
        cases hp : isSpaceUnicode c with
        | true => rfl
        | false => exact absurd ⟨c, hc, hp⟩ hcon
      have e2 : a ++ ' ' :: b = a ++ ([' '] ++ b) := by simp
      rw [TrimSpace_append_mid a w b ha' hb', e2, TrimSpace_append_mid a [' '] b ha' hb']
      exact squeeze_swap w _ hw hws _ false

/-! ## Letter case -/

theorem isUpperAscii_mem (c : Char) (h : isUpperAscii c = true) : c ∈ upperLetters := by
  unfold isUpperAscii at h
  simp only [Bool.and_eq_true, decide_eq_true_eq] at h
  have hc : c = Char.ofNat c.toNat := (Char.ofNat_toNat c).symm
  obtain ⟨h1, h2⟩ := h
  generalize c.toNat = m at hc h1 h2
  subst hc
  interval_cases m <;> decide

theorem lowerAscii_of_not_upper (c : Char) (h : isUpperAscii c = false) : lowerAscii c = c := by
  simp [lowerAscii, h]

theorem lowerAscii_injOn_upper :
    ∀ x ∈ upperLetters, ∀ y ∈ upperLetters, lowerAscii x = lowerAscii y → x = y := by
  decide

theorem lowerAscii_upper_not_upper : ∀ x ∈ upperLetters, isUpperAscii (lowerAscii x) = false := by
  decide

/-- Two characters equal up to case are equal, or one is an upper-case letter and the
other its lower-case form. -/
theorem caseEq_cases (x y : Char) (h : caseEq x y) :
    x = y ∨ (x ∈ upperLetters ∧ y = lowerAscii x) ∨ (y ∈ upperLetters ∧ x = lowerAscii y) := by
  unfold caseEq at h
  cases hx : isUpperAscii x with
  | true =>
    cases hy : isUpperAscii y with
    | true =>
      exact Or.inl (lowerAscii_injOn_upper x (isUpperAscii_mem x hx) y (isUpperAscii_mem y hy) h)
    | false =>
      rw [lowerAscii_of_not_upper y hy] at h
      exact Or.inr (Or.inl ⟨isUpperAscii_mem x hx, h.symm⟩)
  | false =>
    cases hy : isUpperAscii y with
    | true =>
      rw [lowerAscii_of_not_upper x hx] at h
      exact Or.inr (Or.inr ⟨isUpperAscii_mem y hy, h⟩)
    | false =>
      rw [lowerAscii_of_not_upper x hx, lowerAscii_of_not_upper y hy] at h
      exact Or.inl h

theorem caseEq_refl (c : Char) : caseEq c c := rfl

theorem CaseEq_refl : ∀ s : Str, CaseEq s s := by
  intro s
  induction s with
  | nil => exact List.Forall₂.nil
  | cons c s ih => exact List.Forall₂.cons rfl ih

theorem blindClass_apply (p : Char → Bool) (hp : blindClass p = true) (x y : Char)
    (h : caseEq x y) : p x = p y := by
  have hall : ∀ z ∈ upperLetters, p z = p (lowerAscii z) := by
    intro z hz
    have := List.all_eq_true.mp hp z hz
    simpa using this
  rcases caseEq_cases x y h with h | ⟨hx, hy⟩ | ⟨hy, hx⟩
  · rw [h]
  · rw [hy]
    exact hall x hx
  · rw [hx]
    exact (hall y hy).symm

theorem CaseEq.length_eq {s t : Str} (h : CaseEq s t) : s.length = t.length :=
  List.Forall₂.length_eq h

theorem CaseEq.append {s t s' t' : Str} (h1 : CaseEq s s') (h2 : CaseEq t t') :
    CaseEq (s ++ t) (s' ++ t') := by
  induction h1 with
  | nil => exact h2
  | cons hc _ ih => exact List.Forall₂.cons hc ih

theorem CaseEq.take {s s' : Str} (h : CaseEq s s') : ∀ n, CaseEq (s.take n) (s'.take n) := by
  induction h with
  | nil => intro n; simp only [List.take_nil]; exact List.Forall₂.nil
  | cons hc _ ih =>
    intro n
    cases n with
    | zero => exact List.Forall₂.nil
    | succ n => exact List.Forall₂.cons hc (ih n)

/-! ## Case-blind patterns match alike on texts equal up to case -/

theorem OptRel_none {α β : Type} (Q : α → β → Prop) : OptRel Q (none : Option α) none := trivial

theorem wordBefore_rel : ∀ (p p' : Option Char), prevRel p p' → wordBefore p = wordBefore p'
  | none, none, _ => rfl
  | some c, some d, h => blindClass_apply isWord (by decide) c d h
  | none, some _, h => absurd h id
  | some _, none, h => absurd h id

theorem wordAfter_rel (s s' : Str) (h : CaseEq s s') : wordAfter s = wordAfter s' := by
  cases h with
  | nil => rfl
  | cons hc _ => exact blindClass_apply isWord (by decide) _ _ hc

theorem atWordBoundary_rel (st st' : Pos) (h : PosRel st st') :
    atWordBoundary st = atWordBoundary st' := by
  unfold atWordBoundary
  rw [wordBefore_rel _ _ h.1, wordAfter_rel _ _ h.2]

theorem starLoop_rel {α β : Type} (Q : α → β → Prop)
    (m : Pos → Caps → (Pos → Caps → Option α) → Option α)
    (m' : Pos → Caps → (Pos → Caps → Option β) → Option β) (g : Bool)
    (hm : ∀ st st' cs cs' k k', PosRel st st' → CapsRel cs cs' →
      (∀ s1 s1' c1 c1', PosRel s1 s1' → CapsRel c1 c1' → OptRel Q (k s1 c1) (k' s1' c1')) →
      OptRel Q (m st cs k) (m' st' cs' k')) :
    ∀ n st st' cs cs' k k', PosRel st st' → CapsRel cs cs' →
      (∀ s1 s1' c1 c1', PosRel s1 s1' → CapsRel c1 c1' → OptRel Q (k s1 c1) (k' s1' c1')) →
      OptRel Q (starLoop m g n st cs k) (starLoop m' g n st' cs' k') := by
  intro n
  induction n with
  | zero =>
    intro st st' cs cs' k k' hst hcs hk
    exact hk _ _ _ _ hst hcs
  | succ n ih =>
    intro st st' cs cs' k k' hst hcs hk
    have hlen : st.rest.length = st'.rest.length := hst.2.length_eq
    have hiter : OptRel Q
        (m st cs (fun s1 c1 =>
          if s1.rest.length < st.rest.length then starLoop m g n s1 c1 k else none))
        (m' st' cs' (fun s1 c1 =>
          if s1.rest.length < st'.rest.length then starLoop m' g n s1 c1 k' else none)) := by
      apply hm _ _ _ _ _ _ hst hcs
      intro s1 s1' c1 c1' hs1 hc1
      have hl1 : s1.rest.length = s1'.rest.length := hs1.2.length_eq
      by_cases hlt : s1.rest.length < st.rest.length
      · rw [if_pos hlt, if_pos (by omega)]
        exact ih _ _ _ _ _ _ hs1 hc1 hk
      · rw [if_neg hlt, if_neg (by omega)]
        trivial
    have hstop := hk _ _ _ _ hst hcs
    rw [starLoop, starLoop]
    cases g with
    | true =>
      simp only [if_true]
      revert hiter
      generalize m st cs _ = x
      generalize m' st' cs' _ = x'
      intro hiter
      cases x <;> cases x' <;> first | exact hstop | exact hiter | exact absurd hiter id
    | false =>
      simp only [Bool.false_eq_true, if_false]
      revert hstop
      generalize k st cs = x
      generalize k' st' cs' = x'
      intro hstop
      cases x <;> cases x' <;> first | exact hiter | exact hstop | exact absurd hstop id

theorem Re.run_rel {α β : Type} (Q : α → β → Prop) (re : Re) :
    re.blind = true → ∀ st st' cs cs' (k : Pos → Caps → Option α) (k' : Pos → Caps → Option β),
      PosRel st st' → CapsRel cs cs' →
      (∀ s1 s1' c1 c1', PosRel s1 s1' → CapsRel c1 c1' → OptRel Q (k s1 c1) (k' s1' c1')) →
      OptRel Q (re.run st cs k) (re.run st' cs' k') := by
  induction re with
  | eps =>
    intro _ st st' cs cs' k k' hst hcs hk
    exact hk _ _ _ _ hst hcs
  | chr p =>
    intro hb st st' cs cs' k k' hst hcs hk
    obtain ⟨st_prev, st_rest⟩ := st
    obtain ⟨st_prev', st_rest'⟩ := st'
    obtain ⟨_, hr⟩ := hst
    simp only at hr
    cases st_rest with
    | nil =>
      cases st_rest' with
      | nil => trivial
      | cons d r' => cases hr
    | cons c r =>
      cases st_rest' with
      | nil => cases hr
      | cons d r' =>
        obtain ⟨hc, hr'⟩ := List.forall₂_cons.mp hr
        rw [Re.run_chr, Re.run_chr, blindClass_apply p hb c d hc]
        by_cases hp : p d = true
        · rw [if_pos hp, if_pos hp]
          exact hk _ _ _ _ ⟨hc, hr'⟩ hcs
        · rw [if_neg hp, if_neg hp]
          trivial
  | seq a b iha ihb =>
    intro hb st st' cs cs' k k' hst hcs hk
    simp only [Re.blind, Bool.and_eq_true] at hb
    rw [Re.run_seq, Re.run_seq]
    apply iha hb.1 _ _ _ _ _ _ hst hcs
    intro s1 s1' c1 c1' hs1 hc1
    exact ihb hb.2 _ _ _ _ _ _ hs1 hc1 hk
  | alt a b iha ihb =>
    intro hb st st' cs cs' k k' hst hcs hk
    simp only [Re.blind, Bool.and_eq_true] at hb
    have h1 := iha hb.1 _ _ _ _ _ _ hst hcs hk
    have h2 := ihb hb.2 _ _ _ _ _ _ hst hcs hk
    rw [Re.run_alt, Re.run_alt]
    revert h1
    generalize a.run st cs k = x
    generalize a.run st' cs' k' = x'
    intro h1
    cases x <;> cases x' <;> first | exact h2 | exact h1 | exact absurd h1 id
  | star g a iha =>
    intro hb st st' cs cs' k k' hst hcs hk
    simp only [Re.blind] at hb
    rw [Re.run_star, Re.run_star, ← hst.2.length_eq]
    exact starLoop_rel Q _ _ g (fun st st' cs cs' k k' h1 h2 h3 => iha hb st st' cs cs' k k' h1 h2 h3)
      _ _ _ _ _ _ _ hst hcs hk
  | group n a iha =>
    intro hb st st' cs cs' k k' hst hcs hk
    simp only [Re.blind] at hb
    rw [Re.run_group, Re.run_group]
    apply iha hb _ _ _ _ _ _ hst hcs
    intro s1 s1' c1 c1' hs1 hc1
    apply hk _ _ _ _ hs1
    refine List.Forall₂.cons ⟨rfl, ?_⟩ hc1
    simp only
    rw [← hst.2.length_eq, ← hs1.2.length_eq]
    exact hst.2.take _
  | bot =>
    intro _ st st' cs cs' k k' hst hcs hk
    have hp : st.prev.isNone = st'.prev.isNone := by
      obtain ⟨hp, _⟩ := hst
      cases hs : st.prev <;> cases hs' : st'.prev <;> rw [hs, hs'] at hp <;>
        first | rfl | (exfalso; simp [prevRel] at hp)
    show OptRel Q (if st.prev.isNone then k st cs else none)
      (if st'.prev.isNone then k' st' cs' else none)
    rw [hp]
    by_cases h : st'.prev.isNone = true
    · rw [if_pos h, if_pos h]
      exact hk _ _ _ _ hst hcs
    · rw [if_neg h, if_neg h]
      trivial
  | eot =>
    intro _ st st' cs cs' k k' hst hcs hk
    have hp : st.rest.isEmpty = st'.rest.isEmpty := by
      have hl := hst.2.length_eq
      cases hs : st.rest <;> cases hs' : st'.rest <;> rw [hs, hs'] at hl <;>
        first | rfl | (exfalso; simp at hl)
    show OptRel Q (if st.rest.isEmpty then k st cs else none)
      (if st'.rest.isEmpty then k' st' cs' else none)
    rw [hp]
    by_cases h : st'.rest.isEmpty = true
    · rw [if_pos h, if_pos h]
      exact hk _ _ _ _ hst hcs
    · rw [if_neg h, if_neg h]
      trivial
  | eol =>
    intro _ st st' cs cs' k k' hst hcs hk
    have hk0 := hk _ _ _ _ hst hcs
    obtain ⟨st_prev, st_rest⟩ := st
    obtain ⟨st_prev', st_rest'⟩ := st'
    obtain ⟨hp0, hr⟩ := hst
    simp only at hr
    cases st_rest with
    | nil =>
      cases st_rest' with
      | nil => exact hk0
      | cons d r' => cases hr
    | cons c r =>
      cases st_rest' with
      | nil => cases hr
      | cons d r' =>
        have hc := (List.forall₂_cons.mp hr).1
        have hnl : (c == '\n') = (d == '\n') :=
          blindClass_apply (fun x => x == '\n') (by decide) c d hc
        show OptRel Q (if c == '\n' then k _ cs else none)
          (if d == '\n' then k' _ cs' else none)
        rw [hnl]
        by_cases h : (d == '\n') = true
        · rw [if_pos h, if_pos h]
          exact hk0
        · rw [if_neg h, if_neg h]
          trivial
  | wordb =>
    intro _ st st' cs cs' k k' hst hcs hk
    rw [Re.run_wordb, Re.run_wordb, atWordBoundary_rel st st' hst]
    by_cases h : atWordBoundary st' = true
    · rw [if_pos h, if_pos h]
      exact hk _ _ _ _ hst hcs
    · rw [if_neg h, if_neg h]
      trivial

/-! ## Searches and replacements on texts equal up to case -/

theorem Re.matchAt_rel (re : Re) (hb : re.blind = true) (st st' : Pos) (h : PosRel st st') :
    OptRel (fun r r' => PosRel r.1 r'.1 ∧ CapsRel r.2 r'.2) (re.matchAt st) (re.matchAt st') :=
  Re.run_rel _ re hb st st' [] [] _ _ h List.Forall₂.nil (fun _ _ _ _ h1 h2 => ⟨h1, h2⟩)

theorem Re.tryAt_rel (re : Re) (hb : re.blind = true) (prev prev' : Option Char) (s s' : Str)
    (hp : prevRel prev prev') (hs : CaseEq s s') :
    OptRel (fun r r' => HitRel r.1 r'.1 ∧ PosRel r.2 r'.2) (re.tryAt prev s)
      (re.tryAt prev' s') := by
  have hm := Re.matchAt_rel re hb ⟨prev, s⟩ ⟨prev', s'⟩ ⟨hp, hs⟩
  unfold Re.tryAt
  revert hm
  generalize re.matchAt ⟨prev, s⟩ = x
  generalize re.matchAt ⟨prev', s'⟩ = x'
  intro hm
  cases x with
  | none =>
    cases x' with
    | none => trivial
    | some r' => exact absurd hm id
  | some r =>
    cases x' with
    | none => exact absurd hm id
    | some r' =>
      obtain ⟨st1, cs1⟩ := r
      obtain ⟨st1', cs1'⟩ := r'
      obtain ⟨hst, hcs⟩ := hm
      simp only at hst hcs
      simp only
      rw [← hs.length_eq, ← hst.2.length_eq]
      by_cases hlt : st1.rest.length < s.length
      · rw [if_pos hlt, if_pos hlt]
        exact ⟨⟨List.Forall₂.nil, hs.take _, hcs⟩, hst⟩
      · rw [if_neg hlt, if_neg hlt]
        trivial

theorem Re.find_rel (re : Re) (hb : re.blind = true) : ∀ (s s' : Str), CaseEq s s' →
    ∀ (prev prev' : Option Char), prevRel prev prev' →
    OptRel (fun r r' => HitRel r.1 r'.1 ∧ PosRel r.2 r'.2) (re.find prev s)
      (re.find prev' s') := by
  intro s s' hs
  induction hs with
  | nil => intro prev prev' _; trivial
  | cons hc ht ih =>
    rename_i c d t t'
    intro prev prev' hp
    have h1 := Re.tryAt_rel re hb prev prev' (c :: t) (d :: t') hp (List.Forall₂.cons hc ht)
    have h2 := ih (some c) (some d) hc
    rw [Re.find, Re.find]
    revert h1
    generalize re.tryAt prev (c :: t) = x
    generalize re.tryAt prev' (d :: t') = x'
    intro h1
    cases x with
    | some r =>
      cases x' with
      | some r' => exact h1
      | none => exact absurd h1 id
    | none =>
      cases x' with
      | some r' => exact absurd h1 id
      | none =>
        simp only
        revert h2
        generalize re.find (some c) t = y
        generalize re.find (some d) t' = y'
        intro h2
        cases y with
        | none =>
          cases y' with
          | none => trivial
          | some r' => exact absurd h2 id
        | some r =>
          cases y' with
          | none => exact absurd h2 id
          | some r' =>
            obtain ⟨⟨hg, htx, hcp⟩, hst⟩ := h2
            exact ⟨⟨List.Forall₂.cons hc hg, htx, hcp⟩, hst⟩

theorem Re.scan_rel (re : Re) (hb : re.blind = true) : ∀ (fuel : Nat) (s s' : Str)
    (prev prev' : Option Char), CaseEq s s' → prevRel prev prev' →
    List.Forall₂ HitRel (re.scan fuel prev s).1 (re.scan fuel prev' s').1
      ∧ CaseEq (re.scan fuel prev s).2 (re.scan fuel prev' s').2 := by
  intro fuel
  induction fuel with
  | zero => intro s s' prev prev' hs _; exact ⟨List.Forall₂.nil, hs⟩
  | succ n ih =>
    intro s s' prev prev' hs hp
    have h1 := Re.find_rel re hb s s' hs prev prev' hp
    rw [Re.scan, Re.scan]
    revert h1
    generalize re.find prev s = x
    generalize re.find prev' s' = x'
    intro h1
    cases x with
    | none =>
      cases x' with
      | none => exact ⟨List.Forall₂.nil, hs⟩
      | some r' => exact absurd h1 id
    | some r =>
      cases x' with
      | none => exact absurd h1 id
      | some r' =>
        obtain ⟨hh, hst⟩ := h1
        obtain ⟨i1, i2⟩ := ih r.2.rest r'.2.rest r.2.prev r'.2.prev hst.2 hst.1
        exact ⟨List.Forall₂.cons hh i1, i2⟩

theorem groupText_rel (n : Nat) : ∀ (cs cs' : Caps), CapsRel cs cs' →
    CaseEq (groupText cs n) (groupText cs' n)
  | [], [], _ => List.Forall₂.nil
  | (k, v) :: l, (k', v') :: l', h => by
    obtain ⟨⟨hk, hv⟩, hl⟩ := List.forall₂_cons.mp h
    simp only at hk hv
    subst hk
    have ih := groupText_rel n l l' hl
    unfold groupText at ih ⊢
    simp only [List.lookup]
    cases hnk : n == k with
    | true => exact hv
    | false => exact ih
  | [], _ :: _, h => by cases h
  | _ :: _, [], h => by cases h

theorem expand_rel (cs cs' : Caps) (h : CapsRel cs cs') : ∀ (tpl : List Tpl),
    CaseEq (expand tpl cs) (expand tpl cs') := by
  intro tpl
  induction tpl with
  | nil => exact List.Forall₂.nil
  | cons p tpl ih =>
    cases p with
    | text s => exact (CaseEq_refl s).append ih
    | grp n => exact (groupText_rel n cs cs' h).append ih

theorem substitute_rel (tpl : List Tpl) : ∀ (hs hs' : List Hit) (tl tl' : Str),
    List.Forall₂ HitRel hs hs' → CaseEq tl tl' →
    CaseEq (substitute tpl hs tl) (substitute tpl hs' tl') := by
  intro hs hs' tl tl' h htl
  induction h with
  | nil => exact htl
  | cons hh _ ih => exact hh.1.append ((expand_rel _ _ hh.2.2 tpl).append ih)

/-- A case-blind pattern replaces alike in texts equal up to case. -/
theorem Re.ReplaceAllString_rel (re : Re) (hb : re.blind = true) (tpl : List Tpl) (s s' : Str)
    (h : CaseEq s s') : CaseEq (re.ReplaceAllString s tpl) (re.ReplaceAllString s' tpl) := by
  unfold Re.ReplaceAllString Re.allMatches
  rw [← h.length_eq]
  obtain ⟨h1, h2⟩ := Re.scan_rel re hb (s.length + 1) s s' none none h trivial
  exact substitute_rel tpl _ _ _ _ h1 h2

theorem Re.FindStringSubmatch_rel (re : Re) (hb : re.blind = true) (s s' : Str)
    (h : CaseEq s s') : OptRel CapsRel (re.FindStringSubmatch s) (re.FindStringSubmatch s') := by
  have h1 := Re.find_rel re hb s s' h none none trivial
  unfold Re.FindStringSubmatch
  revert h1
  generalize re.find none s = x
  generalize re.find none s' = x'
  intro h1
  cases x with
  | none =>
    cases x' with
    | none => trivial
    | some r' => exact absurd h1 id
  | some r =>
    cases x' with
    | none => exact absurd h1 id
    | some r' => exact h1.1.2.2

/-! ## The stages before the case-sensitive masks are case-blind -/

theorem shortenInsert_rel (q q' : Str) (h : CaseEq q q') :
    CaseEq (shortenInsert q) (shortenInsert q') := by
  have h1 := Re.FindStringSubmatch_rel insertRe (by decide) q q' h
  unfold shortenInsert
  revert h1
  generalize insertRe.FindStringSubmatch q = x
  generalize insertRe.FindStringSubmatch q' = x'
  intro h1
  cases x with
  | none =>
    cases x' with
    | none => exact h
    | some r' => exact absurd h1 id
  | some r =>
    cases x' with
    | none => exact absurd h1 id
    | some r' => exact groupText_rel 1 _ _ h1

theorem stripComments_rel (q q' : Str) (h : CaseEq q q') :
    CaseEq (stripComments q) (stripComments q') :=
  Re.ReplaceAllString_rel olcRe (by decide) _ _ _
    (Re.ReplaceAllString_rel mlcRe (by decide) _ _ _ h)

theorem maskUse_rel (q q' : Str) (h : CaseEq q q') : CaseEq (maskUse q) (maskUse q') :=
  Re.ReplaceAllString_rel useRe (by decide) _ _ _ h

theorem maskStrings_rel (q q' : Str) (h : CaseEq q q') :
    CaseEq (maskStrings q) (maskStrings q') := by
  unfold maskStrings
  exact Re.ReplaceAllString_rel _ (by decide) _ _ _
    (Re.ReplaceAllString_rel _ (by decide) _ _ _
      (Re.ReplaceAllString_rel _ (by decide) _ _ _
        (Re.ReplaceAllString_rel _ (by decide) _ _ _
          (Re.ReplaceAllString_rel _ (by decide) _ _ _
            (Re.ReplaceAllString_rel _ (by decide) _ _ _
              (Re.ReplaceAllString_rel _ (by decide) _ _ _ h))))))

theorem stripText_rel (q q' : Str) (h : CaseEq q q') : CaseEq (stripText q) (stripText q') :=
  maskStrings_rel _ _ (maskUse_rel _ _ (stripComments_rel _ _ (shortenInsert_rel _ _ h)))

/-! ## Letter case is gone after the lower-casing -/

theorem dropWhile_rel (p : Char → Bool) (hp : blindClass p = true) (s s' : Str)
    (h : CaseEq s s') : CaseEq (s.dropWhile p) (s'.dropWhile p) := by
  induction h with
  | nil => exact List.Forall₂.nil
  | cons hc ht ih =>
    have hpc := blindClass_apply p hp _ _ hc
    simp only [List.dropWhile_cons, hpc]
    split
    · exact ih
    · exact List.Forall₂.cons hc ht

theorem trimRightBy_rel (p : Char → Bool) (hp : blindClass p = true) (s s' : Str)
    (h : CaseEq s s') : CaseEq (trimRightBy p s) (trimRightBy p s') := by
  unfold trimRightBy
  exact List.rel_reverse (dropWhile_rel p hp _ _ (List.rel_reverse h))

theorem TrimSpace_rel (s s' : Str) (h : CaseEq s s') : CaseEq (TrimSpace s) (TrimSpace s') :=
  trimRightBy_rel _ (by decide) _ _ (dropWhile_rel _ (by decide) _ _ h)

theorem squeeze_rel (s s' : Str) (h : CaseEq s s') : ∀ f, CaseEq (squeeze f s) (squeeze f s') := by
  induction h with
  | nil => intro f; cases f <;> exact List.Forall₂.nil
  | cons hc _ ih =>
    intro f
    have hpc := blindClass_apply isSpaceRe (by decide) _ _ hc
    rw [squeeze, squeeze, hpc]
    split
    · split
      · exact ih true
      · exact List.Forall₂.cons rfl (ih true)
    · exact List.Forall₂.cons hc (ih false)

theorem toLower_of_CaseEq (u : Char → Char) (s s' : Str) (h : CaseEq s s') :
    toLower u s = toLower u s' := by
  have hU : ∀ x ∈ upperLetters,
      x.toNat < 128 ∧ (lowerAscii x).toNat < 128 ∧ lowerAscii (lowerAscii x) = lowerAscii x := by
    decide
  have hchar : ∀ c d, caseEq c d →
      (if c.toNat < 128 then lowerAscii c else u c) = (if d.toNat < 128 then lowerAscii d else u d) := by
    intro c d hcd
    rcases caseEq_cases c d hcd with h | ⟨hx, hy⟩ | ⟨hy, hx⟩
    · rw [h]
    · obtain ⟨h1, h2, h3⟩ := hU c hx
      rw [hy, if_pos h1, if_pos h2, h3]
    · obtain ⟨h1, h2, h3⟩ := hU d hy
      rw [hx, if_pos h1, if_pos h2, h3]
  unfold toLower
  induction h with
  | nil => rfl
  | cons hc _ ih =>
    simp only [List.map_cons]
    rw [hchar _ _ hc, ih]

theorem normalizeSpace_of_CaseEq (u : Char → Char) (s s' : Str) (h : CaseEq s s') :
    normalizeSpace u s = normalizeSpace u s' := by
  rw [normalizeSpace_eq, normalizeSpace_eq]
  exact toLower_of_CaseEq u _ _ (squeeze_rel _ _ (TrimSpace_rel _ _ h) false)

theorem Re.find_none_of_MatchString (re : Re) (s : Str) (h : re.MatchString s = false) :
    re.find none s = none := by
  unfold Re.MatchString at h
  cases hf : re.find none s with
  | none => rfl
  | some r => rw [hf] at h; cases h

theorem maskValues_of_idle (t : Str) (h : caseMasksIdle t = true) : maskValues t = t := by
  unfold caseMasksIdle at h
  simp only [Bool.and_eq_true, Bool.not_eq_true'] at h
  obtain ⟨⟨⟨⟨h1, h2⟩, h3⟩, h4⟩, h5⟩ := h
  have e1 : maskBooleans t = t := by
    unfold maskBooleans
    exact Re.ReplaceAllString_of_find_none _ _ _ (Re.find_none_of_MatchString _ _ h1)
  have e2 : maskMD5 t = t := by
    unfold maskMD5
    rw [h2]
    rfl
  have e3 : maskNumbers t = t := by
    unfold maskNumbers
    rw [h3]
    rfl
  have e4 : cleanupGlue t = t := by
    unfold cleanupGlue
    rw [h4, if_neg Bool.false_ne_true]
    exact Re.ReplaceAllString_of_find_none _ _ _ (Re.find_none_of_MatchString _ _ h5)
  unfold maskValues
  rw [e1, e2, e3, e4]

/-! ## Literals under the flag `i`, and lazy repetitions -/

theorem foldEq_self (c : Char) : foldEq c c = true := by
  simp [foldEq]

theorem Re.liti_cons_cons (d e : Char) (l : Str) :
    Re.liti (d :: e :: l) = .seq (.chr (foldEq d)) (Re.liti (e :: l)) := rfl

theorem Re.run_liti {α : Type} : ∀ (l : Str) (prev : Option Char) (t : Str) (cs : Caps)
    (k : Pos → Caps → Option α),
    (Re.liti l).run ⟨prev, l ++ t⟩ cs k = k ⟨lastOr prev l, t⟩ cs := by
  intro l
  induction l with
  | nil => intro prev t cs k; rfl
  | cons c l ih =>
    intro prev t cs k
    cases l with
    | nil =>
      show (Re.chr (foldEq c)).run ⟨prev, c :: t⟩ cs k = _
      rw [Re.run_chr, if_pos (foldEq_self c)]
      rfl
    | cons d l =>
      rw [Re.liti_cons_cons, Re.run_seq, List.cons_append, Re.run_chr, if_pos (foldEq_self c),
        ih]
      rfl

theorem Re.run_liti_fail {α : Type} : ∀ (l s : Str) (prev : Option Char) (cs : Caps)
    (k : Pos → Caps → Option α), litiFails l s = true → (Re.liti l).run ⟨prev, s⟩ cs k = none := by
  intro l
  induction l with
  | nil => intro s prev cs k h; cases h
  | cons d l ih =>
    intro s prev cs k h
    cases s with
    | nil =>
      cases l with
      | nil => rfl
      | cons e l => rfl
    | cons c s =>
      rw [litiFails] at h
      cases l with
      | nil =>
        show (Re.chr (foldEq d)).run ⟨prev, c :: s⟩ cs k = none
        rw [Re.run_chr]
        by_cases hf : foldEq d c = true
        · rw [if_pos hf] at h
          cases h
        · rw [if_neg hf]
      | cons e l =>
        rw [Re.liti_cons_cons, Re.run_seq, Re.run_chr]
        by_cases hf : foldEq d c = true
        · rw [if_pos hf] at h
          rw [if_pos hf]
          exact ih s _ cs _ h
        · rw [if_neg hf]

theorem Re.run_alt_of_right_none {α : Type} (a b : Re) (st : Pos) (cs : Caps)
    (k : Pos → Caps → Option α) (h : b.run st cs k = none) :
    (Re.alt a b).run st cs k = a.run st cs k := by
  rw [Re.run_alt, h]
  cases a.run st cs k <;> rfl

/-- A lazy repetition of a character class goes on as long as the continuation fails. -/
theorem starLoop_chr_lazy_run {α : Type} (p : Char → Bool) : ∀ (w : Str) (n : Nat)
    (prev : Option Char) (t : Str) (cs : Caps) (k : Pos → Caps → Option α) (r : α),
    (∀ c ∈ w, p c = true) → w.length ≤ n →
    (∀ c ∈ w, ∀ p' t', k ⟨p', c :: t'⟩ cs = none) →
    k ⟨lastOr prev w, t⟩ cs = some r →
    starLoop (fun st' cs' k' => (Re.chr p).run st' cs' k') false n ⟨prev, w ++ t⟩ cs k = some r := by
  intro w
  induction w with
  | nil =>
    intro n prev t cs k r _ _ _ hk
    cases n with
    | zero => exact hk
    | succ n =>
      rw [List.nil_append, starLoop]
      simp only [Bool.false_eq_true, if_false]
      rw [show k ⟨prev, t⟩ cs = some r from hk]
  | cons c w ih =>
    intro n prev t cs k r hw hn hfail hk
    cases n with
    | zero => simp at hn
    | succ n =>
      rw [List.cons_append, starLoop]
      simp only [Bool.false_eq_true, if_false]
      rw [hfail c (List.mem_cons_self c w) prev (w ++ t), Re.run_chr,
        if_pos (hw c (List.mem_cons_self c w))]
      simp only [List.length_cons, Nat.lt_succ_self, if_true]
      exact ih n (some c) t cs k r (fun x hx => hw x (List.mem_cons_of_mem c hx))
        (by simpa using hn) (fun x hx => hfail x (List.mem_cons_of_mem c hx)) hk

/-- The start of a second row is read as a whole. -/
theorem nextRowRe_run {α : Type} (prev : Option Char) (s1 s2 t : Str) (cs : Caps)
    (k : Pos → Caps → Option α) (r : α)
    (h1 : ∀ c ∈ s1, isSpaceRe c = true) (h2 : ∀ c ∈ s2, isSpaceRe c = true)
    (hk : k ⟨some '(', t⟩ cs = some r) :
    nextRowRe.run ⟨prev, s1 ++ ',' :: (s2 ++ '(' :: t)⟩ cs k = some r := by
  unfold nextRowRe
  simp only [Re.cat]
  rw [Re.run_seq, Re.run_star]
  apply starLoop_chr_greedy_run isSpaceRe s1 _ prev _ cs _ r h1 (by simp)
  · show (Re.seq (Re.lit [',']) _).run ⟨lastOr prev s1, [','] ++ (s2 ++ '(' :: t)⟩ cs k = some r
    rw [Re.run_seq, Re.run_lit, Re.run_seq, Re.run_star]
    apply starLoop_chr_greedy_run isSpaceRe s2 _ _ _ cs _ r h2 (by simp)
    · show (Re.lit ['(']).run ⟨_, ['('] ++ t⟩ cs k = some r
      rw [Re.run_lit]
      exact hk
    · intro c t' h
      cases h
      decide
  · intro c t' h
    cases h
    decide

theorem Re.find_of_tryAt_some (re : Re) (prev : Option Char) (s : Str) (r : Hit × Pos)
    (h : re.tryAt prev s = some r) : re.find prev s = some r := by
  cases s with
  | nil =>
    obtain ⟨hit, st⟩ := r
    have := Re.tryAt_lt re prev [] hit st h
    simp at this
  | cons c t => exact Re.find_of_tryAt re prev c t r h

theorem suffix_at_last : ∀ (Z : Str) (e : Char) (t : Str), (∀ c ∈ Z, c ≠ e) →
    e :: t <:+ Z ++ [e] → t = [] := by
  intro Z
  induction Z with
  | nil =>
    intro e t _ h
    rw [List.nil_append, List.suffix_cons_iff] at h
    rcases h with h | h
    · injection h
    · exact absurd (List.eq_nil_of_suffix_nil h) (by simp)
  | cons a Z ih =>
    intro e t hZ h
    rw [List.cons_append, List.suffix_cons_iff] at h
    rcases h with h | h
    · injection h with h _
      exact absurd h.symm (hZ a (List.mem_cons_self a Z))
    · exact ih e t (fun c hc => hZ c (List.mem_cons_of_mem a hc)) h

theorem Re.find_none_of_matchAt_none (re : Re) : ∀ (s : Str) (prev : Option Char),
    (∀ st : Pos, st.rest <:+ s → re.matchAt st = none) → re.find prev s = none := by
  intro s
  induction s with
  | nil => intro prev _; rfl
  | cons c t ih =>
    intro prev h
    rw [Re.find, Re.tryAt_of_matchAt_none re prev (c :: t) (h ⟨prev, c :: t⟩ (List.suffix_refl _)),
      ih (some c) (fun st hs => h st (hs.trans (List.suffix_cons c t)))]


/-! ## The failures of collapseUnion -/

theorem index_error (xs : List Str) (i : Nat) (e : Failure) (h : index xs i = .error e) :
    e = .indexOutOfRange i xs.length := by
  unfold index at h
  split at h
  · cases h
  · cases h
    rfl

/-- The loop of `collapseUnion` fails on a slice index only. -/
theorem collapseLoop_error (parts seps : List Str) : ∀ (rest : List Str) (i start : Nat)
    (buf : Str) (e : Failure), collapseLoop parts seps rest i start buf = .error e →
    ∃ a b, e = .indexOutOfRange a b := by
  intro rest
  induction rest with
  | nil =>
    intro i start buf e h
    rw [collapseLoop] at h
    cases h
  | cons part rest ih =>
    intro i start buf e h
    rw [collapseLoop] at h
    split at h
    · exact ih _ _ _ _ h
    · cases hf : index parts start with
      | error e' =>
        rw [hf] at h
        cases h
        exact ⟨_, _, index_error _ _ _ hf⟩
      | ok front =>
        rw [hf] at h
        simp only at h
        split at h
        · exact ih _ _ _ _ h
        · split at h
          · rename_i e1 heq
            cases h
            split at heq
            · cases hs : index seps (i - 1) with
              | error e' =>
                rw [hs] at heq
                cases heq
                exact ⟨_, _, index_error _ _ _ hs⟩
              | ok sep =>
                rw [hs] at heq
                cases heq
            · cases hs : index seps (i - 1 - 1) with
              | error e' =>
                rw [hs] at heq
                cases heq
                exact ⟨_, _, index_error _ _ _ hs⟩
              | ok sep =>
                rw [hs] at heq
                cases heq
          · split at h
            · cases hp : index parts i with
              | error e' =>
                rw [hp] at h
                cases h
                exact ⟨_, _, index_error _ _ _ hp⟩
              | ok p =>
                rw [hp] at h
                exact ih _ _ _ _ h
            · exact ih _ _ _ _ h

/-- The function `collapseUnion` never returns its error value. -/
theorem collapseUnion_not_structural (query : Str) (p s : Nat) :
    collapseUnion query ≠ .error (.structural p s) := by
  intro h
  unfold collapseUnion at h
  simp only at h
  split at h
  · cases h
  · rw [if_neg (by simp [Re.Split_length])] at h
    cases h0 : index (unionRegexp.Split query ++ [sentinel]) 0 with
    | error e =>
      rw [h0] at h
      cases h
      cases index_error _ _ _ h0
    | ok first =>
      rw [h0] at h
      obtain ⟨a, b, hab⟩ := collapseLoop_error _ _ _ _ _ _ _ h
      cases hab

/-! ## The signatures of mysqldump and of Percona Toolkit -/

theorem mysqldumpRe_begin (x : Str) :
    mysqldumpRe.MatchString ("SELECT /*!40001 SQL_NO_CACHE */ * FROM ".toList ++ x) = true := by
  unfold Re.MatchString mysqldumpRe
  rw [Re.find_bot, Re.tryAt, Re.matchAt, Re.run_seq_bot, Re.run_lit]
  have : x.length < ("SELECT /*!40001 SQL_NO_CACHE */ * FROM ".toList ++ x).length := by
    rw [List.length_append]
    exact Nat.lt_add_of_pos_left (by decide)
  simp only [this, if_true, Option.isSome_some]

/-- A match at a later place is found when the search starts earlier. -/
theorem Re.find_isSome_of_tryAt (re : Re) : ∀ (pre : Str) (prev : Option Char) (s : Str),
    (re.tryAt (lastOr prev pre) s).isSome = true → (re.find prev (pre ++ s)).isSome = true := by
  intro pre
  induction pre with
  | nil =>
    intro prev s h
    cases ht : re.tryAt prev s with
    | none =>
      rw [lastOr, ht] at h
      cases h
    | some r =>
      rw [List.nil_append, Re.find_of_tryAt_some re prev s r ht]
      rfl
  | cons c pre ih =>
    intro prev s h
    have hrec := ih (some c) s h
    rw [List.cons_append, Re.find]
    cases re.tryAt prev (c :: (pre ++ s)) with
    | some r => rfl
    | none =>
      cases hf : re.find (some c) (pre ++ s) with
      | none =>
        rw [hf] at hrec
        cases hrec
      | some r => rfl

/-- The marker `/*db.table:N/M*/` with one digit on either side of the slash is read as a
whole. -/
theorem perconaRe_matchAt (prev : Option Char) (db tbl : Str) (n m : Char) (post : Str)
    (hdb : db ≠ []) (hdbw : ∀ c ∈ db, isWord c = true) (htbl : tbl ≠ [])
    (htblw : ∀ c ∈ tbl, isWord c = true) (hn : isDigit n = true) (hm : isDigit m = true) :
    perconaRe.matchAt ⟨prev, "/*".toList ++ (db ++ (".".toList ++ (tbl ++ (":".toList
        ++ (n :: ("/".toList ++ (m :: ("*/".toList ++ post))))))))⟩
      = some (⟨some '/', post⟩, []) := by
  cases db with
  | nil => exact absurd rfl hdb
  | cons d ds =>
    cases tbl with
    | nil => exact absurd rfl htbl
    | cons e es =>
      unfold Re.matchAt perconaRe
      simp only [Re.cat]
      unfold Re.plus
      rw [Re.run_seq, Re.run_lit, Re.run_seq, Re.run_seq, List.cons_append, Re.run_chr,
        if_pos (hdbw d (List.mem_cons_self d ds)), Re.run_star]
      apply starLoop_chr_greedy_run isWord ds _ _ _ _ _ _
        (fun c hc => hdbw c (List.mem_cons_of_mem d hc)) (by simp)
      · rw [Re.run_seq, Re.run_lit, Re.run_seq, Re.run_seq, List.cons_append, Re.run_chr,
          if_pos (htblw e (List.mem_cons_self e es)), Re.run_star]
        apply starLoop_chr_greedy_run isWord es _ _ _ _ _ _
          (fun c hc => htblw c (List.mem_cons_of_mem e hc)) (by simp)
        · rw [Re.run_seq, Re.run_lit, Re.run_seq, Re.run_chr, if_pos hn, Re.run_seq, Re.run_lit,
            Re.run_seq, Re.run_chr, if_pos hm, Re.run_lit]
          rfl
        · intro c t' h
          cases h
          decide
      · intro c t' h
        cases h
        decide

/-- A query that holds such a marker matches the pattern of Percona Toolkit. -/
theorem perconaRe_marker (pre db tbl : Str) (n m : Char) (post : Str)
    (hdb : db ≠ []) (hdbw : ∀ c ∈ db, isWord c = true) (htbl : tbl ≠ [])
    (htblw : ∀ c ∈ tbl, isWord c = true) (hn : isDigit n = true) (hm : isDigit m = true) :
    perconaRe.MatchString (pre ++ ("/*".toList ++ (db ++ (".".toList ++ (tbl ++ (":".toList
        ++ (n :: ("/".toList ++ (m :: ("*/".toList ++ post)))))))))) = true := by
  unfold Re.MatchString
  apply Re.find_isSome_of_tryAt
  unfold Re.tryAt
  rw [perconaRe_matchAt _ db tbl n m post hdb hdbw htbl htblw hn hm]
  simp only
  rw [if_pos (by simp; omega)]
  rfl

/-- A literal matches only at a text that begins with it. -/
theorem Re.run_lit_begin {α : Type} : ∀ (l : Str) (prev : Option Char) (s : Str) (cs : Caps)
    (k : Pos → Caps → Option α) (r : α), (Re.lit l).run ⟨prev, s⟩ cs k = some r → l <+: s := by
  intro l
  induction l with
  | nil => intro prev s cs k r _; exact List.nil_prefix
  | cons c l ih =>
    intro prev s cs k r h
    cases s with
    | nil =>
      cases l with
      | nil => cases h
      | cons d l => cases h
    | cons x t =>
      cases l with
      | nil =>
        rw [show Re.lit [c] = Re.chr (fun y => y == c) from rfl, Re.run_chr] at h
        by_cases hx : (x == c) = true
        · rw [eq_of_beq hx]
          exact ⟨t, rfl⟩
        · rw [if_neg hx] at h
          cases h
      | cons d l =>
        rw [show Re.lit (c :: d :: l) = Re.seq (Re.chr (fun y => y == c)) (Re.lit (d :: l))
          from rfl, Re.run_seq, Re.run_chr] at h
        by_cases hx : (x == c) = true
        · rw [if_pos hx] at h
          rw [eq_of_beq hx]
          exact (List.cons_prefix_cons.mpr ⟨rfl, ih _ _ _ _ _ h⟩)
        · rw [if_neg hx] at h
          cases h

theorem mysqldumpRe_of_not_begin (q : Str)
    (h : ¬ ("SELECT /*!40001 SQL_NO_CACHE */ * FROM ".toList <+: q)) :
    mysqldumpRe.MatchString q = false := by
  apply Re.MatchString_of_find_none
  unfold mysqldumpRe
  rw [Re.find_bot]
  apply Re.tryAt_of_matchAt_none
  unfold Re.matchAt
  rw [Re.run_seq_bot]
  cases hr : (Re.lit "SELECT /*!40001 SQL_NO_CACHE */ * FROM ".toList).run ⟨none, q⟩ []
      (fun st' cs => some (st', cs)) with
  | none => rfl
  | some r => exact absurd (Re.run_lit_begin _ _ _ _ _ _ hr) h

/-! ## The LIMIT clause -/

/-- The number mask on a text with one number at its end. -/
theorem maskNumbers_one (P n : Str) (hP : ∀ c ∈ P, isNumStart c = false)
    (hlast : ∀ c, lastOr none P = some c → isWord c = false)
    (hn : n ≠ []) (hnd : ∀ c ∈ n, isDigit c = true) :
    maskNumbers (P ++ n) = P ++ ['?'] := by
  cases n with
  | nil => exact absurd rfl hn
  | cons d ds =>
    have hskip : ∀ c ∈ P, ∀ p t, numberRe.tryAt p (c :: t) = none :=
      fun c hc p t => numberRe_tryAt_none p c t (hP c hc)
    have key := numberRe_tryAt_digits (lastOr none P) d ds [] hlast
      (hnd d (List.mem_cons_self d ds)) (fun c hc => hnd c (List.mem_cons_of_mem d hc))
      (fun c t' h => by cases h)
    rw [List.append_nil] at key
    have hmatch : numberRe.MatchString (P ++ d :: ds) = true :=
      Re.matchString_of_tryAt_skip numberRe P d ds _ hskip key
    unfold maskNumbers
    rw [hmatch, if_pos rfl, Re.ReplaceAllString_eq, Re.replaceFrom_skip _ _ _ _ _ hskip,
      Re.replaceFrom_of_tryAt _ _ _ _ _ _ _ key]
    simp only
    rw [Re.replaceFrom_nil]
    rfl

/-- The number mask on a text with two numbers, one of them at its end. -/
theorem maskNumbers_two (P M n m : Str) (hP : ∀ c ∈ P, isNumStart c = false)
    (hlast : ∀ c, lastOr none P = some c → isWord c = false)
    (hM : ∀ c ∈ M, isNumStart c = false)
    (hMhead : ∀ c t', M = c :: t' → isNumBody c = false) (hMne : M ≠ [])
    (hMlast : ∀ p c, lastOr (some p) M = some c → isWord c = false)
    (hn : n ≠ []) (hnd : ∀ c ∈ n, isDigit c = true)
    (hm : m ≠ []) (hmd : ∀ c ∈ m, isDigit c = true) :
    maskNumbers (P ++ (n ++ (M ++ m))) = P ++ '?' :: (M ++ ['?']) := by
  cases n with
  | nil => exact absurd rfl hn
  | cons d ds =>
    cases m with
    | nil => exact absurd rfl hm
    | cons e es =>
      cases M with
      | nil => exact absurd rfl hMne
      | cons c1 M' =>
        have hskip : ∀ c ∈ P, ∀ p t, numberRe.tryAt p (c :: t) = none :=
          fun c hc p t => numberRe_tryAt_none p c t (hP c hc)
        have hskipM : ∀ c ∈ c1 :: M', ∀ p t, numberRe.tryAt p (c :: t) = none :=
          fun c hc p t => numberRe_tryAt_none p c t (hM c hc)
        have key1 := numberRe_tryAt_digits (lastOr none P) d ds (c1 :: M' ++ e :: es) hlast
          (hnd d (List.mem_cons_self d ds)) (fun c hc => hnd c (List.mem_cons_of_mem d hc))
          (fun c t' h => by
            rw [List.cons_append] at h
            injection h with h1 _
            rw [← h1]
            exact hMhead c1 M' rfl)
        have key2 := numberRe_tryAt_digits (lastOr (lastOr (some d) ds) (c1 :: M')) e es []
          (fun c hc => hMlast c1 c (by
            rw [← hc]
            cases lastOr (some d) ds <;> rfl))
          (hmd e (List.mem_cons_self e es)) (fun c hc => hmd c (List.mem_cons_of_mem e hc))
          (fun c t' h => by cases h)
        rw [List.append_nil] at key2
        have hmatch : numberRe.MatchString (P ++ d :: (ds ++ (c1 :: M' ++ e :: es))) = true :=
          Re.matchString_of_tryAt_skip numberRe P d _ _ hskip key1
        unfold maskNumbers
        rw [List.cons_append d ds, hmatch, if_pos rfl, Re.ReplaceAllString_eq,
          Re.replaceFrom_skip _ _ _ _ _ hskip, Re.replaceFrom_of_tryAt _ _ _ _ _ _ _ key1]
        simp only
        rw [Re.replaceFrom_skip _ _ _ _ _ hskipM, Re.replaceFrom_of_tryAt _ _ _ _ _ _ _ key2]
        simp only
        rw [Re.replaceFrom_nil]
        simp [expand]

set_option maxRecDepth 100000 in
theorem afterNumbers_limit_one (u : Char → Char) :
    afterNumbers u (selectLimit ++ ['?']) = .ok "select * from t limit ?".toList := by
  rw [afterNumbers_congr u asciiOnly _ (by decide!)]
  decide!

set_option maxRecDepth 100000 in
theorem afterNumbers_limit_two (u : Char → Char) (M : Str) (hM : M ∈ limitSeps) :
    afterNumbers u (selectLimit ++ '?' :: (M ++ ['?'])) = .ok "select * from t limit ?".toList := by
  simp only [limitSeps, List.mem_cons, List.mem_singleton, List.not_mem_nil, or_false] at hM
  rcases hM with h | h | h <;> subst h
  · rw [afterNumbers_congr u asciiOnly _ (by decide!)]
    decide!
  · rw [afterNumbers_congr u asciiOnly _ (by decide!)]
    decide!
  · rw [afterNumbers_congr u asciiOnly _ (by decide!)]
    decide!

theorem limitSeps_mem (M : Str) (hM : M ∈ limitSeps) : ∀ c ∈ M, c ∈ " OFFSET ,".toList := by
  simp only [limitSeps, List.mem_cons, List.mem_singleton, List.not_mem_nil, or_false] at hM
  rcases hM with h | h | h <;> subst h <;> decide

theorem limitSeps_shape (M : Str) (hM : M ∈ limitSeps) :
    (∀ c t', M = c :: t' → isNumBody c = false) ∧ M ≠ []
      ∧ ∀ p c, lastOr (some p) M = some c → isWord c = false := by
  simp only [limitSeps, List.mem_cons, List.mem_singleton, List.not_mem_nil, or_false] at hM
  rcases hM with h | h | h <;> subst h
  · exact ⟨fun c t' h => by cases h; decide, by decide, fun p c h => by cases h; decide⟩
  · exact ⟨fun c t' h => by cases h; decide, by decide, fun p c h => by cases h; decide⟩
  · exact ⟨fun c t' h => by cases h; decide, by decide, fun p c h => by cases h; decide⟩

/-- The stages before the number mask leave a text of the alphabet of the LIMIT queries as
it is, and none of the special cases applies to it. -/
theorem GetFingerprint_limit_alphabet (u : Char → Char) (q : Str)
    (hA : ∀ c ∈ q, c ∈ selectLimit ++ (" OFFSET ,".toList ++ digits)) :
    GetFingerprint u q = afterNumbers u (maskNumbers q) := by
  have no : ∀ (Q : Char → Prop),
      (∀ c ∈ selectLimit ++ (" OFFSET ,".toList ++ digits), ¬ Q c) → ∀ c ∈ q, ¬ Q c :=
    fun Q hQ c hc => hQ c (hA c hc)
  rw [GetFingerprint_eq_afterNumbers u _
      (Re.MatchString_of_find_none _ _ (Re.find_none_of_needs _ _ mysqldumpRe_needs _ _
        (no _ (by decide))))
      (Re.MatchString_of_find_none _ _ (Re.find_none_of_needs _ _ perconaRe_needs _ _
        (no _ (by decide))))
      (Re.MatchString_of_find_none _ _ (Re.find_none_of_needs _ _ adminRe_needs _ _
        (no _ (by decide))))
      (Re.FindStringSubmatch_of_find_none _ _ (Re.find_none_of_needs _ _ callRe_needs_paren _ _
        (no _ (by decide)))),
    shortenInsert_of_no_paren _ (no _ (by decide)),
    stripComments_of_none _ (no _ (by decide)) (no _ (by decide)),
    maskUse_of_no_u _ (no _ (by decide)),
    maskStrings_of_none _ (no _ (by decide)) (no _ (by decide)) (no _ (by decide)),
    maskBooleans_of_none _ (no _ (by decide)),
    maskMD5_of_none _ (no _ (by decide))]

theorem GetFingerprint_limit_one (u : Char → Char) (n : Str) (hn : n ≠ [])
    (hnd : ∀ c ∈ n, isDigit c = true) :
    GetFingerprint u (selectLimit ++ n) = .ok "select * from t limit ?".toList := by
  rw [GetFingerprint_limit_alphabet u _ (by
      intro c hc
      rcases List.mem_append.mp hc with h | h
      · exact List.mem_append_left _ h
      · exact List.mem_append_right _ (List.mem_append_right _ (isDigit_mem c (hnd c h)))),
    maskNumbers_one selectLimit n (by decide) (fun c h => by cases h; decide) hn hnd,
    afterNumbers_limit_one]

theorem GetFingerprint_limit_two (u : Char → Char) (M : Str) (hM : M ∈ limitSeps) (n m : Str)
    (hn : n ≠ []) (hnd : ∀ c ∈ n, isDigit c = true)
    (hm : m ≠ []) (hmd : ∀ c ∈ m, isDigit c = true) :
    GetFingerprint u (selectLimit ++ (n ++ (M ++ m)))
      = .ok "select * from t limit ?".toList := by
  obtain ⟨h1, h2, h3⟩ := limitSeps_shape M hM
  rw [GetFingerprint_limit_alphabet u _ (by
      intro c hc
      rcases List.mem_append.mp hc with h | h
      · exact List.mem_append_left _ h
      · rcases List.mem_append.mp h with h | h
        · exact List.mem_append_right _ (List.mem_append_right _ (isDigit_mem c (hnd c h)))
        · rcases List.mem_append.mp h with h | h
          · exact List.mem_append_right _ (List.mem_append_left _ (limitSeps_mem M hM c h))
          · exact List.mem_append_right _ (List.mem_append_right _ (isDigit_mem c (hmd c h)))),
    maskNumbers_two selectLimit M n m (by decide) (fun c h => by cases h; decide)
      (fun c hc => (by decide : ∀ c ∈ " OFFSET ,".toList, isNumStart c = false) c
        (limitSeps_mem M hM c hc)) h1 h2 h3 hn hnd hm hmd,
    afterNumbers_limit_two u M hM]

/-! ## What a match consumes and captures -/

theorem Reach.refl (gf : Bool) (st : Pos) (cs : Caps) : Reach gf st cs st cs :=
  ⟨List.suffix_refl _, fun _ => rfl, fun _ he => Or.inl he⟩

theorem Reach.trans {g1 g2 : Bool} {st st1 st2 : Pos} {cs cs1 cs2 : Caps}
    (h1 : Reach g1 st cs st1 cs1) (h2 : Reach g2 st1 cs1 st2 cs2) :
    Reach (g1 && g2) st cs st2 cs2 := by
  obtain ⟨a1, b1, c1⟩ := h1
  obtain ⟨a2, b2, c2⟩ := h2
  refine ⟨a2.trans a1, ?_, ?_⟩
  · intro hg
    simp only [Bool.and_eq_true] at hg
    rw [b2 hg.2, b1 hg.1]
  · intro e he
    rcases c2 e he with h | h
    · exact c1 e h
    · exact Or.inr (fun c hc => a1.subset (h c hc))

theorem Reach.weaken {g g' : Bool} {st st1 : Pos} {cs cs1 : Caps}
    (h : Reach g st cs st1 cs1) (hg : g' = true → g = true) : Reach g' st cs st1 cs1 :=
  ⟨h.1, fun hg' => h.2.1 (hg hg'), h.2.2⟩

theorem starLoop_reach {α : Type} (m : Pos → Caps → (Pos → Caps → Option α) → Option α)
    (g gf : Bool)
    (hm : ∀ st cs k r, m st cs k = some r → ∃ st' cs', Reach gf st cs st' cs' ∧ k st' cs' = some r) :
    ∀ n st cs k r, starLoop m g n st cs k = some r →
      ∃ st' cs', Reach gf st cs st' cs' ∧ k st' cs' = some r := by
  intro n
  induction n with
  | zero =>
    intro st cs k r h
    exact ⟨st, cs, Reach.refl _ _ _, by simpa [starLoop] using h⟩
  | succ n ih =>
    intro st cs k r h
    have step : ∀ r, m st cs (fun st' cs' =>
          if st'.rest.length < st.rest.length then starLoop m g n st' cs' k else none) = some r →
        ∃ st' cs', Reach gf st cs st' cs' ∧ k st' cs' = some r := by
      intro r hr
      obtain ⟨st1, cs1, hs1, hk1⟩ := hm _ _ _ _ hr
      by_cases hlt : st1.rest.length < st.rest.length
      · simp only [hlt, if_true] at hk1
        obtain ⟨st2, cs2, hs2, hk2⟩ := ih _ _ _ _ hk1
        exact ⟨st2, cs2, (hs1.trans hs2).weaken (by simp), hk2⟩
      · simp [hlt] at hk1
    rw [starLoop] at h
    cases g with
    | true =>
      simp only [if_true] at h
      split at h
      · next r' hr' =>
        cases h
        exact step _ hr'
      · exact ⟨st, cs, Reach.refl _ _ _, h⟩
    | false =>
      simp only [Bool.false_eq_true, if_false] at h
      split at h
      · next r' hr' =>
        cases h
        exact ⟨st, cs, Reach.refl _ _ _, hr'⟩
      · exact step _ h

/-- A match takes at least `minLen` characters, keeps the groups when the pattern has
none, and captures pieces of the text. -/
theorem Re.run_reach {α : Type} (re : Re) :
    ∀ (st : Pos) (cs : Caps) (k : Pos → Caps → Option α) (r : α), re.run st cs k = some r →
      ∃ st' cs', Reach re.groupFree st cs st' cs'
        ∧ st'.rest.length + re.minLen ≤ st.rest.length ∧ k st' cs' = some r := by
  induction re with
  | eps =>
    intro st cs k r h
    exact ⟨st, cs, Reach.refl _ _ _, Nat.le_refl _, by simpa [Re.run] using h⟩
  | chr p =>
    intro st cs k r h
    rw [Re.run] at h
    split at h
    · cases h
    · next c t hst =>
      split at h
      · refine ⟨⟨some c, t⟩, cs, ⟨?_, fun _ => rfl, fun _ he => Or.inl he⟩, ?_, h⟩
        · rw [hst]
          exact List.suffix_cons c t
        · rw [hst]
          simp [Re.minLen]
      · cases h
  | seq a b iha ihb =>
    intro st cs k r h
    rw [Re.run] at h
    obtain ⟨st1, cs1, hs1, hl1, h1⟩ := iha _ _ _ _ h
    obtain ⟨st2, cs2, hs2, hl2, h2⟩ := ihb _ _ _ _ h1
    refine ⟨st2, cs2, hs1.trans hs2, ?_, h2⟩
    simp only [Re.minLen]
    omega
  | alt a b iha ihb =>
    intro st cs k r h
    rw [Re.run] at h
    split at h
    · next r' hr' =>
      cases h
      obtain ⟨st1, cs1, hs1, hl1, h1⟩ := iha _ _ _ _ hr'
      refine ⟨st1, cs1, hs1.weaken (by simp [Re.groupFree]; tauto), ?_, h1⟩
      simp only [Re.minLen]
      omega
    · obtain ⟨st1, cs1, hs1, hl1, h1⟩ := ihb _ _ _ _ h
      refine ⟨st1, cs1, hs1.weaken (by simp [Re.groupFree]), ?_, h1⟩
      simp only [Re.minLen]
      omega
  | star g a iha =>
    intro st cs k r h
    rw [Re.run] at h
    obtain ⟨st1, cs1, hs1, h1⟩ := starLoop_reach _ g a.groupFree
      (fun st cs k r h => by
        obtain ⟨st1, cs1, hs1, _, h1⟩ := iha st cs k r h
        exact ⟨st1, cs1, hs1, h1⟩) _ _ _ _ _ h
    exact ⟨st1, cs1, hs1, by simpa [Re.minLen] using hs1.1.length_le, h1⟩
  | group n a iha =>
    intro st cs k r h
    rw [Re.run] at h
    obtain ⟨st1, cs1, hs1, hl1, h1⟩ := iha _ _ _ _ h
    refine ⟨st1, _, ⟨hs1.1, fun hg => by simp [Re.groupFree] at hg, ?_⟩, hl1, h1⟩
    intro e he
    rcases List.mem_cons.mp he with he | he
    · subst he
      exact Or.inr (fun c hc => List.mem_of_mem_take hc)
    · exact hs1.2.2 e he
  | bot =>
    intro st cs k r h
    rw [Re.run] at h
    split at h
    · exact ⟨st, cs, Reach.refl _ _ _, Nat.le_refl _, h⟩
    · cases h
  | eot =>
    intro st cs k r h
    rw [Re.run] at h
    split at h
    · exact ⟨st, cs, Reach.refl _ _ _, Nat.le_refl _, h⟩
    · cases h
  | eol =>
    intro st cs k r h
    rw [Re.run] at h
    split at h
    · exact ⟨st, cs, Reach.refl _ _ _, Nat.le_refl _, h⟩
    · split at h
      · exact ⟨st, cs, Reach.refl _ _ _, Nat.le_refl _, h⟩
      · cases h
  | wordb =>
    intro st cs k r h
    rw [Re.run] at h
    split at h
    · exact ⟨st, cs, Reach.refl _ _ _, Nat.le_refl _, h⟩
    · cases h

/-! ## Properties of the matches of a scan -/

/-- A match read at a place is the result of the matcher there. -/
theorem Re.tryAt_matchAt (re : Re) (prev : Option Char) (s : Str) (h : Hit) (st : Pos)
    (hf : re.tryAt prev s = some (h, st)) :
    re.matchAt ⟨prev, s⟩ = some (st, h.caps)
      ∧ h.text.length + st.rest.length = s.length := by
  have hsplit := Re.tryAt_split re prev s h st hf
  unfold Re.tryAt at hf
  split at hf
  · next st' cs hm =>
    split at hf
    · simp only [Option.some.injEq, Prod.mk.injEq] at hf
      obtain ⟨hh, hst⟩ := hf
      subst hh
      subst hst
      refine ⟨hm, ?_⟩
      have := congrArg List.length hsplit.2.1
      rw [List.length_append] at this
      exact this.symm
    · cases hf
  · cases hf

/-- What holds of the text and groups of every match read at a place holds of the match
that a search finds. -/
theorem Re.find_hit (re : Re) (Q : Str → Caps → Prop)
    (hQ : ∀ p t h st, re.tryAt p t = some (h, st) → Q h.text h.caps) :
    ∀ (s : Str) (prev : Option Char) (h : Hit) (st : Pos),
      re.find prev s = some (h, st) → Q h.text h.caps := by
  intro s
  induction s with
  | nil => intro prev h st hf; simp [Re.find] at hf
  | cons c t ih =>
    intro prev h st hf
    rw [Re.find] at hf
    split at hf
    · next r hr =>
      cases hf
      exact hQ _ _ _ _ hr
    · split at hf
      · next h' st' hr =>
        cases hf
        exact ih _ h' _ hr
      · cases hf

theorem Re.scan_hits (re : Re) (Q : Str → Caps → Prop)
    (hQ : ∀ p t h st, re.tryAt p t = some (h, st) → Q h.text h.caps) :
    ∀ (fuel : Nat) (prev : Option Char) (s : Str), ∀ h ∈ (re.scan fuel prev s).1,
      Q h.text h.caps := by
  intro fuel
  induction fuel with
  | zero =>
    intro prev s h hh
    simp [Re.scan] at hh
  | succ n ih =>
    intro prev s h hh
    rw [Re.scan] at hh
    cases hf : re.find prev s with
    | none =>
      rw [hf] at hh
      simp at hh
    | some r =>
      obtain ⟨h0, st⟩ := r
      rw [hf] at hh
      simp only [List.mem_cons] at hh
      rcases hh with hh | hh
      · subst hh
        exact Re.find_hit re Q hQ _ _ _ _ hf
      · exact ih _ _ _ hh

theorem Re.allMatches_ne_nil (re : Re) (s : Str) (h : re.MatchString s = true) :
    (re.allMatches s).1 ≠ [] := by
  unfold Re.MatchString at h
  unfold Re.allMatches
  rw [Re.scan]
  cases hf : re.find none s with
  | none =>
    rw [hf] at h
    cases h
  | some r => simp

/-- A replacement by templates shorter than the matches shortens the text. -/
theorem substitute_length (tpl : List Tpl) : ∀ (hs : List Hit) (tl : Str),
    (∀ h ∈ hs, (expand tpl h.caps).length < h.text.length) →
    (substitute tpl hs tl).length + hs.length ≤ (rebuild hs tl).length := by
  intro hs
  induction hs with
  | nil => intro tl _; simp [substitute, rebuild]
  | cons h hs ih =>
    intro tl hh
    have h1 := hh h (List.mem_cons_self h hs)
    have h2 := ih tl (fun x hx => hh x (List.mem_cons_of_mem h hx))
    simp only [substitute, rebuild, List.length_append, List.length_cons]
    omega

theorem Re.ReplaceAllString_length_lt (re : Re) (tpl : List Tpl) (s : Str)
    (hm : re.MatchString s = true)
    (hQ : ∀ p t h st, re.tryAt p t = some (h, st) → (expand tpl h.caps).length < h.text.length) :
    (re.ReplaceAllString s tpl).length < s.length := by
  have hne := Re.allMatches_ne_nil re s hm
  have hsplit := (Re.scan_split re (s.length + 1) none s).1
  have hall := Re.scan_hits re (fun text caps => (expand tpl caps).length < text.length) hQ
    (s.length + 1) none s
  have hlen := substitute_length tpl (re.allMatches s).1 (re.allMatches s).2 hall
  have hpos : 1 ≤ (re.allMatches s).1.length := by
    cases hl : (re.allMatches s).1 with
    | nil => exact absurd hl hne
    | cons a l => simp
  have hs : s.length = (rebuild (re.allMatches s).1 (re.allMatches s).2).length :=
    congrArg List.length hsplit
  unfold Re.ReplaceAllString
  omega

/-! ## The loop that strips ASC -/

/-- A match of the ASC pattern is at least four characters longer than its group. -/
theorem ascRegexp_tryAt (p : Option Char) (t : Str) (h : Hit) (st : Pos)
    (hf : ascRegexp.tryAt p t = some (h, st)) :
    (expand [.grp 1] h.caps).length < h.text.length := by
  obtain ⟨hm, hlen⟩ := Re.tryAt_matchAt _ _ _ _ _ hf
  unfold Re.matchAt ascRegexp at hm
  simp only [Re.cat] at hm
  rw [Re.run_seq, Re.run_group] at hm
  obtain ⟨st1, cs1, hr1, _, hk1⟩ := Re.run_reach _ _ _ _ _ hm
  have hcs1 : cs1 = [] := hr1.2.1 rfl
  subst hcs1
  obtain ⟨st2, cs2, hr2, hl2, hk2⟩ := Re.run_reach _ _ _ _ _ hk1
  have hcs2 := hr2.2.1 rfl
  subst hcs2
  have hmin : (Re.seq (Re.plus true (Re.chr isSpaceRe)) (Re.lit "asc".toList)).minLen = 4 := rfl
  rw [hmin] at hl2
  simp only [Option.some.injEq, Prod.mk.injEq] at hk2
  obtain ⟨hst, hcaps⟩ := hk2
  subst hst
  rw [← hcaps]
  have hs1 : st1.rest.length ≤ t.length := hr1.1.length_le
  simp only [expand, groupText, List.lookup, beq_self_eq_true, List.append_nil,
    List.length_take]
  omega

/-- One round of the loop shortens the text. -/
theorem ascRegexp_shortens (q : Str) (hm : ascRegexp.MatchString q = true) :
    (ascRegexp.ReplaceAllString q [.grp 1]).length < q.length :=
  Re.ReplaceAllString_length_lt ascRegexp _ q hm ascRegexp_tryAt

/-- The loop comes to its end within as many rounds as the text has characters, with a
text that the pattern does not match. -/
theorem ascLoop_total : ∀ (fuel : Nat) (q : Str), q.length < fuel →
    ∃ r, ascLoop fuel q = .ok r ∧ ascRegexp.MatchString r = false := by
  intro fuel
  induction fuel with
  | zero => intro q h; exact absurd h (Nat.not_lt_zero _)
  | succ n ih =>
    intro q h
    rw [ascLoop]
    by_cases hm : ascRegexp.MatchString q = true
    · rw [if_pos hm]
      exact ih _ (by have := ascRegexp_shortens q hm; omega)
    · rw [if_neg hm]
      exact ⟨q, rfl, by simpa using hm⟩

/-! ## Where the ASC pattern matches -/

/-- The ASC pattern matches at a character other than a line feed that white space and
`asc` follow. -/
theorem ascRegexp_occurrence (a : Str) (c : Char) (w b : Str) (hc : isDot c = true)
    (hw : w ≠ []) (hws : ∀ x ∈ w, isSpaceRe x = true) :
    ascRegexp.MatchString (a ++ c :: (w ++ ("asc".toList ++ b))) = true := by
  cases w with
  | nil => exact absurd rfl hw
  | cons w0 ws =>
    have hm : ∃ cs, ascRegexp.matchAt ⟨lastOr none a, c :: (w0 :: ws ++ ("asc".toList ++ b))⟩
        = some (⟨some 'c', b⟩, cs) := by
      refine Exists.intro ?cs ?h
      case h =>
        unfold Re.matchAt ascRegexp
        simp only [Re.cat]
        unfold Re.plus
        rw [Re.run_seq, Re.run_group, Re.run_seq, Re.run_chr, if_pos hc, Re.run_star]
        apply starLoop_chr_lazy_run isDot [] _ _ _ _ _ _ (by simp) (by simp) (by simp)
        rw [Re.run_seq, Re.run_seq]
        show (Re.chr isSpaceRe).run ⟨_, w0 :: (ws ++ ("asc".toList ++ b))⟩ _ _ = _
        rw [Re.run_chr, if_pos (hws w0 (List.mem_cons_self w0 ws)), Re.run_star]
        apply starLoop_chr_greedy_run isSpaceRe ws _ _ _ _ _ _
          (fun x hx => hws x (List.mem_cons_of_mem w0 hx)) (by simp)
        · rw [Re.run_lit]
          exact rfl
        · intro x t' h
          cases h
          decide
    obtain ⟨cs, hm⟩ := hm
    unfold Re.MatchString
    apply Re.find_isSome_of_tryAt
    unfold Re.tryAt
    rw [hm]
    simp only
    rw [if_pos (by simp; omega)]
    rfl

/-- A text that the ASC pattern does not match has no character other than a line feed
that white space and `asc` follow. -/
theorem ascRegexp_no_occurrence (r : Str) (hr : ascRegexp.MatchString r = false)
    (a : Str) (c : Char) (w b : Str) (he : r = a ++ c :: (w ++ ("asc".toList ++ b)))
    (hc : isDot c = true) (hw : w ≠ []) (hws : ∀ x ∈ w, isSpaceRe x = true) : False := by
  rw [he, ascRegexp_occurrence a c w b hc hw hws] at hr
  cases hr

theorem stripAsc_total (q : Str) : ∃ r, stripAsc q = .ok r := by
  unfold stripAsc
  split
  · obtain ⟨r, hr, _⟩ := ascLoop_total (q.length + 1) q (Nat.lt_succ_self _)
    exact ⟨r, hr⟩
  · exact ⟨q, rfl⟩

theorem stripAsc_of_order_by (q : Str) (ho : orderByRe.MatchString q = true) :
    ∃ r, stripAsc q = .ok r ∧ ascRegexp.MatchString r = false := by
  unfold stripAsc
  rw [if_pos ho]
  exact ascLoop_total (q.length + 1) q (Nat.lt_succ_self _)

/-! ## The characters of what the library calls return -/

theorem groupText_all (P : Char → Prop) (n : Nat) : ∀ (cs : Caps),
    (∀ e ∈ cs, ∀ c ∈ e.2, P c) → ∀ c ∈ groupText cs n, P c
  | [], _ => by
    intro c hc
    simp [groupText, List.lookup] at hc
  | (k, v) :: l, h => by
    have ih := groupText_all P n l (fun e he => h e (List.mem_cons_of_mem _ he))
    unfold groupText at ih ⊢
    simp only [List.lookup]
    cases hnk : n == k with
    | true => exact h (k, v) (List.mem_cons_self _ _)
    | false => exact ih

theorem expand_all (P : Char → Prop) (cs : Caps) (hcs : ∀ e ∈ cs, ∀ c ∈ e.2, P c) :
    ∀ (tpl : List Tpl), (∀ c ∈ tplChars tpl, P c) → ∀ c ∈ expand tpl cs, P c := by
  intro tpl
  induction tpl with
  | nil => intro _ c hc; simp [expand] at hc
  | cons p tpl ih =>
    intro ht c hc
    cases p with
    | text s =>
      simp only [expand, List.mem_append] at hc
      rcases hc with hc | hc
      · exact ht c (by simp [tplChars, hc])
      · exact ih (fun x hx => ht x (by simp [tplChars, hx])) c hc
    | grp n =>
      simp only [expand, List.mem_append] at hc
      rcases hc with hc | hc
      · exact groupText_all P n cs hcs c hc
      · exact ih (fun x hx => ht x (by simpa [tplChars] using hx)) c hc

/-- The text and the groups of a match are made of characters of the text. -/
theorem Re.tryAt_all (re : Re) (P : Char → Prop) (prev : Option Char) (s : Str) (h : Hit)
    (st : Pos) (hs : ∀ c ∈ s, P c) (hf : re.tryAt prev s = some (h, st)) :
    (∀ e ∈ h.caps, ∀ c ∈ e.2, P c) := by
  obtain ⟨hm, _⟩ := Re.tryAt_matchAt re prev s h st hf
  unfold Re.matchAt at hm
  obtain ⟨st1, cs1, hr, _, hk⟩ := Re.run_reach re _ _ _ _ hm
  simp only [Option.some.injEq, Prod.mk.injEq] at hk
  obtain ⟨_, hcs⟩ := hk
  subst hcs
  intro e he c hc
  rcases hr.2.2 e he with h0 | h0
  · cases h0
  · exact hs c (h0 c hc)

theorem Re.find_all (re : Re) (P : Char → Prop) : ∀ (s : Str) (prev : Option Char) (h : Hit)
    (st : Pos), (∀ c ∈ s, P c) → re.find prev s = some (h, st) →
    (∀ e ∈ h.caps, ∀ c ∈ e.2, P c) := by
  intro s
  induction s with
  | nil => intro prev h st _ hf; simp [Re.find] at hf
  | cons c t ih =>
    intro prev h st hs hf
    rw [Re.find] at hf
    split at hf
    · next r hr =>
      cases hf
      exact Re.tryAt_all re P _ _ _ _ hs hr
    · split at hf
      · next h' st' hr =>
        cases hf
        exact ih _ h' _ (fun x hx => hs x (List.mem_cons_of_mem c hx)) hr
      · cases hf

/-- Every piece that a scan returns is made of characters of the text. -/
theorem Re.scan_all (re : Re) (P : Char → Prop) : ∀ (fuel : Nat) (prev : Option Char) (s : Str),
    (∀ c ∈ s, P c) →
    (∀ h ∈ (re.scan fuel prev s).1,
        (∀ c ∈ h.gap, P c) ∧ (∀ c ∈ h.text, P c) ∧ ∀ e ∈ h.caps, ∀ c ∈ e.2, P c)
      ∧ ∀ c ∈ (re.scan fuel prev s).2, P c := by
  intro fuel
  induction fuel with
  | zero =>
    intro prev s hs
    simp only [Re.scan]
    exact ⟨fun h hh => (by cases hh), hs⟩
  | succ n ih =>
    intro prev s hs
    rw [Re.scan]
    cases hf : re.find prev s with
    | none => exact ⟨fun h hh => (by cases hh), hs⟩
    | some r =>
      obtain ⟨h0, st⟩ := r
      obtain ⟨hsplit, _⟩ := Re.find_split re _ _ _ _ hf
      have hcaps := Re.find_all re P _ _ _ _ hs hf
      have hgap : ∀ c ∈ h0.gap, P c := fun c hc => hs c (by
        rw [hsplit]
        exact List.mem_append_left _ hc)
      have htext : ∀ c ∈ h0.text, P c := fun c hc => hs c (by
        rw [hsplit]
        exact List.mem_append_right _ (List.mem_append_left _ hc))
      have hrest : ∀ c ∈ st.rest, P c := fun c hc => hs c (by
        rw [hsplit]
        exact List.mem_append_right _ (List.mem_append_right _ hc))
      obtain ⟨i1, i2⟩ := ih st.prev st.rest hrest
      refine ⟨?_, i2⟩
      intro h hh
      simp only [List.mem_cons] at hh
      rcases hh with hh | hh
      · subst hh
        exact ⟨hgap, htext, hcaps⟩
      · exact i1 h hh

theorem substitute_all (P : Char → Prop) (tpl : List Tpl) (ht : ∀ c ∈ tplChars tpl, P c) :
    ∀ (hs : List Hit) (tl : Str),
    (∀ h ∈ hs, (∀ c ∈ h.gap, P c) ∧ (∀ c ∈ h.text, P c) ∧ ∀ e ∈ h.caps, ∀ c ∈ e.2, P c) →
    (∀ c ∈ tl, P c) → ∀ c ∈ substitute tpl hs tl, P c := by
  intro hs
  induction hs with
  | nil => intro tl _ htl; exact htl
  | cons h hs ih =>
    intro tl hh htl c hc
    obtain ⟨h1, _, h3⟩ := hh h (List.mem_cons_self h hs)
    simp only [substitute, List.mem_append] at hc
    rcases hc with hc | hc | hc
    · exact h1 c hc
    · exact expand_all P h.caps h3 tpl ht c hc
    · exact ih tl (fun x hx => hh x (List.mem_cons_of_mem h hx)) htl c hc

/-- A replacement puts together characters of the text and of the template. -/
theorem Re.ReplaceAllString_all (re : Re) (P : Char → Prop) (s : Str) (tpl : List Tpl)
    (hs : ∀ c ∈ s, P c) (ht : ∀ c ∈ tplChars tpl, P c) :
    ∀ c ∈ re.ReplaceAllString s tpl, P c := by
  obtain ⟨h1, h2⟩ := Re.scan_all re P (s.length + 1) none s hs
  exact substitute_all P tpl ht _ _ h1 h2

/-- The pieces of a split are made of characters of the text. -/
theorem Re.Split_all (re : Re) (P : Char → Prop) (s : Str) (hs : ∀ c ∈ s, P c) :
    ∀ part ∈ re.Split s, ∀ c ∈ part, P c := by
  obtain ⟨h1, h2⟩ := Re.scan_all re P (s.length + 1) none s hs
  rw [Re.Split_eq]
  intro part hp
  rcases List.mem_append.mp hp with hp | hp
  · obtain ⟨h, hh, rfl⟩ := List.mem_map.mp hp
    exact (h1 h hh).1
  · rw [List.mem_singleton.mp hp]
    exact h2

theorem Re.FindAllString_all (re : Re) (P : Char → Prop) (s : Str) (hs : ∀ c ∈ s, P c) :
    ∀ sep ∈ re.FindAllString s, ∀ c ∈ sep, P c := by
  obtain ⟨h1, _⟩ := Re.scan_all re P (s.length + 1) none s hs
  intro sep hp
  obtain ⟨h, hh, rfl⟩ := List.mem_map.mp hp
  exact (h1 h hh).2.1

/-! ## No upper-case letter after the lower-casing -/

theorem lowerAscii_not_upper (c : Char) : isUpperAscii (lowerAscii c) = false := by
  by_cases h : isUpperAscii c = true
  · exact lowerAscii_upper_not_upper c (isUpperAscii_mem c h)
  · have h' : isUpperAscii c = false := by simpa using h
    rw [lowerAscii_of_not_upper c h']
    exact h'

/-- The lower-cased text has no upper-case ASCII letter, when the Unicode table maps no
character above ASCII to one. -/
theorem toLower_no_upper (u : Char → Char)
    (hu : ∀ c, 128 ≤ c.toNat → isUpperAscii (u c) = false) (s : Str) :
    ∀ c ∈ toLower u s, isUpperAscii c = false := by
  intro c hc
  unfold toLower at hc
  obtain ⟨x, _, rfl⟩ := List.mem_map.mp hc
  by_cases hx : x.toNat < 128
  · simp only [hx, if_true]
    exact lowerAscii_not_upper x
  · simp only [hx, if_false]
    exact hu x (by omega)

theorem index_ok (xs : List Str) (i : Nat) (x : Str) (h : index xs i = .ok x) :
    xs[i]? = some x := by
  unfold index at h
  split at h
  · next y hy =>
    cases h
    exact hy
  · cases h

theorem index_mem (xs : List Str) (i : Nat) (x : Str) (h : index xs i = .ok x) : x ∈ xs :=
  List.getElem?_mem (index_ok xs i x h)

/-- An element of the branch list other than the last is a branch of the query. -/
theorem index_branch (real : List Str) (i : Nat) (x : Str)
    (h : index (real ++ [sentinel]) i = .ok x)
    (hi : (i != (real ++ [sentinel]).length - 1) = true) : x ∈ real := by
  have h1 := index_ok _ _ _ h
  have hne : i ≠ real.length := by
    simpa using hi
  have hlt : i < (real ++ [sentinel]).length := by
    by_contra hge
    rw [List.getElem?_eq_none (by omega)] at h1
    cases h1
  rw [List.length_append, List.length_singleton] at hlt
  rw [List.getElem?_append_left (by omega)] at h1
  exact List.getElem?_mem h1

/-- The loop of `collapseUnion` writes branches, separators and the annotation only. -/
theorem collapseLoop_all (P : Char → Prop) (real seps : List Str)
    (hreal : ∀ p ∈ real, ∀ c ∈ p, P c) (hseps : ∀ s ∈ seps, ∀ c ∈ s, P c)
    (hlit : ∀ c ∈ " /*repeat*/".toList, P c) :
    ∀ (rest : List Str) (i start : Nat) (buf r : Str), (∀ c ∈ buf, P c) →
    collapseLoop (real ++ [sentinel]) seps rest i start buf = .ok r → ∀ c ∈ r, P c := by
  intro rest
  induction rest with
  | nil =>
    intro i start buf r hb h
    rw [collapseLoop] at h
    cases h
    exact hb
  | cons part rest ih =>
    intro i start buf r hb h
    rw [collapseLoop] at h
    split at h
    · exact ih _ _ _ _ hb h
    · cases hf : index (real ++ [sentinel]) start with
      | error e' =>
        rw [hf] at h
        cases h
      | ok front =>
        rw [hf] at h
        simp only at h
        split at h
        · exact ih _ _ _ _ hb h
        · split at h
          · cases h
          · rename_i buf1 heq
            have hb1 : ∀ c ∈ buf1, P c := by
              split at heq
              · cases hs : index seps (i - 1) with
                | error e' =>
                  rw [hs] at heq
                  cases heq
                | ok sep =>
                  rw [hs] at heq
                  cases heq
                  intro c hc
                  rcases List.mem_append.mp hc with hc | hc
                  · exact hb c hc
                  · exact hseps sep (index_mem _ _ _ hs) c hc
              · cases hs : index seps (i - 1 - 1) with
                | error e' =>
                  rw [hs] at heq
                  cases heq
                | ok sep =>
                  rw [hs] at heq
                  cases heq
                  intro c hc
                  rcases List.mem_append.mp hc with hc | hc
                  · exact hb c hc
                  · rcases List.mem_append.mp hc with hc | hc
                    · exact hlit c
                        ((by decide : ∀ x ∈ " /*repeat".toList, x ∈ " /*repeat*/".toList) c hc)
                    · rcases List.mem_append.mp hc with hc | hc
                      · exact hseps sep (index_mem _ _ _ hs) c hc
                      · exact hlit c
                          ((by decide : ∀ x ∈ "*/".toList, x ∈ " /*repeat*/".toList) c hc)
            split at h
            · next hi =>
              cases hp : index (real ++ [sentinel]) i with
              | error e' =>
                rw [hp] at h
                cases h
              | ok p =>
                rw [hp] at h
                refine ih _ _ _ _ ?_ h
                intro c hc
                rcases List.mem_append.mp hc with hc | hc
                · exact hb1 c hc
                · exact hreal p (index_branch real i p hp hi) c hc
            · exact ih _ _ _ _ hb1 h

/-- The text that `collapseUnion` returns is made of characters of the query and of the
annotation. -/
theorem collapseUnion_all (P : Char → Prop) (query r : Str) (hq : ∀ c ∈ query, P c)
    (hlit : ∀ c ∈ " /*repeat*/".toList, P c) (h : collapseUnion query = .ok r) :
    ∀ c ∈ r, P c := by
  unfold collapseUnion at h
  simp only at h
  split at h
  · cases h
    exact hq
  · next hone =>
    rw [if_neg (by simp [Re.Split_length])] at h
    have hreal := Re.Split_all unionRegexp P query hq
    have hseps := Re.FindAllString_all unionRegexp P query hq
    cases h0 : index (unionRegexp.Split query ++ [sentinel]) 0 with
    | error e =>
      rw [h0] at h
      cases h
    | ok first =>
      rw [h0] at h
      have hlen := Re.Split_length unionRegexp query
      have hfirst : first ∈ unionRegexp.Split query :=
        index_branch _ 0 first h0 (by
          simp only [List.length_append, List.length_singleton, bne_iff_ne, ne_eq]
          omega)
      exact collapseLoop_all P _ _ hreal hseps hlit _ _ _ _ _ (hreal first hfirst) h

theorem ascLoop_all (P : Char → Prop) : ∀ (fuel : Nat) (q r : Str), (∀ c ∈ q, P c) →
    ascLoop fuel q = .ok r → ∀ c ∈ r, P c := by
  intro fuel
  induction fuel with
  | zero =>
    intro q r _ h
    rw [ascLoop] at h
    cases h
  | succ n ih =>
    intro q r hq h
    rw [ascLoop] at h
    split at h
    · exact ih _ _ (Re.ReplaceAllString_all ascRegexp P q _ hq (fun c hc => by cases hc)) h
    · cases h
      exact hq

/-- The end of `GetFingerprint` writes no upper-case letter. -/
theorem finishFingerprint_no_upper (q r : Str) (hq : ∀ c ∈ q, isUpperAscii c = false)
    (h : finishFingerprint q = .ok r) : ∀ c ∈ r, isUpperAscii c = false := by
  unfold finishFingerprint at h
  cases hc : collapseUnion q with
  | error e =>
    rw [hc] at h
    cases h
  | ok t =>
    rw [hc] at h
    simp only at h
    have ht := collapseUnion_all (fun c => isUpperAscii c = false) q t hq (by decide) hc
    have hl : ∀ c ∈ normalizeLimit t, isUpperAscii c = false :=
      Re.ReplaceAllString_all limitRe _ t _ ht (by decide)
    unfold stripAsc at h
    split at h
    · exact ascLoop_all _ _ _ _ hl h
    · cases h
      exact hl

/-- The text handed to `collapseUnion` has no upper-case letter. -/
theorem beforeUnion_no_upper (u : Char → Char)
    (hu : ∀ c, 128 ≤ c.toNat → isUpperAscii (u c) = false) (q : Str) :
    ∀ c ∈ beforeUnion u q, isUpperAscii c = false := by
  unfold beforeUnion collapseLists maskNull normalizeSpace
  exact Re.ReplaceAllString_all _ _ _ _
    (Re.ReplaceAllString_all _ _ _ _ (toLower_no_upper u hu _) (by decide)) (by decide)

theorem adminRe_of_not_begin (q : Str) (h : ¬ ("administrator command: ".toList <+: q)) :
    adminRe.MatchString q = false := by
  apply Re.MatchString_of_find_none
  unfold adminRe
  rw [Re.find_bot]
  apply Re.tryAt_of_matchAt_none
  unfold Re.matchAt
  rw [Re.run_seq_bot]
  cases hr : (Re.lit "administrator command: ".toList).run ⟨none, q⟩ []
      (fun st' cs => some (st', cs)) with
  | none => rfl
  | some r => exact absurd (Re.run_lit_begin _ _ _ _ _ _ hr) h

/-- A fingerprint has no upper-case letter unless the query is an administrator
command. -/
theorem GetFingerprint_no_upper (u : Char → Char)
    (hu : ∀ c, 128 ≤ c.toNat → isUpperAscii (u c) = false) (q r : Str)
    (hadmin : ¬ ("administrator command: ".toList <+: q))
    (h : GetFingerprint u q = .ok r) : ∀ c ∈ r, isUpperAscii c = false := by
  unfold GetFingerprint at h
  rw [adminRe_of_not_begin q hadmin] at h
  split at h
  · cases h
    decide
  · split at h
    · cases h
      decide
    · rw [if_neg Bool.false_ne_true] at h
      split at h
      · cases h
        exact toLower_no_upper u hu _
      · exact finishFingerprint_no_upper _ r (beforeUnion_no_upper u hu q) h

theorem asciiOnly_no_upper : ∀ c : Char, 128 ≤ c.toNat → isUpperAscii (asciiOnly c) = false := by
  intro c h
  simp only [asciiOnly, isUpperAscii, Bool.and_eq_false_imp, decide_eq_true_eq,
    decide_eq_false_iff_not]
  omega

/-! ## Keywords spelled in any letter case -/

theorem spells_nil_right (l : Str) (h : spells l [] = true) : l = [] := by
  cases l with
  | nil => rfl
  | cons d l => cases h

theorem spells_cons_left (d : Char) (l t : Str) (h : spells (d :: l) t = true) :
    ∃ c t', t = c :: t' ∧ foldEq d c = true ∧ spells l t' = true := by
  cases t with
  | nil => cases h
  | cons c t' =>
    rw [spells, Bool.and_eq_true] at h
    exact ⟨c, t', rfl, h.1, h.2⟩

theorem spells_length : ∀ (l t : Str), spells l t = true → t.length = l.length := by
  intro l
  induction l with
  | nil =>
    intro t h
    cases t with
    | nil => rfl
    | cons c t => cases h
  | cons d l ih =>
    intro t h
    obtain ⟨c, t', rfl, _, h2⟩ := spells_cons_left d l t h
    simp [ih t' h2]

/-- The characters of a text that spells `l` are case variants of letters of `l`. -/
theorem spells_mem : ∀ (l t : Str), spells l t = true → ∀ c ∈ t, ∃ d ∈ l, foldEq d c = true := by
  intro l
  induction l with
  | nil =>
    intro t h c hc
    cases t with
    | nil => cases hc
    | cons c t => cases h
  | cons d l ih =>
    intro t h c hc
    obtain ⟨c0, t', rfl, h1, h2⟩ := spells_cons_left d l t h
    rcases List.mem_cons.mp hc with hc | hc
    · subst hc
      exact ⟨d, List.mem_cons_self d l, h1⟩
    · obtain ⟨e, he, hf⟩ := ih t' h2 c hc
      exact ⟨e, List.mem_cons_of_mem d he, hf⟩

/-- A literal under the flag `i` reads a text that spells it. -/
theorem Re.run_liti_spelled {α : Type} : ∀ (l t : Str) (prev : Option Char) (rest : Str)
    (cs : Caps) (k : Pos → Caps → Option α), spells l t = true →
    (Re.liti l).run ⟨prev, t ++ rest⟩ cs k = k ⟨lastOr prev t, rest⟩ cs := by
  intro l
  induction l with
  | nil =>
    intro t prev rest cs k h
    cases t with
    | nil => rfl
    | cons c t => cases h
  | cons d l ih =>
    intro t prev rest cs k h
    obtain ⟨c, t', rfl, h1, h2⟩ := spells_cons_left d l t h
    cases l with
    | nil =>
      have : t' = [] := by
        cases t' with
        | nil => rfl
        | cons c t => cases h2
      subst this
      show (Re.chr (foldEq d)).run ⟨prev, c :: rest⟩ cs k = _
      rw [Re.run_chr, if_pos h1]
      rfl
    | cons e l =>
      rw [Re.liti_cons_cons, Re.run_seq, List.cons_append, Re.run_chr, if_pos h1, ih t' _ _ _ _ h2]
      rfl

/-- A literal that fails on a text as long as itself fails on every longer text. -/
theorem litiFails_append : ∀ (l s m : Str), litiFails l s = true → l.length ≤ s.length →
    litiFails l (s ++ m) = true := by
  intro l
  induction l with
  | nil => intro s m h _; cases s <;> cases h
  | cons d l ih =>
    intro s m h hl
    cases s with
    | nil => simp at hl
    | cons c s =>
      rw [litiFails] at h
      rw [List.cons_append, litiFails]
      by_cases hf : foldEq d c = true
      · rw [if_pos hf] at h
        rw [if_pos hf]
        exact ih s m h (by simpa using hl)
      · rw [if_neg hf]

/-- A literal that does not fail on a text is read by the matcher's literal only there:
the contrapositive of `Re.run_liti_fail`. -/
theorem litiFails_of_run {α : Type} (l s : Str) (prev : Option Char) (cs : Caps)
    (k : Pos → Caps → Option α) (r : α) (h : (Re.liti l).run ⟨prev, s⟩ cs k = some r) :
    litiFails l s = false := by
  cases hf : litiFails l s with
  | false => rfl
  | true =>
    rw [Re.run_liti_fail l s prev cs k hf] at h
    cases h

theorem beginsInside_false (l : Str) : ∀ (x kw : Str), beginsInside l x kw = false →
    ∀ x1 x2, x = x1 ++ x2 → x2 ≠ [] → litiFails l (x2 ++ kw) = true := by
  intro x
  induction x with
  | nil =>
    intro kw _ x1 x2 hx hx2
    have := List.append_eq_nil.mp hx.symm
    exact absurd this.2 hx2
  | cons c x ih =>
    intro kw h x1 x2 hx hx2
    rw [beginsInside, Bool.or_eq_false_iff] at h
    obtain ⟨h1, h2⟩ := h
    cases x1 with
    | nil =>
      rw [List.nil_append] at hx
      rw [← hx]
      simpa using h1
    | cons a x1 =>
      rw [List.cons_append] at hx
      injection hx with _ hx
      exact ih kw h2 x1 x2 hx hx2

/-- A text that follows a prefix `A` and has the property `Q`, which no text that begins
inside `A` has, begins after `A`. -/
theorem suffix_after (Q : Str → Prop) : ∀ (A W s : Str),
    (∀ A1 A2, A = A1 ++ A2 → A2 ≠ [] → ¬ Q (A2 ++ W)) → s <:+ A ++ W → Q s → s <:+ W := by
  intro A
  induction A with
  | nil => intro W s _ hs _; exact hs
  | cons a A ih =>
    intro W s hA hs hQ
    rw [List.cons_append, List.suffix_cons_iff] at hs
    rcases hs with hs | hs
    · subst hs
      exact absurd hQ (hA [] (a :: A) rfl (by simp))
    · exact ih W s (fun A1 A2 h1 h2 => hA (a :: A1) A2 (by rw [h1]; rfl) h2) hs hQ

/-! ## Case variants of letters -/

theorem foldEq_lower (a c : Char) (h : foldEq a c = true) (hs : lowerAscii a ≠ 's')
    (hk : lowerAscii a ≠ 'k') : lowerAscii c = lowerAscii a := by
  unfold foldEq at h
  simp only [Bool.or_eq_true, Bool.and_eq_true, beq_iff_eq] at h
  rcases h with (h | h) | h
  · exact h
  · exact absurd h.1 hs
  · exact absurd h.1 hk

theorem isSpaceRe_mem (c : Char) (h : isSpaceRe c = true) :
    c ∈ ['\t', '\n', '\x0c', '\r', ' '] := by
  unfold isSpaceRe at h
  simp only [Bool.or_eq_true, beq_iff_eq] at h
  simp only [List.mem_cons, List.mem_singleton, List.not_mem_nil, or_false]
  tauto

/-- White space is no case variant of a letter of the keywords. -/
theorem foldEq_of_space (d c : Char) (hd : d ∈ "INSERTPLACGOVU".toList)
    (h : isSpaceRe c = true) : foldEq d c = false :=
  (by decide : ∀ d ∈ "INSERTPLACGOVU".toList, ∀ c ∈ ['\t', '\n', '\x0c', '\r', ' '],
    foldEq d c = false) d hd c (isSpaceRe_mem c h)

theorem isSpaceRe_of_foldEq (d c : Char) (hd : d ∈ "INSERTPLACGOVU".toList)
    (h : foldEq d c = true) : isSpaceRe c = false := by
  cases hs : isSpaceRe c with
  | false => rfl
  | true =>
    rw [foldEq_of_space d c hd hs] at h
    cases h

theorem foldEq_disjoint (a b c : Char) (ha : foldEq a c = true) (hb : foldEq b c = true)
    (has : lowerAscii a ≠ 's') (hak : lowerAscii a ≠ 'k') (hbs : lowerAscii b ≠ 's')
    (hbk : lowerAscii b ≠ 'k') : lowerAscii a = lowerAscii b :=
  (foldEq_lower a c ha has hak).symm.trans (foldEq_lower b c hb hbs hbk)

/-- A lazy repetition of a character class goes on as long as the continuation fails on
what is left of the run. -/
theorem starLoop_chr_lazy_upto {α : Type} (p : Char → Bool) : ∀ (w : Str) (n : Nat)
    (prev : Option Char) (t : Str) (cs : Caps) (k : Pos → Caps → Option α) (r : α),
    (∀ c ∈ w, p c = true) → w.length ≤ n →
    (∀ w1 w2, w = w1 ++ w2 → w2 ≠ [] → ∀ p', k ⟨p', w2 ++ t⟩ cs = none) →
    k ⟨lastOr prev w, t⟩ cs = some r →
    starLoop (fun st' cs' k' => (Re.chr p).run st' cs' k') false n ⟨prev, w ++ t⟩ cs k = some r := by
  intro w
  induction w with
  | nil =>
    intro n prev t cs k r _ _ _ hk
    cases n with
    | zero => exact hk
    | succ n =>
      rw [List.nil_append, starLoop]
      simp only [Bool.false_eq_true, if_false]
      rw [show k ⟨prev, t⟩ cs = some r from hk]
  | cons c w ih =>
    intro n prev t cs k r hw hn hfail hk
    cases n with
    | zero => simp at hn
    | succ n =>
      rw [starLoop]
      simp only [Bool.false_eq_true, if_false]
      rw [hfail [] (c :: w) rfl (by simp) prev, List.cons_append, Re.run_chr,
        if_pos (hw c (List.mem_cons_self c w))]
      simp only [List.length_cons, Nat.lt_succ_self, if_true]
      exact ih n (some c) t cs k r (fun x hx => hw x (List.mem_cons_of_mem c hx))
        (by simpa using hn)
        (fun w1 w2 h1 h2 => hfail (c :: w1) w2 (by rw [h1]; rfl) h2) hk

/-! ## The INSERT shortening on a statement of one row and on its batched forms -/

/-- The head of an INSERT or REPLACE statement, in any letter case and with any white
space before `INTO`, is read as a whole. -/
theorem insertHeadRe_run {α : Type} (verb ign ws into t : Str)
    (hverb : spells "INSERT".toList verb = true ∨ spells "REPLACE".toList verb = true)
    (hign : ign = [] ∨ spells " IGNORE".toList ign = true)
    (hws : ws ≠ []) (hwss : ∀ c ∈ ws, isSpaceRe c = true)
    (hinto : spells "INTO".toList into = true)
    (prev : Option Char) (cs : Caps) (k : Pos → Caps → Option α) (r : α)
    (hk : ∀ p, k ⟨p, t⟩ cs = some r) :
    insertHeadRe.run ⟨prev, verb ++ (ign ++ (ws ++ (into ++ t)))⟩ cs k = some r := by
  obtain ⟨i0, into1, hi, hi0, hinto1⟩ := spells_cons_left 'I' "NTO".toList into hinto
  obtain ⟨n0, into2, hn, hn0, _⟩ := spells_cons_left 'N' "TO".toList into1 hinto1
  have K3 : ∀ p, (Re.liti "INTO".toList).run ⟨p, into ++ t⟩ cs k = some r := by
    intro p
    rw [Re.run_liti_spelled _ _ _ _ _ _ hinto]
    exact hk _
  have K2 : ∀ p, (Re.seq (Re.plus true (.chr isSpaceRe)) (Re.liti "INTO".toList)).run
      ⟨p, ws ++ (into ++ t)⟩ cs k = some r := by
    intro p
    cases ws with
    | nil => exact absurd rfl hws
    | cons w0 ws1 =>
      unfold Re.plus
      rw [Re.run_seq, Re.run_seq, List.cons_append, Re.run_chr,
        if_pos (hwss w0 (List.mem_cons_self w0 ws1)), Re.run_star]
      apply starLoop_chr_greedy_run isSpaceRe ws1 _ _ _ cs _ r
        (fun c hc => hwss c (List.mem_cons_of_mem w0 hc)) (by simp) (K3 _)
      intro c t' h
      rw [hi, List.cons_append] at h
      injection h with h _
      rw [← h]
      exact isSpaceRe_of_foldEq 'I' i0 (by decide) hi0
  have hnoig : litiFails " IGNORE".toList (ws ++ (into ++ t)) = true := by
    cases ws with
    | nil => exact absurd rfl hws
    | cons w0 ws1 =>
      show litiFails (' ' :: "IGNORE".toList) (w0 :: (ws1 ++ (into ++ t))) = true
      rw [litiFails]
      split
      · cases ws1 with
        | nil =>
          rw [hi, hn]
          show litiFails ('I' :: 'G' :: "NORE".toList) (i0 :: n0 :: (into2 ++ t)) = true
          rw [litiFails, if_pos hi0, litiFails]
          have hg : ¬ foldEq 'G' n0 = true := fun hg =>
            absurd (foldEq_disjoint 'G' 'N' n0 hg hn0 (by decide) (by decide) (by decide)
              (by decide)) (by decide)
          rw [if_neg hg]
        | cons w1 ws2 =>
          show litiFails ('I' :: "GNORE".toList) (w1 :: (ws2 ++ (into ++ t))) = true
          rw [litiFails]
          have hw1 : ¬ foldEq 'I' w1 = true := by
            rw [foldEq_of_space 'I' w1 (by decide)
              (hwss w1 (List.mem_cons_of_mem w0 (List.mem_cons_self w1 ws2)))]
            exact Bool.false_ne_true
          rw [if_neg hw1]
      · rfl
  have K1 : ∀ p, (Re.seq (Re.opt (Re.liti " IGNORE".toList))
      (Re.seq (Re.plus true (.chr isSpaceRe)) (Re.liti "INTO".toList))).run
      ⟨p, ign ++ (ws ++ (into ++ t))⟩ cs k = some r := by
    intro p
    unfold Re.opt
    rw [Re.run_seq]
    rcases hign with hign | hign
    · subst hign
      rw [List.nil_append, Re.run_alt_none _ _ _ _ _ (Re.run_liti_fail _ _ _ _ _ hnoig),
        Re.run_eps]
      exact K2 p
    · apply Re.run_alt_some
      rw [Re.run_liti_spelled _ _ _ _ _ _ hign]
      exact K2 _
  unfold insertHeadRe
  simp only [Re.cat]
  rw [Re.run_seq]
  rcases hverb with hverb | hverb
  · apply Re.run_alt_some
    rw [Re.run_liti_spelled _ _ _ _ _ _ hverb]
    exact K1 _
  · obtain ⟨v0, verb1, hv, hv0, _⟩ := spells_cons_left 'R' "EPLACE".toList verb hverb
    have hnoins : litiFails "INSERT".toList (verb ++ (ign ++ (ws ++ (into ++ t)))) = true := by
      rw [hv]
      show litiFails ('I' :: "NSERT".toList) (v0 :: (verb1 ++ _)) = true
      rw [litiFails]
      have hr : ¬ foldEq 'I' v0 = true := fun hg =>
        absurd (foldEq_disjoint 'I' 'R' v0 hg hv0 (by decide) (by decide) (by decide)
          (by decide)) (by decide)
      rw [if_neg hr]
    rw [Re.run_alt_none _ _ _ _ _ (Re.run_liti_fail _ _ _ _ _ hnoins),
      Re.run_liti_spelled _ _ _ _ _ _ hverb]
    exact K1 _

/-- The pattern of the first row reads a statement of one row as a whole. -/
theorem insertBody_run {α : Type} (verb ign ws into x kw s0 y tail : Str)
    (hverb : spells "INSERT".toList verb = true ∨ spells "REPLACE".toList verb = true)
    (hign : ign = [] ∨ spells " IGNORE".toList ign = true)
    (hws : ws ≠ []) (hwss : ∀ c ∈ ws, isSpaceRe c = true)
    (hinto : spells "INTO".toList into = true)
    (hx : x ≠ []) (hxd : ∀ c ∈ x, isDot c = true)
    (hxv : beginsInside "VALUES".toList x kw = false)
    (hkw : spells "VALUES".toList kw = true)
    (h0 : ∀ c ∈ s0, isSpaceRe c = true)
    (hyd : ∀ c ∈ y, isDot c = true) (hyp : ∀ c ∈ y, (c == ')') = false)
    (prev : Option Char) (cs : Caps) (k : Pos → Caps → Option α) (r : α)
    (hk : k ⟨some ')', tail⟩ cs = some r) :
    (Re.cat [insertHeadRe, Re.plus false (.chr isDot), Re.liti "VALUES".toList,
        .star true (.chr isSpaceRe), Re.lit "(".toList, .star false (.chr isDot),
        Re.lit ")".toList]).run
      ⟨prev, insertOneRow verb ign ws into x kw s0 y ++ tail⟩ cs k = some r := by
  cases x with
  | nil => exact absurd rfl hx
  | cons x0 xs =>
    have e : insertOneRow verb ign ws into (x0 :: xs) kw s0 y ++ tail
        = verb ++ (ign ++ (ws ++ (into ++ (x0 :: (xs ++ (kw ++ (s0 ++ ("(".toList ++ (y ++
            (")".toList ++ tail)))))))))) := by
      simp [insertOneRow]
    rw [e]
    simp only [Re.cat]
    rw [Re.run_seq]
    apply insertHeadRe_run verb ign ws into _ hverb hign hws hwss hinto
    intro p
    unfold Re.plus
    rw [Re.run_seq, Re.run_seq, Re.run_chr, if_pos (hxd x0 (List.mem_cons_self x0 xs)),
      Re.run_star]
    apply starLoop_chr_lazy_upto isDot xs _ _ _ cs _ r
      (fun c hc => hxd c (List.mem_cons_of_mem x0 hc)) (by simp)
    · intro w1 w2 hw hw2 p'
      rw [Re.run_seq]
      apply Re.run_liti_fail
      have h1 := beginsInside_false "VALUES".toList (x0 :: xs) kw hxv (x0 :: w1) w2
        (by rw [hw]; rfl) hw2
      have h2 := litiFails_append _ _ (s0 ++ ("(".toList ++ (y ++ (")".toList ++ tail)))) h1 (by
        rw [List.length_append, spells_length _ _ hkw]
        exact Nat.le_add_left _ _)
      rw [List.append_assoc] at h2
      exact h2
    · rw [Re.run_seq, Re.run_liti_spelled _ _ _ _ _ _ hkw, Re.run_seq, Re.run_star]
      apply starLoop_chr_greedy_run isSpaceRe s0 _ _ _ cs _ r h0 (by simp)
      · rw [Re.run_seq, Re.run_lit, Re.run_seq, Re.run_star]
        apply starLoop_chr_lazy_run isDot y _ _ _ cs _ r hyd (by simp)
        · intro c hc p' t'
          exact Re.run_lit_none ')' [] p' c t' cs k (hyp c hc)
        · rw [Re.run_lit]
          exact hk
      · intro c t' h
        cases h
        decide

/-- The INSERT shortening of a batched statement is the statement of its first row. -/
theorem shortenInsert_batched (verb ign ws into x kw s0 y s1 s2 rest : Str)
    (hverb : spells "INSERT".toList verb = true ∨ spells "REPLACE".toList verb = true)
    (hign : ign = [] ∨ spells " IGNORE".toList ign = true)
    (hws : ws ≠ []) (hwss : ∀ c ∈ ws, isSpaceRe c = true)
    (hinto : spells "INTO".toList into = true)
    (hx : x ≠ []) (hxd : ∀ c ∈ x, isDot c = true)
    (hxv : beginsInside "VALUES".toList x kw = false)
    (hkw : spells "VALUES".toList kw = true)
    (h0 : ∀ c ∈ s0, isSpaceRe c = true)
    (hyd : ∀ c ∈ y, isDot c = true) (hyp : ∀ c ∈ y, (c == ')') = false)
    (h1 : ∀ c ∈ s1, isSpaceRe c = true) (h2 : ∀ c ∈ s2, isSpaceRe c = true) :
    shortenInsert (insertOneRow verb ign ws into x kw s0 y ++ (s1 ++ ',' :: (s2 ++ '(' :: rest)))
      = insertOneRow verb ign ws into x kw s0 y := by
  have hm : insertRe.matchAt
      ⟨none, insertOneRow verb ign ws into x kw s0 y ++ (s1 ++ ',' :: (s2 ++ '(' :: rest))⟩
      = some (⟨some '(', rest⟩, [(1, insertOneRow verb ign ws into x kw s0 y)]) := by
    unfold Re.matchAt insertRe
    rw [Re.run_seq, Re.run_group]
    apply insertBody_run verb ign ws into x kw s0 y _ hverb hign hws hwss hinto hx hxd hxv hkw
      h0 hyd hyp
    apply nextRowRe_run _ s1 s2 rest _ _ _ h1 h2
    simp
  have ht : insertRe.tryAt none
      (insertOneRow verb ign ws into x kw s0 y ++ (s1 ++ ',' :: (s2 ++ '(' :: rest)))
      = some (⟨[], (insertOneRow verb ign ws into x kw s0 y
            ++ (s1 ++ ',' :: (s2 ++ '(' :: rest))).take
          ((insertOneRow verb ign ws into x kw s0 y
            ++ (s1 ++ ',' :: (s2 ++ '(' :: rest))).length - rest.length),
          [(1, insertOneRow verb ign ws into x kw s0 y)]⟩, ⟨some '(', rest⟩) := by
    unfold Re.tryAt
    rw [hm]
    simp only
    rw [if_pos (by simp; omega)]
  unfold shortenInsert Re.FindStringSubmatch
  rw [Re.find_of_tryAt_some _ _ _ _ ht]
  rfl

theorem lowerAscii_of_big (c : Char) (h : 128 ≤ c.toNat) : lowerAscii c = c := by
  apply lowerAscii_of_not_upper
  simp only [isUpperAscii, Bool.and_eq_false_imp, decide_eq_true_eq, decide_eq_false_iff_not]
  omega

/-- A case variant of a letter of the head is no case variant of `V`. -/
theorem foldEq_V_of (d c : Char) (hd : d ∈ " INSERTPLACGO".toList) (h : foldEq d c = true) :
    foldEq 'V' c = false := by
  cases hv : foldEq 'V' c with
  | false => rfl
  | true =>
    exfalso
    have hc := foldEq_lower 'V' c hv (by decide) (by decide)
    unfold foldEq at h
    simp only [Bool.or_eq_true, Bool.and_eq_true, beq_iff_eq] at h
    have hbig : 128 ≤ c.toNat → False := by
      intro hb
      rw [lowerAscii_of_big c hb] at hc
      rw [hc] at hb
      exact absurd hb (by decide)
    rcases h with (h | h) | h
    · rw [hc] at h
      exact absurd h.symm
        ((by decide : ∀ d ∈ " INSERTPLACGO".toList, lowerAscii d ≠ lowerAscii 'V') d hd)
    · exact hbig (by rw [h.2]; decide)
    · exact hbig (by rw [h.2]; decide)

theorem litiFails_head (d : Char) (l : Str) (c : Char) (s : Str) (h : foldEq d c = false) :
    litiFails (d :: l) (c :: s) = true := by
  rw [litiFails, if_neg (by simp [h])]

/-- The keyword `VALUES` does not begin inside a text whose characters are no case
variants of `V`. -/
theorem values_not_inside (A W : Str) (hA : ∀ c ∈ A, foldEq 'V' c = false) :
    ∀ A1 A2, A = A1 ++ A2 → A2 ≠ [] → ¬ litiFails "VALUES".toList (A2 ++ W) = false := by
  intro A1 A2 h h2
  cases A2 with
  | nil => exact absurd rfl h2
  | cons c A2 =>
    have hc : c ∈ A := by
      rw [h]
      exact List.mem_append_right _ (List.mem_cons_self c A2)
    rw [List.cons_append, show "VALUES".toList = 'V' :: "ALUES".toList from rfl,
      litiFails_head 'V' _ c _ (hA c hc)]
    exact Bool.noConfusion

/-- The pattern of a batched INSERT matches nowhere in a statement of one row. -/
theorem insertRe_matchAt_none (verb ign ws into x kw s0 y : Str)
    (hverb : spells "INSERT".toList verb = true ∨ spells "REPLACE".toList verb = true)
    (hign : ign = [] ∨ spells " IGNORE".toList ign = true)
    (hwss : ∀ c ∈ ws, isSpaceRe c = true)
    (hinto : spells "INTO".toList into = true)
    (hxv : beginsInside "VALUES".toList x kw = false)
    (hkw : spells "VALUES".toList kw = true)
    (h0 : ∀ c ∈ s0, isSpaceRe c = true) (hyp : ∀ c ∈ y, (c == ')') = false)
    (st : Pos) (hst : st.rest <:+ insertOneRow verb ign ws into x kw s0 y) :
    insertRe.matchAt st = none := by
  cases hm : insertRe.matchAt st with
  | none => rfl
  | some r =>
    exfalso
    unfold Re.matchAt insertRe at hm
    simp only [Re.cat] at hm
    rw [Re.run_seq, Re.run_group, Re.run_seq] at hm
    obtain ⟨st1, cs1, hs1, hm⟩ := Re.run_some _ _ _ _ _ hm
    rw [Re.run_seq] at hm
    obtain ⟨st2, cs2, hs2, hm⟩ := Re.run_some _ _ _ _ _ hm
    rw [Re.run_seq] at hm
    have hV := litiFails_of_run _ _ _ _ _ _ hm
    obtain ⟨st3, cs3, hr3, hl3, hm⟩ := Re.run_reach _ _ _ _ _ hm
    have hmin : (Re.liti "VALUES".toList).minLen = 6 := rfl
    rw [hmin] at hl3
    rw [Re.run_seq] at hm
    obtain ⟨st4, cs4, hs4, hm⟩ := Re.run_some _ _ _ _ _ hm
    rw [Re.run_seq] at hm
    obtain ⟨st5, cs5, hs5, hm⟩ := Re.run_some _ _ _ _ _ hm
    rw [Re.run_seq] at hm
    obtain ⟨st6, cs6, hs6, hm⟩ := Re.run_some _ _ _ _ _ hm
    -- the keyword is read at its own place or later
    have hverbV : ∀ c ∈ verb, foldEq 'V' c = false := by
      intro c hc
      rcases hverb with h | h
      · obtain ⟨d, hd, hf⟩ := spells_mem _ _ h c hc
        exact foldEq_V_of d c ((by decide : ∀ d ∈ "INSERT".toList,
          d ∈ " INSERTPLACGO".toList) d hd) hf
      · obtain ⟨d, hd, hf⟩ := spells_mem _ _ h c hc
        exact foldEq_V_of d c ((by decide : ∀ d ∈ "REPLACE".toList,
          d ∈ " INSERTPLACGO".toList) d hd) hf
    have hignV : ∀ c ∈ ign, foldEq 'V' c = false := by
      intro c hc
      rcases hign with h | h
      · rw [h] at hc
        cases hc
      · obtain ⟨d, hd, hf⟩ := spells_mem _ _ h c hc
        exact foldEq_V_of d c ((by decide : ∀ d ∈ " IGNORE".toList,
          d ∈ " INSERTPLACGO".toList) d hd) hf
    have hwsV : ∀ c ∈ ws, foldEq 'V' c = false :=
      fun c hc => foldEq_of_space 'V' c (by decide) (hwss c hc)
    have hintoV : ∀ c ∈ into, foldEq 'V' c = false := by
      intro c hc
      obtain ⟨d, hd, hf⟩ := spells_mem _ _ hinto c hc
      exact foldEq_V_of d c ((by decide : ∀ d ∈ "INTO".toList,
        d ∈ " INSERTPLACGO".toList) d hd) hf
    have hB : st2.rest <:+ verb ++ (ign ++ (ws ++ (into ++ (x ++ (kw ++ (s0 ++ '(' ::
        (y ++ [')']))))))) := (hs2.trans hs1).trans hst
    have hQ := fun (A W : Str) (hA : ∀ c ∈ A, foldEq 'V' c = false)
        (h : st2.rest <:+ A ++ W) =>
      suffix_after (fun s => litiFails "VALUES".toList s = false) A W st2.rest
        (values_not_inside A W hA) h hV
    have h1 := hQ _ _ hintoV (hQ _ _ hwsV (hQ _ _ hignV (hQ _ _ hverbV hB)))
    have h2 : st2.rest <:+ kw ++ (s0 ++ '(' :: (y ++ [')'])) :=
      suffix_after (fun s => litiFails "VALUES".toList s = false) x _ st2.rest
        (fun A1 A2 hA hA2 => by
          have hf := beginsInside_false "VALUES".toList x kw hxv A1 A2 hA hA2
          have hg := litiFails_append _ _ (s0 ++ '(' :: (y ++ [')'])) hf (by
            rw [List.length_append, spells_length _ _ hkw]
            exact Nat.le_add_left _ _)
          rw [List.append_assoc] at hg
          simp only [hg]
          exact Bool.noConfusion) h1 hV
    -- what follows the keyword holds one closing parenthesis, the last character
    have hlen : st3.rest.length ≤ (s0 ++ '(' :: (y ++ [')'])).length := by
      have := h2.length_le
      rw [List.length_append, spells_length _ _ hkw] at this
      have h6 : "VALUES".toList.length = 6 := rfl
      omega
    have h3 : st3.rest <:+ s0 ++ '(' :: (y ++ [')']) :=
      List.suffix_of_suffix_length_le (hr3.1.trans h2) (List.suffix_append _ _) hlen
    have h6 : st6.rest <:+ (s0 ++ '(' :: y) ++ [')'] := by
      have := ((hs6.trans hs5).trans hs4).trans h3
      simpa using this
    have hZ : ∀ c ∈ s0 ++ '(' :: y, c ≠ ')' := by
      intro c hc hcp
      subst hcp
      rcases List.mem_append.mp hc with h | h
      · exact absurd (h0 _ h) (by decide)
      · rcases List.mem_cons.mp h with h | h
        · exact absurd h (by decide)
        · exact absurd (hyp _ h) (by decide)
    obtain ⟨p6, r6⟩ := st6
    cases r6 with
    | nil =>
      simp [Re.lit, Re.run] at hm
    | cons c6 t6 =>
      by_cases hc : (c6 == ')') = true
      · have hc' : c6 = ')' := by simpa using hc
        subst hc'
        have ht6 := suffix_at_last _ ')' t6 hZ h6
        subst ht6
        rw [show [')'] = ")".toList ++ [] from rfl, Re.run_lit,
          Re.run_none_of_needs _ nextRowRe nextRowRe_needs_comma _ _ _
            (fun c hc => by cases hc)] at hm
        cases hm
      · have hn : ∀ k : Pos → Caps → Option (Pos × Caps),
            (Re.lit ")".toList).run ⟨p6, c6 :: t6⟩ cs6 k = none :=
          fun k => Re.run_lit_none ')' [] p6 c6 t6 cs6 k (by simpa using hc)
        rw [hn] at hm
        cases hm

/-- The INSERT shortening leaves a statement of one row as it is. -/
theorem shortenInsert_one_row (verb ign ws into x kw s0 y : Str)
    (hverb : spells "INSERT".toList verb = true ∨ spells "REPLACE".toList verb = true)
    (hign : ign = [] ∨ spells " IGNORE".toList ign = true)
    (hwss : ∀ c ∈ ws, isSpaceRe c = true)
    (hinto : spells "INTO".toList into = true)
    (hxv : beginsInside "VALUES".toList x kw = false)
    (hkw : spells "VALUES".toList kw = true)
    (h0 : ∀ c ∈ s0, isSpaceRe c = true) (hyp : ∀ c ∈ y, (c == ')') = false) :
    shortenInsert (insertOneRow verb ign ws into x kw s0 y)
      = insertOneRow verb ign ws into x kw s0 y := by
  unfold shortenInsert
  rw [Re.FindStringSubmatch_of_find_none _ _ (Re.find_none_of_matchAt_none _ _ _
    (fun st hs => insertRe_matchAt_none verb ign ws into x kw s0 y hverb hign hwss hinto hxv
      hkw h0 hyp st hs))]

/-- The first character of the verb of an INSERT statement. -/
theorem verb_first (v0 : Char) (h : foldEq 'I' v0 = true ∨ foldEq 'R' v0 = true) :
    v0 ≠ 'S' ∧ v0 ≠ 'a' ∧ (v0 == 'c') = false ∧ isSpaceRe v0 = false := by
  refine ⟨?_, ?_, ?_, ?_⟩
  · rintro rfl
    revert h
    decide
  · rintro rfl
    revert h
    decide
  · cases hc : v0 == 'c' with
    | false => rfl
    | true =>
      have : v0 = 'c' := by simpa using hc
      subst this
      revert h
      decide
  · rcases h with h | h
    · exact isSpaceRe_of_foldEq 'I' v0 (by decide) h
    · exact isSpaceRe_of_foldEq 'R' v0 (by decide) h

/-- A text that begins with the verb of an INSERT statement is no special case, unless it
holds a marker of Percona Toolkit. -/
theorem isSpecial_of_verb (verb t : Str)
    (hverb : spells "INSERT".toList verb = true ∨ spells "REPLACE".toList verb = true)
    (hp : perconaRe.MatchString (verb ++ t) = false) : isSpecial (verb ++ t) = false := by
  have hv : ∃ v0 verb1, verb = v0 :: verb1
      ∧ (foldEq 'I' v0 = true ∨ foldEq 'R' v0 = true) := by
    rcases hverb with h | h
    · obtain ⟨v0, verb1, hv, hv0, _⟩ := spells_cons_left 'I' "NSERT".toList verb h
      exact ⟨v0, verb1, hv, Or.inl hv0⟩
    · obtain ⟨v0, verb1, hv, hv0, _⟩ := spells_cons_left 'R' "EPLACE".toList verb h
      exact ⟨v0, verb1, hv, Or.inr hv0⟩
  obtain ⟨v0, verb1, hv, hv0⟩ := hv
  obtain ⟨hS, ha, hc, hsp⟩ := verb_first v0 hv0
  subst hv
  have h1 : mysqldumpRe.MatchString (v0 :: verb1 ++ t) = false := by
    apply mysqldumpRe_of_not_begin
    rintro ⟨u, hu⟩
    have hu' : 'S' :: ("ELECT /*!40001 SQL_NO_CACHE */ * FROM ".toList ++ u)
        = v0 :: (verb1 ++ t) := hu
    injection hu' with hu' _
    exact hS hu'.symm
  have h3 : adminRe.MatchString (v0 :: verb1 ++ t) = false := by
    apply adminRe_of_not_begin
    rintro ⟨u, hu⟩
    have hu' : 'a' :: ("dministrator command: ".toList ++ u) = v0 :: (verb1 ++ t) := hu
    injection hu' with hu' _
    exact ha hu'.symm
  have h4 : callRe.FindStringSubmatch (v0 :: verb1 ++ t) = none := by
    apply Re.FindStringSubmatch_of_find_none
    unfold callRe
    simp only [Re.cat]
    rw [Re.find_bot]
    apply Re.tryAt_of_matchAt_none
    unfold Re.matchAt
    rw [Re.run_seq_bot, Re.run_seq, Re.run_star, List.cons_append,
      starLoop_chr_stop isSpaceRe true _ _ _ _ _ (fun c t' h => by
        injection h with h _
        rw [← h]
        exact hsp),
      Re.run_seq, Re.run_group, Re.run_seq]
    exact Re.run_lit_none 'c' "all".toList none v0 _ _ _ hc
  unfold isSpecial
  rw [h1, hp, h3, h4]
  rfl

/-- A batched INSERT and the statement of its first row have the same fingerprint, when
neither holds a marker of Percona Toolkit. -/
theorem GetFingerprint_batched (u : Char → Char)
    (verb ign ws into x kw s0 y s1 s2 rest : Str)
    (hverb : spells "INSERT".toList verb = true ∨ spells "REPLACE".toList verb = true)
    (hign : ign = [] ∨ spells " IGNORE".toList ign = true)
    (hws : ws ≠ []) (hwss : ∀ c ∈ ws, isSpaceRe c = true)
    (hinto : spells "INTO".toList into = true)
    (hx : x ≠ []) (hxd : ∀ c ∈ x, isDot c = true)
    (hxv : beginsInside "VALUES".toList x kw = false)
    (hkw : spells "VALUES".toList kw = true)
    (h0 : ∀ c ∈ s0, isSpaceRe c = true)
    (hyd : ∀ c ∈ y, isDot c = true) (hyp : ∀ c ∈ y, (c == ')') = false)
    (h1 : ∀ c ∈ s1, isSpaceRe c = true) (h2 : ∀ c ∈ s2, isSpaceRe c = true)
    (hq : perconaRe.MatchString
      (insertOneRow verb ign ws into x kw s0 y ++ (s1 ++ ',' :: (s2 ++ '(' :: rest))) = false)
    (hb : perconaRe.MatchString (insertOneRow verb ign ws into x kw s0 y) = false) :
    GetFingerprint u (insertOneRow verb ign ws into x kw s0 y
        ++ (s1 ++ ',' :: (s2 ++ '(' :: rest)))
      = GetFingerprint u (insertOneRow verb ign ws into x kw s0 y) := by
  have eq : insertOneRow verb ign ws into x kw s0 y ++ (s1 ++ ',' :: (s2 ++ '(' :: rest))
      = verb ++ ((ign ++ (ws ++ (into ++ (x ++ (kw ++ (s0 ++ '(' :: (y ++ [')'])))))))
        ++ (s1 ++ ',' :: (s2 ++ '(' :: rest))) := by
    simp [insertOneRow]
  have eb : insertOneRow verb ign ws into x kw s0 y
      = verb ++ (ign ++ (ws ++ (into ++ (x ++ (kw ++ (s0 ++ '(' :: (y ++ [')']))))))) := rfl
  have sq : isSpecial (insertOneRow verb ign ws into x kw s0 y
      ++ (s1 ++ ',' :: (s2 ++ '(' :: rest))) = false := by
    rw [eq] at hq ⊢
    exact isSpecial_of_verb verb _ hverb hq
  have sb : isSpecial (insertOneRow verb ign ws into x kw s0 y) = false := by
    rw [eb] at hb ⊢
    exact isSpecial_of_verb verb _ hverb hb
  rw [GetFingerprint_of_not_special u _ sq, GetFingerprint_of_not_special u _ sb]
  unfold maskLiterals stripText
  rw [shortenInsert_batched verb ign ws into x kw s0 y s1 s2 rest hverb hign hws hwss hinto hx
      hxd hxv hkw h0 hyd hyp h1 h2,
    shortenInsert_one_row verb ign ws into x kw s0 y hverb hign hwss hinto hxv hkw h0 hyp]
/-! ## The claims -/

set_option maxRecDepth 100000 in
/-- C1: on the query `SELECT a FROM t UNION SELECT b FROM t` the call of `GetFingerprint`
does not return a fingerprint: in `collapseUnion`, at the sentinel node (`i = 2`,
`start = 1`), `separators[i-1]` is read at index 1 of a slice of length 1. -/
theorem C1_getFingerprint_panics_on_distinct_union :
    GetFingerprint asciiOnly "SELECT a FROM t UNION SELECT b FROM t".toList
      = .error (.indexOutOfRange 1 1) := by
  decide!

set_option maxRecDepth 100000 in
/-- C2: the query `select a from t union select b from t` splits into two distinct
branches, and `collapseUnion` does not give it back: the run ends in an index out of
range on the separator list. -/
theorem C2_collapseUnion_panics_on_distinct_branches :
    unionRegexp.Split "select a from t union select b from t".toList
        = ["select a from t".toList, "select b from t".toList]
      ∧ collapseUnion "select a from t union select b from t".toList
        = .error (.indexOutOfRange 1 1) := by
  decide!

set_option maxRecDepth 100000 in
/-- C4: the pattern for stored-procedure calls is case-sensitive, so the upper-case
`CALL my_proc(1,2,3)` is not recognised and runs through the whole pipeline, while the
lower-case spelling gives `call my_proc`. -/
theorem C4_uppercase_call_keeps_arguments :
    GetFingerprint asciiOnly "CALL my_proc(1,2,3)".toList = .ok "call my_proc(?,?,?)".toList
      ∧ GetFingerprint asciiOnly "call my_proc(1,2,3)".toList = .ok "call my_proc".toList := by
  decide!

/-- C5 (as amended): a query that begins with `administrator command: ` and carries no
Percona Toolkit marker is returned unchanged. -/
theorem C5_admin_passthrough (unicodeLower : Char → Char) (query : Str)
    (hbegin : "administrator command: ".toList <+: query)
    (hmarker : perconaRe.MatchString query = false) :
    GetFingerprint unicodeLower query = .ok query := by
  obtain ⟨x, rfl⟩ := hbegin
  unfold GetFingerprint
  rw [mysqldumpRe_admin, hmarker, adminRe_prefix]
  rfl

set_option maxRecDepth 100000 in
theorem C5_admin_passthrough_witness :
    GetFingerprint asciiOnly "administrator command: Ping".toList
      = .ok "administrator command: Ping".toList :=
  C5_admin_passthrough asciiOnly "administrator command: Ping".toList ⟨"Ping".toList, rfl⟩
    (by decide!)

set_option maxRecDepth 100000 in
/-- C5: a query that begins with `administrator command: ` and goes on with a Percona
Toolkit marker is not returned unchanged: the marker is tested first. -/
theorem C5_admin_with_marker_is_percona :
    "administrator command: ".toList <+: "administrator command: /*a.b:1/2*/".toList
      ∧ GetFingerprint asciiOnly "administrator command: /*a.b:1/2*/".toList
        = .ok "percona-toolkit".toList
      ∧ GetFingerprint asciiOnly "administrator command: /*a.b:1/2*/".toList
        ≠ .ok "administrator command: /*a.b:1/2*/".toList :=
  ⟨⟨"/*a.b:1/2*/".toList, rfl⟩, by decide!, by decide!⟩

/-- C8: for all unsigned decimal integer literals `n` and `m`, the queries
`SELECT * FROM t WHERE id=n` and `SELECT * FROM t WHERE id=m` have the same fingerprint,
`select * from t where id=?`. -/
theorem C8_literal_invariance (unicodeLower : Char → Char) (n m : Str)
    (hn : n ≠ []) (hnd : ∀ c ∈ n, isDigit c = true)
    (hm : m ≠ []) (hmd : ∀ c ∈ m, isDigit c = true) :
    GetFingerprint unicodeLower ("SELECT * FROM t WHERE id=".toList ++ n)
        = GetFingerprint unicodeLower ("SELECT * FROM t WHERE id=".toList ++ m)
      ∧ GetFingerprint unicodeLower ("SELECT * FROM t WHERE id=".toList ++ m)
        = .ok "select * from t where id=?".toList :=
  ⟨(GetFingerprint_selectById unicodeLower n hn hnd).trans
      (GetFingerprint_selectById unicodeLower m hm hmd).symm,
    GetFingerprint_selectById unicodeLower m hm hmd⟩

theorem C8_literal_invariance_witness :
    GetFingerprint asciiOnly ("SELECT * FROM t WHERE id=".toList ++ "1".toList)
        = GetFingerprint asciiOnly ("SELECT * FROM t WHERE id=".toList ++ "999".toList)
      ∧ GetFingerprint asciiOnly ("SELECT * FROM t WHERE id=".toList ++ "999".toList)
        = .ok "select * from t where id=?".toList :=
  C8_literal_invariance asciiOnly "1".toList "999".toList (by decide) (by decide) (by decide)
    (by decide)

/-- C9: for every non-empty list of unsigned decimal integer literals, the query
`SELECT * FROM t WHERE id IN (` followed by the literals joined by `,` and by `)` has the
fingerprint `select * from t where id in(?+)`, whatever the length of the list. -/
theorem C9_in_list_arity (unicodeLower : Char → Char) (lits : List Str) (hne : lits ≠ [])
    (hl : ∀ l ∈ lits, l ≠ [] ∧ ∀ c ∈ l, isDigit c = true) :
    GetFingerprint unicodeLower
        ("SELECT * FROM t WHERE id IN (".toList ++ (List.intercalate ",".toList lits ++ ")".toList))
      = .ok "select * from t where id in(?+)".toList := by
  have h := GetFingerprint_selectIn unicodeLower lits hne hl
  rw [← intercalate_comma] at h
  exact h

theorem C9_in_list_arity_witness :
    GetFingerprint asciiOnly
        ("SELECT * FROM t WHERE id IN (".toList
          ++ (List.intercalate ",".toList ["1".toList, "22".toList, "333".toList] ++ ")".toList))
      = .ok "select * from t where id in(?+)".toList :=
  C9_in_list_arity asciiOnly ["1".toList, "22".toList, "333".toList] (by decide) (by decide)

/-- C3 (as amended): when a query splits into two or more branches that are all equal to
one text `a`, and `a` is not the sentinel text, `collapseUnion` returns `a` followed by
the one annotation ` /*repeat<sep>*/` and nothing else, `<sep>` being the last separator
of the query (the one before the last branch). -/
theorem C3_identical_branches (query a : Str)
    (hlen : 2 ≤ (unionRegexp.Split query).length)
    (hall : ∀ b ∈ unionRegexp.Split query, b = a)
    (ha : a ≠ sentinel) :
    ∃ sep, (unionRegexp.FindAllString query).getLast? = some sep
      ∧ collapseUnion query = .ok (a ++ (" /*repeat".toList ++ (sep ++ "*/".toList))) :=
  collapseUnion_identical query a hlen hall ha

set_option maxRecDepth 100000 in
theorem C3_identical_branches_witness :
    ∃ sep, (unionRegexp.FindAllString
          "select a from t union select a from t union all select a from t".toList).getLast?
        = some sep
      ∧ collapseUnion "select a from t union select a from t union all select a from t".toList
        = .ok ("select a from t".toList ++ (" /*repeat".toList ++ (sep ++ "*/".toList))) :=
  C3_identical_branches "select a from t union select a from t union all select a from t".toList
    "select a from t".toList (by decide!) (by decide!) (by decide!)

set_option maxRecDepth 100000 in
/-- C3: the query `/*Sentinel Node*/ union /*Sentinel Node*/` splits into two identical
branches, and `collapseUnion` returns the first branch with no annotation at all. -/
theorem C3_sentinel_branches_not_annotated :
    unionRegexp.Split "/*Sentinel Node*/ union /*Sentinel Node*/".toList
        = ["/*Sentinel Node*/".toList, "/*Sentinel Node*/".toList]
      ∧ unionRegexp.FindAllString "/*Sentinel Node*/ union /*Sentinel Node*/".toList
        = [" union ".toList]
      ∧ collapseUnion "/*Sentinel Node*/ union /*Sentinel Node*/".toList
        = .ok "/*Sentinel Node*/".toList := by
  decide!

set_option maxRecDepth 100000 in
/-- C7: `use db` and `use  db` differ by white space outside any literal or comment, and
their fingerprints differ: the pattern of the USE statement asks for one space. -/
theorem C7_use_statement_depends_on_space :
    GetFingerprint asciiOnly ("use".toList ++ " ".toList ++ "db".toList) = .ok "use ?".toList
      ∧ GetFingerprint asciiOnly ("use".toList ++ "  ".toList ++ "db".toList)
        = .ok "use db".toList := by
  decide!

set_option maxRecDepth 100000 in
/-- C6: `SELECT TRUE` and `select true`, and `SELECT 0xFF` and `select 0xff`, are equal up
to letter case and are no special cases, yet their fingerprints differ: the boolean and
number masks run before the lower-casing and know the lower-case spellings only. -/
theorem C6_upper_case_literals_not_masked :
    CaseEq "SELECT TRUE".toList "select true".toList
      ∧ GetFingerprint asciiOnly "SELECT TRUE".toList = .ok "select true".toList
      ∧ GetFingerprint asciiOnly "select true".toList = .ok "select ?".toList
      ∧ CaseEq "SELECT 0xFF".toList "select 0xff".toList
      ∧ GetFingerprint asciiOnly "SELECT 0xFF".toList = .ok "select ?ff".toList
      ∧ GetFingerprint asciiOnly "select 0xff".toList = .ok "select ?".toList := by
  decide!

/-- C10 (as amended): take a statement of one row, `verb ign ws INTO x VALUES s0 (y)`:
the verb `INSERT` or `REPLACE`, then nothing or ` IGNORE`, white space, `INTO` and
`VALUES`, each keyword in any letter case; the text `x` is not empty, has no line feed and
the keyword `VALUES` begins nowhere inside it; the row `y` has neither a line feed nor a
closing parenthesis. Every text that goes on after the row with white space, a comma, white
space and an opening parenthesis (further rows, and whatever follows them) has the
fingerprint of the statement of one row: all that follows the first row is dropped. Neither
text holds a marker of Percona Toolkit. -/
theorem C10_batched_insert_keeps_first_row_only (unicodeLower : Char → Char)
    (verb ign ws into x kw s0 y s1 s2 rest : Str)
    (hverb : spells "INSERT".toList verb = true ∨ spells "REPLACE".toList verb = true)
    (hign : ign = [] ∨ spells " IGNORE".toList ign = true)
    (hws : ws ≠ []) (hwss : ∀ c ∈ ws, isSpaceRe c = true)
    (hinto : spells "INTO".toList into = true)
    (hx : x ≠ []) (hxd : ∀ c ∈ x, isDot c = true)
    (hxv : beginsInside "VALUES".toList x kw = false)
    (hkw : spells "VALUES".toList kw = true)
    (h0 : ∀ c ∈ s0, isSpaceRe c = true)
    (hyd : ∀ c ∈ y, isDot c = true) (hyp : ∀ c ∈ y, (c == ')') = false)
    (h1 : ∀ c ∈ s1, isSpaceRe c = true) (h2 : ∀ c ∈ s2, isSpaceRe c = true)
    (hq : perconaRe.MatchString
      (insertOneRow verb ign ws into x kw s0 y ++ (s1 ++ ',' :: (s2 ++ '(' :: rest))) = false)
    (hb : perconaRe.MatchString (insertOneRow verb ign ws into x kw s0 y) = false) :
    GetFingerprint unicodeLower
        (insertOneRow verb ign ws into x kw s0 y ++ (s1 ++ ',' :: (s2 ++ '(' :: rest)))
      = GetFingerprint unicodeLower (insertOneRow verb ign ws into x kw s0 y) :=
  GetFingerprint_batched unicodeLower verb ign ws into x kw s0 y s1 s2 rest hverb hign hws hwss
    hinto hx hxd hxv hkw h0 hyd hyp h1 h2 hq hb

set_option maxRecDepth 100000 in
theorem C10_batched_insert_keeps_first_row_only_witness :
    GetFingerprint asciiOnly "INSERT INTO t VALUES (1),(2)".toList
        = GetFingerprint asciiOnly "INSERT INTO t VALUES (1)".toList
      ∧ GetFingerprint asciiOnly
          "Replace Ignore  Into inventory (id, qty) values (1, 5) , (2, 7) ON DUPLICATE KEY UPDATE qty = 7".toList
        = GetFingerprint asciiOnly
          "Replace Ignore  Into inventory (id, qty) values (1, 5)".toList :=
  ⟨C10_batched_insert_keeps_first_row_only asciiOnly "INSERT".toList [] " ".toList
      "INTO".toList " t ".toList "VALUES".toList " ".toList "1".toList [] [] "2)".toList
      (Or.inl (by decide)) (Or.inl rfl) (by decide) (by decide) (by decide) (by decide)
      (by decide) (by decide) (by decide) (by decide) (by decide) (by decide) (by decide)
      (by decide) (by decide!) (by decide!),
    C10_batched_insert_keeps_first_row_only asciiOnly "Replace".toList " Ignore".toList
      "  ".toList "Into".toList " inventory (id, qty) ".toList "values".toList " ".toList
      "1, 5".toList " ".toList " ".toList "2, 7) ON DUPLICATE KEY UPDATE qty = 7".toList
      (Or.inr (by decide)) (Or.inr (by decide)) (by decide) (by decide) (by decide) (by decide)
      (by decide) (by decide) (by decide) (by decide) (by decide) (by decide) (by decide)
      (by decide) (by decide!) (by decide!)⟩

set_option maxRecDepth 100000 in
/-- C10: the statement `INSERT INTO t VALUES (1),(2) ON DUPLICATE KEY UPDATE a=1` has two
rows and a trailing clause; with the first row only and the rest unchanged it is
`INSERT INTO t VALUES (1) ON DUPLICATE KEY UPDATE a=1`. Their fingerprints differ: the
shortening of the batched statement drops the trailing clause with the later rows. -/
theorem C10_trailing_clause_dropped_with_later_rows :
    GetFingerprint asciiOnly "INSERT INTO t VALUES (1),(2) ON DUPLICATE KEY UPDATE a=1".toList
        = .ok "insert into t values(?+)".toList
      ∧ GetFingerprint asciiOnly "INSERT INTO t VALUES (1) ON DUPLICATE KEY UPDATE a=1".toList
        = .ok "insert into t values(?+) on duplicate key update a=?".toList := by
  decide!

set_option maxRecDepth 100000 in
/-- C11 (as amended): the fingerprint of `SELECT a FROM t UNION SELECT a FROM t` is the
lower-cased first branch `select a from t` followed by one annotation, which begins
`/*repeat union` and ends `*/`, with nothing but white space in between. -/
theorem C11_one_repeat_annotation :
    ∃ w, (∀ c ∈ w, isSpaceRe c = true)
      ∧ GetFingerprint asciiOnly "SELECT a FROM t UNION SELECT a FROM t".toList
        = .ok ("select a from t".toList ++ (" /*repeat union".toList ++ (w ++ "*/".toList))) :=
  ⟨" ".toList, by decide, by decide!⟩

set_option maxRecDepth 100000 in
/-- C11: the fingerprint of `SELECT a FROM t UNION SELECT a FROM t` is not the first
branch followed by `/*repeatunion*/`, and that text occurs nowhere in it. -/
theorem C11_annotation_is_not_repeatunion :
    GetFingerprint asciiOnly "SELECT a FROM t UNION SELECT a FROM t".toList
        ≠ .ok "select a from t /*repeatunion*/".toList
      ∧ ∃ r, GetFingerprint asciiOnly "SELECT a FROM t UNION SELECT a FROM t".toList = .ok r
        ∧ ¬ ("/*repeatunion*/".toList <:+: r) :=
  ⟨by decide!, "select a from t /*repeat union */".toList, by decide!, by decide⟩

set_option maxRecDepth 100000 in
/-- C17: the query of four branches `a, a, b, b` comes back from `collapseUnion` without
the separator that stood between the second and the third branch: after the annotation of
the first run the next branch follows at once. -/
theorem C17_separator_lost_after_annotation :
    unionRegexp.Split
        "select a from t union select a from t union select b from t union select b from t".toList
        = ["select a from t".toList, "select a from t".toList, "select b from t".toList,
            "select b from t".toList]
      ∧ collapseUnion
        "select a from t union select a from t union select b from t union select b from t".toList
        = .ok "select a from t /*repeat union */select b from t /*repeat union */".toList := by
  decide!

set_option maxRecDepth 100000 in
/-- C18: in `select ascii(a) from t order by b` the text ` asc` before `order by ` is
removed: the pattern for ASC runs over the whole query. -/
theorem C18_asc_removed_before_order_by :
    stripAsc "select ascii(a) from t order by b".toList
        = .ok "selectii(a) from t order by b".toList
      ∧ GetFingerprint asciiOnly "select ascii(a) from t order by b".toList
        = .ok "selectii(a) from t order by b".toList := by
  decide!

/-- C14: for every query, `Split` on the union pattern returns one branch more than
`FindAllString` returns separators, so that with the sentinel appended the test
`len(parts) != len(separators)+2` is false, and `collapseUnion` never returns the error
"find N parts, but M separators". -/
theorem C14_one_more_branch_than_separators (query : Str) :
    (unionRegexp.Split query).length = (unionRegexp.FindAllString query).length + 1
      ∧ ((unionRegexp.Split query ++ [sentinel]).length
          != (unionRegexp.FindAllString query).length + 2) = false
      ∧ ∀ p s, collapseUnion query ≠ .error (.structural p s) :=
  ⟨Re.Split_length unionRegexp query, by simp [Re.Split_length],
    collapseUnion_not_structural query⟩

/-- C15 (as amended): a query that holds a marker `/*<db>.<table>:N/M*/`, with `db` and
`table` non-empty runs of word characters and `N` and `M` one decimal digit each, and that
does not begin with `SELECT /*!40001 SQL_NO_CACHE */ * FROM `, has the fingerprint
`percona-toolkit`; and a query that begins with `SELECT /*!40001 SQL_NO_CACHE */ * FROM `,
with these spaces, has the fingerprint `mysqldump`. -/
theorem C15_special_origin (unicodeLower : Char → Char) (pre db tbl : Str) (n m : Char)
    (post rest : Str) (hdb : db ≠ []) (hdbw : ∀ c ∈ db, isWord c = true) (htbl : tbl ≠ [])
    (htblw : ∀ c ∈ tbl, isWord c = true) (hn : isDigit n = true) (hm : isDigit m = true)
    (hdump : ¬ ("SELECT /*!40001 SQL_NO_CACHE */ * FROM ".toList
      <+: pre ++ ("/*".toList ++ (db ++ (".".toList ++ (tbl ++ (":".toList
        ++ (n :: ("/".toList ++ (m :: ("*/".toList ++ post))))))))))) :
    GetFingerprint unicodeLower (pre ++ ("/*".toList ++ (db ++ (".".toList ++ (tbl
        ++ (":".toList ++ (n :: ("/".toList ++ (m :: ("*/".toList ++ post))))))))))
        = .ok "percona-toolkit".toList
      ∧ GetFingerprint unicodeLower ("SELECT /*!40001 SQL_NO_CACHE */ * FROM ".toList ++ rest)
        = .ok "mysqldump".toList := by
  constructor
  · unfold GetFingerprint
    rw [mysqldumpRe_of_not_begin _ hdump,
      perconaRe_marker pre db tbl n m post hdb hdbw htbl htblw hn hm]
    rfl
  · unfold GetFingerprint
    rw [mysqldumpRe_begin]
    rfl

set_option maxRecDepth 100000 in
theorem C15_special_origin_witness :
    GetFingerprint asciiOnly "SELECT id FROM t /*shop.orders:3/8*/ WHERE id > 5".toList
        = .ok "percona-toolkit".toList
      ∧ GetFingerprint asciiOnly "SELECT /*!40001 SQL_NO_CACHE */ * FROM `orders`".toList
        = .ok "mysqldump".toList :=
  C15_special_origin asciiOnly "SELECT id FROM t ".toList "shop".toList "orders".toList '3' '8'
    " WHERE id > 5".toList "`orders`".toList (by decide) (by decide) (by decide) (by decide)
    (by decide) (by decide)
    (fun h => absurd (List.isPrefixOf_iff_prefix.mpr h) (by decide))

set_option maxRecDepth 100000 in
/-- C15: a marker whose numbers have two digits is not recognised, and neither is the
prefix `SELECT /*!40001 SQL_NO_CACHE*/ * FROM` without the space before `*/`: both
queries run through the whole pipeline. -/
theorem C15_longer_numbers_and_other_spacing_not_recognised :
    GetFingerprint asciiOnly "SELECT id FROM t /*shop.orders:12/34*/".toList
        = .ok "select id from t".toList
      ∧ GetFingerprint asciiOnly "SELECT /*!40001 SQL_NO_CACHE*/ * FROM t".toList
        = .ok "select * from t".toList := by
  decide!

/-- C13: for all unsigned decimal integer literals `n` and `m`, the queries
`SELECT * FROM t LIMIT n`, `SELECT * FROM t LIMIT n, m`, `SELECT * FROM t LIMIT n,m` and
`SELECT * FROM t LIMIT n OFFSET m` all have the fingerprint `select * from t limit ?`. -/
theorem C13_limit_normalization (unicodeLower : Char → Char) (n m : Str)
    (hn : n ≠ []) (hnd : ∀ c ∈ n, isDigit c = true)
    (hm : m ≠ []) (hmd : ∀ c ∈ m, isDigit c = true) :
    GetFingerprint unicodeLower ("SELECT * FROM t LIMIT ".toList ++ n)
        = .ok "select * from t limit ?".toList
      ∧ GetFingerprint unicodeLower ("SELECT * FROM t LIMIT ".toList ++ (n ++ (", ".toList ++ m)))
        = .ok "select * from t limit ?".toList
      ∧ GetFingerprint unicodeLower ("SELECT * FROM t LIMIT ".toList ++ (n ++ (",".toList ++ m)))
        = .ok "select * from t limit ?".toList
      ∧ GetFingerprint unicodeLower
          ("SELECT * FROM t LIMIT ".toList ++ (n ++ (" OFFSET ".toList ++ m)))
        = .ok "select * from t limit ?".toList :=
  ⟨GetFingerprint_limit_one unicodeLower n hn hnd,
    GetFingerprint_limit_two unicodeLower _ (by decide) n m hn hnd hm hmd,
    GetFingerprint_limit_two unicodeLower _ (by decide) n m hn hnd hm hmd,
    GetFingerprint_limit_two unicodeLower _ (by decide) n m hn hnd hm hmd⟩

theorem C13_limit_normalization_witness :
    GetFingerprint asciiOnly ("SELECT * FROM t LIMIT ".toList ++ "10".toList)
        = .ok "select * from t limit ?".toList
      ∧ GetFingerprint asciiOnly
          ("SELECT * FROM t LIMIT ".toList ++ ("10".toList ++ (", ".toList ++ "250".toList)))
        = .ok "select * from t limit ?".toList
      ∧ GetFingerprint asciiOnly
          ("SELECT * FROM t LIMIT ".toList ++ ("10".toList ++ (",".toList ++ "250".toList)))
        = .ok "select * from t limit ?".toList
      ∧ GetFingerprint asciiOnly
          ("SELECT * FROM t LIMIT ".toList ++ ("10".toList ++ (" OFFSET ".toList ++ "250".toList)))
        = .ok "select * from t limit ?".toList :=
  C13_limit_normalization asciiOnly "10".toList "250".toList (by decide) (by decide) (by decide)
    (by decide)

/-- C19: for every text, a round of the loop in which the pattern `(.+?)\s+asc` matches
gives a strictly shorter text, and the loop comes to its end within as many rounds as the
text has characters: run with that bound, it returns a text. -/
theorem C19_asc_loop_terminates (query : Str) :
    (ascRegexp.MatchString query = true →
        (ascRegexp.ReplaceAllString query [.grp 1]).length < query.length)
      ∧ (∃ r, ascLoop (query.length + 1) query = .ok r)
      ∧ ∃ r, stripAsc query = .ok r :=
  ⟨ascRegexp_shortens query,
    (ascLoop_total (query.length + 1) query (Nat.lt_succ_self _)).imp (fun _ h => h.1),
    stripAsc_total query⟩

set_option maxRecDepth 100000 in
theorem C19_asc_loop_terminates_witness :
    (ascRegexp.ReplaceAllString "select a from t order by a asc, b asc".toList [.grp 1]).length
        < "select a from t order by a asc, b asc".toList.length
      ∧ ∃ r, stripAsc "select a from t order by a asc, b asc".toList = .ok r :=
  ⟨(C19_asc_loop_terminates "select a from t order by a asc, b asc".toList).1 (by decide!),
    (C19_asc_loop_terminates "select a from t order by a asc, b asc".toList).2.2⟩

/-- C12 (as amended): take a query that is no special case and on which `collapseUnion`
returns a text `t`. If the pattern `\border by ` matches the text after the LIMIT stage,
`GetFingerprint` returns a fingerprint that the pattern `(.+?)\s+asc` does not match: it
has no character other than a line feed that is followed by white space and `asc`. -/
theorem C12_asc_fixpoint (unicodeLower : Char → Char) (query t : Str)
    (hs : isSpecial query = false)
    (ht : collapseUnion (beforeUnion unicodeLower query) = .ok t)
    (ho : orderByRe.MatchString (normalizeLimit t) = true) :
    ∃ r, GetFingerprint unicodeLower query = .ok r ∧ ascRegexp.MatchString r = false
      ∧ ∀ (a : Str) (c : Char) (w b : Str), r = a ++ c :: (w ++ ("asc".toList ++ b)) →
          isDot c = true → w ≠ [] → (∀ x ∈ w, isSpaceRe x = true) → False := by
  obtain ⟨r, hr, hm⟩ := stripAsc_of_order_by (normalizeLimit t) ho
  refine ⟨r, ?_, hm, ascRegexp_no_occurrence r hm⟩
  rw [GetFingerprint_of_not_special unicodeLower query hs]
  unfold finishFingerprint
  rw [show collapseLists (maskNull (normalizeSpace unicodeLower (maskLiterals query)))
    = beforeUnion unicodeLower query from rfl, ht]
  exact hr

set_option maxRecDepth 100000 in
theorem C12_asc_fixpoint_witness :
    (∃ r, GetFingerprint asciiOnly "SELECT a FROM t ORDER BY a ASC, b ASC".toList = .ok r
        ∧ ascRegexp.MatchString r = false
        ∧ ∀ (a : Str) (c : Char) (w b : Str), r = a ++ c :: (w ++ ("asc".toList ++ b)) →
            isDot c = true → w ≠ [] → (∀ x ∈ w, isSpaceRe x = true) → False)
      ∧ GetFingerprint asciiOnly "SELECT a FROM t ORDER BY a ASC, b ASC".toList
        = .ok "select a from t order by a, b".toList :=
  ⟨C12_asc_fixpoint asciiOnly "SELECT a FROM t ORDER BY a ASC, b ASC".toList
      "select a from t order by a asc, b asc".toList (by decide!) (by decide!) (by decide!),
    by decide!⟩

set_option maxRecDepth 100000 in
/-- C12: the normalized text of `SELECT a ASC FROM t REORDER BY b` contains `order by `,
but not at a word boundary, so the ASC stage does not run and the fingerprint keeps
` asc` after its first character. -/
theorem C12_order_by_inside_a_word :
    GetFingerprint asciiOnly "SELECT a ASC FROM t REORDER BY b".toList
        = .ok "select a asc from t reorder by b".toList
      ∧ "order by ".toList <:+: "select a asc from t reorder by b".toList
      ∧ " asc".toList <:+: "select a asc from t reorder by b".toList
      ∧ orderByRe.MatchString "select a asc from t reorder by b".toList = false :=
  ⟨by decide!, by decide, by decide, by decide!⟩

/-- C16: when the lower-case mapping of the Unicode tables gives no upper-case ASCII letter
for a character above ASCII, every fingerprint that `GetFingerprint` returns for a query
that does not begin with `administrator command: ` has no upper-case ASCII letter. -/
theorem C16_fingerprint_has_no_upper_case (unicodeLower : Char → Char)
    (hu : ∀ c, 128 ≤ c.toNat → isUpperAscii (unicodeLower c) = false) (query r : Str)
    (hadmin : ¬ ("administrator command: ".toList <+: query))
    (h : GetFingerprint unicodeLower query = .ok r) : ∀ c ∈ r, isUpperAscii c = false :=
  GetFingerprint_no_upper unicodeLower hu query r hadmin h

set_option maxRecDepth 100000 in
theorem C16_fingerprint_has_no_upper_case_witness :
    GetFingerprint asciiOnly "SELECT Name FROM Users WHERE Id IN (1, 2) ORDER BY Name ASC".toList
        = .ok "select name from users where id in(?+) order by name".toList
      ∧ ∀ c ∈ "select name from users where id in(?+) order by name".toList,
          isUpperAscii c = false :=
  ⟨by decide!,
    C16_fingerprint_has_no_upper_case asciiOnly asciiOnly_no_upper
      "SELECT Name FROM Users WHERE Id IN (1, 2) ORDER BY Name ASC".toList
      "select name from users where id in(?+) order by name".toList
      (fun h => absurd (List.isPrefixOf_iff_prefix.mpr h) (by decide)) (by decide!)⟩

/-- C20: when the lower-case mapping of the Unicode tables gives no upper-case ASCII letter
for a character above ASCII, no branch of the text that `GetFingerprint` hands to
`collapseUnion` is the sentinel node `/*Sentinel Node*/`; whereas the text
`/*Sentinel Node*/ union /*Sentinel Node*/`, given to `collapseUnion` on its own, splits
into two branches that are the sentinel node. -/
theorem C20_sentinel_is_no_branch (unicodeLower : Char → Char)
    (hu : ∀ c, 128 ≤ c.toNat → isUpperAscii (unicodeLower c) = false) (query : Str) :
    (∀ part ∈ unionRegexp.Split (beforeUnion unicodeLower query), part ≠ sentinel)
      ∧ unionRegexp.Split "/*Sentinel Node*/ union /*Sentinel Node*/".toList
        = [sentinel, sentinel] := by
  refine ⟨?_, by decide!⟩
  intro part hp he
  have hS := Re.Split_all unionRegexp (fun c => isUpperAscii c = false) _
    (beforeUnion_no_upper unicodeLower hu query) part hp 'S' (by rw [he]; decide)
  exact absurd hS (by decide)

set_option maxRecDepth 100000 in
theorem C20_sentinel_is_no_branch_witness :
    unionRegexp.Split (beforeUnion asciiOnly "SELECT a FROM t UNION SELECT a FROM t".toList)
        = ["select a from t".toList, "select a from t".toList]
      ∧ (∀ part ∈ unionRegexp.Split
            (beforeUnion asciiOnly "SELECT a FROM t UNION SELECT a FROM t".toList),
          part ≠ sentinel)
      ∧ unionRegexp.Split "/*Sentinel Node*/ union /*Sentinel Node*/".toList
        = [sentinel, sentinel] :=
  ⟨by decide!,
    C20_sentinel_is_no_branch asciiOnly asciiOnly_no_upper
      "SELECT a FROM t UNION SELECT a FROM t".toList⟩

end Yearning
